import Mathlib

/-!
# Prediction-market client: quoting engine and question codec

A shallow embedding of the pure logic of the client:

* `calculateTradeAmount` and `getMarketPrice` from `src/utils/contractUtils.js`,
  over a model of ECMAScript Number values (IEEE 754 binary64, round to nearest,
  ties to even, with overflow to the infinities and gradual underflow);
* the bytes32 question encoder of `handleCreateMarket` (`src/pages/CreateMarket.jsx`)
  and the decoder of `getMarketDetails` (`src/utils/contractUtils.js`), over
  ECMAScript strings (sequences of UTF-16 code units) and byte sequences.
-/

namespace LoafMarket

/-! ## ECMAScript strings -/

/-- A UTF-16 code unit. -/
abbrev CodeUnit := Fin 65536

/-- An ECMAScript string value: a finite sequence of UTF-16 code units
(`length` counts code units, lone surrogates are allowed). -/
abbrev JSString := List CodeUnit

/-- UTF-16 encoding of one Unicode scalar value. -/
def utf16Encode (c : ℕ) : JSString :=
  if c < 0x10000 then [Fin.ofNat c]
  else [Fin.ofNat (0xD800 + (c - 0x10000) / 0x400), Fin.ofNat (0xDC00 + (c - 0x10000) % 0x400)]

/-- The ECMAScript string denoted by a literal. -/
def js (s : String) : JSString :=
  s.toList.flatMap fun c => utf16Encode c.toNat

/-! ## Bytes, UTF-8 and hexadecimal strings

The platform and library functions used by the codec: `TextEncoder.prototype.encode`,
`TextDecoder.prototype.decode` (UTF-8, replacement of malformed input, byte order mark
removed), `Uint8Array.prototype.set`, `String.prototype.trim`, and `toHex`, `trim`,
`hexToString` of the viem library. -/

/-- An element of a `Uint8Array`. -/
abbrev Byte := Fin 256

/-- Leading (high) surrogate code units. -/
def isHighSurrogate (u : CodeUnit) : Bool := 0xD800 ≤ u.val && u.val ≤ 0xDBFF

/-- Trailing (low) surrogate code units. -/
def isLowSurrogate (u : CodeUnit) : Bool := 0xDC00 ≤ u.val && u.val ≤ 0xDFFF

/-- Unicode scalar values: code points other than surrogates. -/
def IsScalar (c : ℕ) : Prop := c < 0x110000 ∧ ¬ (0xD800 ≤ c ∧ c ≤ 0xDFFF)

/-- The Unicode scalar values of a string: surrogate pairs are combined and every lone
surrogate is replaced by U+FFFD. -/
def toScalars : JSString → List ℕ
  | [] => []
  | u :: rest =>
    if isHighSurrogate u then
      match rest with
      | [] => [0xFFFD]
      | v :: rest' =>
        if isLowSurrogate v then
          (0x10000 + (u.val - 0xD800) * 0x400 + (v.val - 0xDC00)) :: toScalars rest'
        else 0xFFFD :: toScalars (v :: rest')
    else if isLowSurrogate u then 0xFFFD :: toScalars rest
    else u.val :: toScalars rest

/-- UTF-8 encoding of one scalar value. -/
def utf8EncodeScalar (c : ℕ) : List Byte :=
  if c < 0x80 then [Fin.ofNat c]
  else if c < 0x800 then [Fin.ofNat (0xC0 + c / 64), Fin.ofNat (0x80 + c % 64)]
  else if c < 0x10000 then
    [Fin.ofNat (0xE0 + c / 4096), Fin.ofNat (0x80 + c / 64 % 64), Fin.ofNat (0x80 + c % 64)]
  else
    [Fin.ofNat (0xF0 + c / 262144), Fin.ofNat (0x80 + c / 4096 % 64),
      Fin.ofNat (0x80 + c / 64 % 64), Fin.ofNat (0x80 + c % 64)]

/-- The method `new TextEncoder().encode(s)`. -/
def textEncode (s : JSString) : List Byte :=
  (toScalars s).flatMap utf8EncodeScalar

/-- State of the UTF-8 decoder between bytes. -/
structure Utf8State where
  codePoint : ℕ
  bytesSeen : ℕ
  bytesNeeded : ℕ
  lower : ℕ
  upper : ℕ

/-- The decoder state outside a multi-byte sequence. -/
def Utf8State.initial : Utf8State :=
  { codePoint := 0, bytesSeen := 0, bytesNeeded := 0, lower := 0x80, upper := 0xBF }

/-- The decoder on a byte read outside a multi-byte sequence: the code point it emits, if
any, and the next state. -/
def utf8Start (b : ℕ) : Option ℕ × Utf8State :=
  if b ≤ 0x7F then (some b, Utf8State.initial)
  else if 0xC2 ≤ b ∧ b ≤ 0xDF then
    (none, { Utf8State.initial with bytesNeeded := 1, codePoint := b % 32 })
  else if 0xE0 ≤ b ∧ b ≤ 0xEF then
    (none, { codePoint := b % 16, bytesSeen := 0, bytesNeeded := 2,
             lower := if b = 0xE0 then 0xA0 else 0x80,
             upper := if b = 0xED then 0x9F else 0xBF })
  else if 0xF0 ≤ b ∧ b ≤ 0xF4 then
    (none, { codePoint := b % 8, bytesSeen := 0, bytesNeeded := 3,
             lower := if b = 0xF0 then 0x90 else 0x80,
             upper := if b = 0xF4 then 0x8F else 0xBF })
  else (some 0xFFFD, Utf8State.initial)

/-- The UTF-8 decoder with replacement: a malformed sequence yields U+FFFD, and the byte
that ended it is read again outside any sequence. -/
def utf8DecodeFrom : Utf8State → List Byte → List ℕ
  | st, [] => if st.bytesNeeded ≠ 0 then [0xFFFD] else []
  | st, b :: rest =>
    if st.bytesNeeded = 0 then
      (utf8Start b.val).1.toList ++ utf8DecodeFrom (utf8Start b.val).2 rest
    else if b.val < st.lower ∨ st.upper < b.val then
      0xFFFD :: ((utf8Start b.val).1.toList ++ utf8DecodeFrom (utf8Start b.val).2 rest)
    else if st.bytesSeen + 1 ≠ st.bytesNeeded then
      utf8DecodeFrom
        { codePoint := st.codePoint * 64 + b.val % 64, bytesSeen := st.bytesSeen + 1,
          bytesNeeded := st.bytesNeeded, lower := 0x80, upper := 0xBF } rest
    else (st.codePoint * 64 + b.val % 64) :: utf8DecodeFrom Utf8State.initial rest

/-- Removal of a leading byte order mark. -/
def stripBOM : List ℕ → List ℕ
  | c :: rest => if c = 0xFEFF then rest else c :: rest
  | [] => []

/-- The method `new TextDecoder().decode(bytes)`. -/
def textDecode (bytes : List Byte) : JSString :=
  (stripBOM (utf8DecodeFrom Utf8State.initial bytes)).flatMap utf16Encode

/-- The constructor `new Uint8Array(n)`: `n` zero bytes. -/
def uint8ArrayNew (n : ℕ) : List Byte := List.replicate n 0

/-- The method `target.set(source)`: the source is copied to the start of the target;
`none` is the RangeError thrown when the source is longer than the target. -/
def typedArraySet (target source : List Byte) : Option (List Byte) :=
  if source.length ≤ target.length then some (source ++ target.drop source.length) else none

/-- The lower-case hexadecimal digit of a value below 16. -/
def hexDigit (n : ℕ) : CodeUnit := if n < 10 then Fin.ofNat (48 + n) else Fin.ofNat (87 + n)

/-- Two hexadecimal digits of a byte. -/
def byteToHex (b : Byte) : JSString := [hexDigit (b.val / 16), hexDigit (b.val % 16)]

/-- The viem function `toHex` on a byte array: `0x` followed by two digits per byte. -/
def toHex (bytes : List Byte) : JSString := js "0x" ++ bytes.flatMap byteToHex

/-- Removal of the first occurrence of the two characters `0x`, as `replace('0x', '')` does. -/
def removeFirst0x : JSString → JSString
  | [] => []
  | [u] => [u]
  | u :: v :: rest =>
    if u.val = 48 ∧ v.val = 120 then rest else u :: removeFirst0x (v :: rest)

/-- The number of leading characters `0` among the first `limit` characters. -/
def leadingZeroChars : ℕ → JSString → ℕ
  | 0, _ => 0
  | _, [] => 0
  | limit + 1, u :: rest => if u.val = 48 then leadingZeroChars limit rest + 1 else 0

/-- The viem function `trim(hex)` on a string, with its default direction (left): the
leading zero digits are removed, all but the last character, and the result is padded to an
even number of digits. -/
def trimHex (hex : JSString) : JSString :=
  let data := removeFirst0x hex
  let data := data.drop (leadingZeroChars (data.length - 1) data)
  js "0x" ++ (if data.length % 2 = 1 then js "0" ++ data else data)

/-- The value of a hexadecimal digit; `none` for any other code unit. -/
def charCodeToBase16 (u : CodeUnit) : Option ℕ :=
  if 48 ≤ u.val ∧ u.val ≤ 57 then some (u.val - 48)
  else if 65 ≤ u.val ∧ u.val ≤ 70 then some (u.val - 55)
  else if 97 ≤ u.val ∧ u.val ≤ 102 then some (u.val - 87)
  else none

/-- Pairs of hexadecimal digits to bytes; `none` when a character is not a digit. -/
def parseHexPairs : JSString → Option (List Byte)
  | [] => some []
  | [_] => none
  | u :: v :: rest =>
    match charCodeToBase16 u, charCodeToBase16 v, parseHexPairs rest with
    | some l, some r, some bytes => some (Fin.ofNat (l * 16 + r) :: bytes)
    | _, _, _ => none

/-- The viem function `hexToBytes`: the first two characters are dropped, an odd number of
digits is padded on the left; `none` is the error thrown on a character that is not a
hexadecimal digit. -/
def hexToBytes (hex : JSString) : Option (List Byte) :=
  let hexString := hex.drop 2
  parseHexPairs (if hexString.length % 2 = 1 then js "0" ++ hexString else hexString)

/-- The viem function `hexToString(hex)` without a size option. -/
def hexToString (hex : JSString) : Option JSString :=
  (hexToBytes hex).map textDecode

/-- White space and line terminators, the characters removed by `trim`. -/
def isWhiteSpace (u : CodeUnit) : Bool :=
  (0x09 ≤ u.val && u.val ≤ 0x0D) || u.val = 0x20 || u.val = 0xA0 || u.val = 0x1680
    || (0x2000 ≤ u.val && u.val ≤ 0x200A) || u.val = 0x2028 || u.val = 0x2029
    || u.val = 0x202F || u.val = 0x205F || u.val = 0x3000 || u.val = 0xFEFF

/-- The method `String.prototype.trim`. -/
def jsTrim (s : JSString) : JSString :=
  ((s.dropWhile isWhiteSpace).reverse.dropWhile isWhiteSpace).reverse

/-- The string neither starts nor ends with white space. -/
def isTrimmed (s : JSString) : Bool :=
  match s.head?, s.getLast? with
  | some first, some last => !isWhiteSpace first && !isWhiteSpace last
  | _, _ => true

/-- The replacement `s.replace(/\0/g, '')`: every NUL character is removed. -/
def removeNul (s : JSString) : JSString := s.filter fun u => u.val ≠ 0

/-- A hexadecimal digit in either case. -/
def isHexChar (u : CodeUnit) : Bool :=
  (48 ≤ u.val && u.val ≤ 57) || (65 ≤ u.val && u.val ≤ 70) || (97 ≤ u.val && u.val ≤ 102)

/-- The test `/^[0-9a-f]+$/i.test(s)`: a non-empty string of hexadecimal digits. -/
def isHexPattern (s : JSString) : Bool := !s.isEmpty && s.all isHexChar

/-! ## The question codec -/

/-- The 32-byte buffer built by `handleCreateMarket` (`src/pages/CreateMarket.jsx`) from the
question; `none` would be an exception thrown by `set`. -/
def questionBuffer (question : JSString) : Option (List Byte) :=
  let questionBytes := textEncode question
  if questionBytes.length ≤ 32 then
    typedArraySet (uint8ArrayNew 32) questionBytes
  else
    let truncated := questionBytes.take 32
    typedArraySet (uint8ArrayNew 32) truncated

/-- The value `questionHash` that `handleCreateMarket` passes to the contract. -/
def questionHash (question : JSString) : Option JSString :=
  (questionBuffer question).map toHex

/-- The fallback label of `getMarketDetails`. -/
def fallbackQuestion (marketAddress : JSString) : JSString :=
  js "Market Question (" ++ marketAddress.take 8 ++ js "...)"

/-- The question decoding step of `getMarketDetails` (`src/utils/contractUtils.js`), on the
raw value read from the contract and the market address. -/
def decodeQuestion (questionHash marketAddress : JSString) : JSString :=
  match hexToString (trimHex questionHash) with
  | some decoded =>
    let question := jsTrim (removeNul decoded)
    if question.isEmpty || question.length < 3 || question.contains (0xFFFD : CodeUnit)
        || isHexPattern question then
      fallbackQuestion marketAddress
    else question
  | none => fallbackQuestion marketAddress

/-! ## ECMAScript Number values

A Number is NaN, one of the two infinities, or a finite binary64 value, kept as
the rational it denotes.  The sign of zero is not tracked: the functions below
only compare, add, subtract, multiply, take absolute values and format, none of
which tells `-0` from `+0`, and they divide only by a divisor that is not zero
(`getMarketPrice` returns before dividing when the total is zero; in
`calculateTradeAmount` the divisor is NaN or positive). -/

/-- ECMAScript Number values. -/
inductive JSNumber where
  | nan
  | posInf
  | negInf
  | fin (q : ℚ)
deriving DecidableEq

namespace JSNumber

/-- Exponent of the binade of `x`, clamped below at the subnormal range. -/
def binade (x : ℚ) : ℤ := max (Int.log 2 |x|) (-1022)

/-- Spacing of the binary64 values of binade `b` (53 significant bits). -/
def gridStep (b : ℤ) : ℚ := (2 : ℚ) ^ (b - 52)

/-- Spacing of binary64 values around `x`. -/
def ulp (x : ℚ) : ℚ := gridStep (binade x)

/-- Nearest integer, ties to even. -/
def roundHalfEven (r : ℚ) : ℤ :=
  if r - ⌊r⌋ < 1 / 2 then ⌊r⌋
  else if 1 / 2 < r - ⌊r⌋ then ⌊r⌋ + 1
  else if ⌊r⌋ % 2 = 0 then ⌊r⌋ else ⌊r⌋ + 1

/-- Round to nearest, ties to even, on the binary64 grid with unbounded exponent above. -/
def roundQ (x : ℚ) : ℚ := roundHalfEven (x / ulp x) * ulp x

/-- The Number nearest to the exact value `x` (overflow goes to the infinities). -/
def ofRat (x : ℚ) : JSNumber :=
  if 2 ^ 1024 ≤ roundQ x then posInf
  else if roundQ x ≤ -(2 ^ 1024) then negInf
  else fin (roundQ x)

/-- The rational `x` is a finite binary64 value. -/
def IsDouble (x : ℚ) : Prop := ofRat x = fin x

instance (x : ℚ) : Decidable (IsDouble x) := by unfold IsDouble; infer_instance

/-- A Number whose finite payload is a binary64 value. -/
def WellFormed : JSNumber → Prop
  | fin q => IsDouble q
  | _ => True

instance : (x : JSNumber) → Decidable (WellFormed x)
  | nan => isTrue trivial
  | posInf => isTrue trivial
  | negInf => isTrue trivial
  | fin q => by unfold WellFormed; infer_instance

/-- Number addition `x + y`. -/
def add : JSNumber → JSNumber → JSNumber
  | nan, _ => nan
  | _, nan => nan
  | posInf, negInf => nan
  | negInf, posInf => nan
  | posInf, _ => posInf
  | _, posInf => posInf
  | negInf, _ => negInf
  | _, negInf => negInf
  | fin a, fin b => ofRat (a + b)

/-- Number subtraction `x - y`. -/
def sub : JSNumber → JSNumber → JSNumber
  | nan, _ => nan
  | _, nan => nan
  | posInf, posInf => nan
  | negInf, negInf => nan
  | posInf, _ => posInf
  | _, negInf => posInf
  | negInf, _ => negInf
  | _, posInf => negInf
  | fin a, fin b => ofRat (a - b)

/-- An infinity of the given sign. -/
def infOfSign (negative : Bool) : JSNumber := if negative then negInf else posInf

/-- Number multiplication `x * y`. -/
def mul : JSNumber → JSNumber → JSNumber
  | nan, _ => nan
  | _, nan => nan
  | posInf, posInf => posInf
  | posInf, negInf => negInf
  | negInf, posInf => negInf
  | negInf, negInf => posInf
  | posInf, fin b => if b = 0 then nan else infOfSign (decide (b < 0))
  | negInf, fin b => if b = 0 then nan else infOfSign (decide (0 < b))
  | fin a, posInf => if a = 0 then nan else infOfSign (decide (a < 0))
  | fin a, negInf => if a = 0 then nan else infOfSign (decide (0 < a))
  | fin a, fin b => ofRat (a * b)

/-- Number division `x / y` (a zero divisor is taken as `+0`). -/
def div : JSNumber → JSNumber → JSNumber
  | nan, _ => nan
  | _, nan => nan
  | posInf, posInf => nan
  | posInf, negInf => nan
  | negInf, posInf => nan
  | negInf, negInf => nan
  | posInf, fin b => infOfSign (decide (b < 0))
  | negInf, fin b => infOfSign (decide (0 ≤ b))
  | fin _, posInf => fin 0
  | fin _, negInf => fin 0
  | fin a, fin b =>
    if b = 0 then (if a = 0 then nan else infOfSign (decide (a < 0)))
    else ofRat (a / b)

/-- The function `Math.abs`. -/
def abs : JSNumber → JSNumber
  | nan => nan
  | posInf => posInf
  | negInf => posInf
  | fin a => fin |a|

/-- The comparison `x <= y` (false when either side is NaN). -/
def le : JSNumber → JSNumber → Bool
  | nan, _ => false
  | _, nan => false
  | negInf, _ => true
  | _, posInf => true
  | posInf, _ => false
  | _, negInf => false
  | fin a, fin b => decide (a ≤ b)

/-- The comparison `x < y` (false when either side is NaN). -/
def lt : JSNumber → JSNumber → Bool
  | nan, _ => false
  | _, nan => false
  | posInf, _ => false
  | _, negInf => false
  | negInf, _ => true
  | _, posInf => true
  | fin a, fin b => decide (a < b)

/-- Strict equality `x === y` on Numbers (NaN equals nothing). -/
def strictEq : JSNumber → JSNumber → Bool
  | posInf, posInf => true
  | negInf, negInf => true
  | fin a, fin b => decide (a = b)
  | _, _ => false

end JSNumber

/-! ## Number formatting -/

/-- The code unit of the decimal digit `d`. -/
def digitUnit (d : ℕ) : CodeUnit := Fin.ofNat (48 + d % 10)

/-- Decimal digits of `n`, most significant first, with `fuel` bounding the recursion. -/
def decimalDigitsAux : ℕ → ℕ → JSString
  | 0, _ => []
  | fuel + 1, n =>
    if n < 10 then [digitUnit n] else decimalDigitsAux fuel (n / 10) ++ [digitUnit n]

/-- The decimal representation of a natural number (the single digit 0 for zero). -/
def decimalDigits (n : ℕ) : JSString := decimalDigitsAux (n + 1) n

/-- The `k` least significant decimal digits of `n`, most significant first, with leading
zeros. -/
def lastDigits : ℕ → ℕ → JSString
  | 0, _ => []
  | k + 1, n => lastDigits k (n / 10) ++ [digitUnit n]

/-- Fixed-point notation, with exactly six fractional digits, of the value `n / 10^6`. -/
def fixed6 (n : ℕ) : JSString := decimalDigits (n / 10 ^ 6) ++ js "." ++ lastDigits 6 n

/-- Nearest integer to `r`, the larger one on a tie. -/
def roundHalfUp (r : ℚ) : ℤ := ⌊r + 1 / 2⌋

/-- The method `Number.prototype.toFixed(f)` for `0 ≤ f ≤ 100`.  `numberToString` stands for
the ECMAScript Number-to-String conversion of finite values of magnitude at least `10^21`
(exponent notation), which is not modelled. -/
def toFixed (numberToString : ℚ → JSString) (x : JSNumber) (f : ℕ) : JSString :=
  match x with
  | .nan => js "NaN"
  | .posInf => js "Infinity"
  | .negInf => js "-Infinity"
  | .fin q =>
    let s : JSString := if q < 0 then js "-" else []
    let a : ℚ := |q|
    if (10 : ℚ) ^ 21 ≤ a then s ++ numberToString a
    else
      let n : ℕ := (roundHalfUp (a * 10 ^ f)).toNat
      let m : JSString := decimalDigits n
      if f ≠ 0 then
        let m : JSString := if m.length ≤ f then List.replicate (f + 1 - m.length) (digitUnit 0) ++ m else m
        s ++ (m.take (m.length - f) ++ js "." ++ m.drop (m.length - f))
      else s ++ m

/-- A stand-in for the exponent-notation conversion, for evaluating the functions on values
below `10^21`, where that conversion is never called. -/
def noExponent : ℚ → JSString := fun _ => []

/-! ## The quoting engine (`src/utils/contractUtils.js`) -/

set_option linter.unusedVariables false in
/-- The function `calculateTradeAmount(poolAmount, tradeAmount, isYes)`.  The arguments
`pool` and `trade` are the completions of `parseFloat(poolAmount)` and
`parseFloat(tradeAmount)`: `none` when the conversion throws, which the `catch` block
turns into the string 0. -/
def calculateTradeAmount (numberToString : ℚ → JSString)
    (pool trade : Option JSNumber) (isYes : Bool) : JSString :=
  match pool, trade with
  | some pool, some trade =>
    if pool.le (.fin 0) || trade.le (.fin 0) then js "0"
    else
      let newPool := pool.add trade
      let otherPool := (pool.mul pool).div newPool
      let shares := (otherPool.sub pool).abs
      toFixed numberToString shares 6
  | _, _ => js "0"

set_option linter.unusedVariables false in
/-- The Number `shares` that `calculateTradeAmount` computes, before `toFixed` formats it,
from operands that pass its guard. -/
def tradeShares (pool trade : JSNumber) (isYes : Bool) : JSNumber :=
  let newPool := pool.add trade
  let otherPool := (pool.mul pool).div newPool
  (otherPool.sub pool).abs

/-- The record returned by `getMarketPrice`. -/
structure PricePair where
  yesPrice : JSNumber
  noPrice : JSNumber
deriving DecidableEq

/-- The Number literal `0.5`. -/
def half : JSNumber := .fin (1 / 2)

/-- Arithmetic steps of `getMarketPrice`, in the order they are executed. -/
inductive PriceOp where
  | addition
  | comparison
  | division
deriving DecidableEq

/-- The function `getMarketPrice(yesPool, noPool)` together with the arithmetic steps it
executes.  The arguments `yes` and `no` are the completions of `parseFloat(yesPool)` and
`parseFloat(noPool)`: `none` when the conversion throws, which the `catch` block turns
into the pair (0.5, 0.5). -/
def getMarketPriceTraced (yes no : Option JSNumber) : PricePair × List PriceOp :=
  match yes, no with
  | some yes, some no =>
    let total := yes.add no
    if total.strictEq (.fin 0) then (⟨half, half⟩, [.addition, .comparison])
    else (⟨no.div total, yes.div total⟩, [.addition, .comparison, .division, .division])
  | _, _ => (⟨half, half⟩, [])

/-- The function `getMarketPrice(yesPool, noPool)`. -/
def getMarketPrice (yes no : Option JSNumber) : PricePair :=
  (getMarketPriceTraced yes no).1

/-- The share quantity as the specification words it, in exact arithmetic:
`|poolReserve² / (poolReserve + tradeAmount) − poolReserve|`. -/
def sharesFormula (pool trade : ℚ) : ℚ := |pool ^ 2 / (pool + trade) - pool|

/-- The quote as the specification words it: the decimal string with six fractional digits
nearest to the exact share quantity. -/
def quoteFormula (pool trade : ℚ) : JSString :=
  fixed6 (roundHalfUp (sharesFormula pool trade * 10 ^ 6)).toNat

/-- The price pair as the specification words it: each outcome is priced at the opposite
reserve divided by the sum of the reserves. -/
def priceFormula (yesReserve noReserve : JSNumber) : PricePair :=
  { yesPrice := noReserve.div (yesReserve.add noReserve)
    noPrice := yesReserve.div (yesReserve.add noReserve) }

/-- The text of a buffer as the specification words it: the UTF-8 decoding of the buffer with
NUL characters removed and surrounding white space trimmed. -/
def cleanedText (buffer : List Byte) : JSString := jsTrim (removeNul (textDecode buffer))

/-- The buffer that the decoder parses from the trimmed hexadecimal string. -/
def stripLeadingZeros (buffer : List Byte) : List Byte :=
  if buffer.dropWhile (fun b => b.val = 0) = [] then [0]
  else buffer.dropWhile (fun b => b.val = 0)

/-- The byte `b` lies in the closed range from `lo` to `hi`. -/
def inByteRange (b : Byte) (lo hi : ℕ) : Bool := lo ≤ b.val && b.val ≤ hi

/-- The length of the well-formed UTF-8 sequence at the start of the bytes, as tabulated in
the Unicode Standard (table 3-7); `none` when the bytes do not start with one. -/
def utf8SequenceLength : List Byte → Option ℕ
  | [] => none
  | b :: rest =>
    if b.val ≤ 0x7F then some 1
    else if 0xC2 ≤ b.val ∧ b.val ≤ 0xDF then
      match rest with
      | c :: _ => if inByteRange c 0x80 0xBF then some 2 else none
      | _ => none
    else if 0xE0 ≤ b.val ∧ b.val ≤ 0xEF then
      match rest with
      | c :: d :: _ =>
        if inByteRange c (if b.val = 0xE0 then 0xA0 else 0x80)
              (if b.val = 0xED then 0x9F else 0xBF)
            && inByteRange d 0x80 0xBF then some 3 else none
      | _ => none
    else if 0xF0 ≤ b.val ∧ b.val ≤ 0xF4 then
      match rest with
      | c :: d :: e :: _ =>
        if inByteRange c (if b.val = 0xF0 then 0x90 else 0x80)
              (if b.val = 0xF4 then 0x8F else 0xBF)
            && inByteRange d 0x80 0xBF && inByteRange e 0x80 0xBF then some 4 else none
      | _ => none
    else none

/-- Well-formed UTF-8: a concatenation of well-formed sequences (`fuel` bounds the number of
sequences). -/
def wellFormedUtf8Aux : ℕ → List Byte → Bool
  | _, [] => true
  | 0, _ :: _ => false
  | fuel + 1, b :: rest =>
    match utf8SequenceLength (b :: rest) with
    | none => false
    | some n => wellFormedUtf8Aux fuel ((b :: rest).drop n)

/-- Well-formed UTF-8 byte sequences. -/
def wellFormedUtf8 (bytes : List Byte) : Bool := wellFormedUtf8Aux bytes.length bytes

/-! ## Contract reads and the market record (`src/utils/contractUtils.js`) -/

/-- The viem function `formatUnits(value, decimals)` on a non-negative integer: the decimal
rendering of `value / 10^decimals` without trailing zeros. -/
def formatUnits (value decimals : ℕ) : JSString :=
  let display := decimalDigits value
  let display := List.replicate (decimals - display.length) (digitUnit 0) ++ display
  let integer := display.take (display.length - decimals)
  let fraction := display.drop (display.length - decimals)
  let fraction := (fraction.reverse.dropWhile fun u => u = digitUnit 0).reverse
  (if integer.isEmpty then js "0" else integer)
    ++ (if fraction.isEmpty then [] else js "." ++ fraction)

/-- The viem function `formatEther(value)`. -/
def formatEther (value : ℕ) : JSString := formatUnits value 18

/-- The values read from a market contract by `getMarketDetails`. -/
structure MarketReads where
  question : JSString
  resolveTimestamp : ℕ
  state : ℕ
  resolutionOutcome : Bool
  yesPool : ℕ
  noPool : ℕ
  feeBps : ℕ
  feeRecipient : JSString
  settlementToken : JSString
  totalYesPositions : ℕ
  totalNoPositions : ℕ
deriving DecidableEq

/-- The outcomes of the contract reads made through the public client; `none` is a read
that fails. -/
structure ChainReads where
  markets : Option (List JSString)
  market : Option MarketReads
  positions : Option (ℕ × ℕ)
  allowance : Option ℕ
deriving DecidableEq

/-- The record built by `getMarketDetails`. -/
structure MarketData where
  address : JSString
  settlementToken : JSString
  question : JSString
  creator : JSString
  resolveTimestamp : JSNumber
  resolved : Bool
  outcome : Bool
  totalVolume : JSString
  yesPool : JSString
  noPool : JSString
  feeBps : JSNumber
  feeRecipient : JSString
  admin : JSString
  totalYesPositions : JSString
  totalNoPositions : JSString
deriving DecidableEq

/-- The function `getAllMarkets(publicClient)`: a missing client and a failing read are
caught and give the empty list. -/
def getAllMarkets (publicClient : Option ChainReads) : List JSString :=
  match publicClient with
  | none => []
  | some client =>
    match client.markets with
    | some marketAddresses => marketAddresses
    | none => []

/-- The function `getMarketDetails(marketAddress, publicClient)`; `none` is the error it
rethrows when the client is missing or one of the reads fails. -/
def getMarketDetails (marketAddress : JSString) (publicClient : Option ChainReads) :
    Option MarketData :=
  match publicClient with
  | none => none
  | some client =>
    match client.market with
    | none => none
    | some reads =>
      let question := decodeQuestion reads.question marketAddress
      let totalVolume := reads.yesPool + reads.noPool
      some
        { address := marketAddress
          settlementToken := reads.settlementToken
          question := question
          creator := js "N/A"
          resolveTimestamp := JSNumber.ofRat reads.resolveTimestamp
          resolved := decide (reads.state = 2)
          outcome := reads.resolutionOutcome
          totalVolume := formatEther totalVolume
          yesPool := formatEther reads.yesPool
          noPool := formatEther reads.noPool
          feeBps := JSNumber.ofRat reads.feeBps
          feeRecipient := reads.feeRecipient
          admin := js "N/A"
          totalYesPositions := formatEther reads.totalYesPositions
          totalNoPositions := formatEther reads.totalNoPositions }

/-- An address value is truthy: defined and not the empty string. -/
def truthy (value : Option JSString) : Bool :=
  match value with
  | some s => !s.isEmpty
  | none => false

/-- The function `getUserAllowance(userAddress, spenderAddress, publicClient)`: a missing
argument and a failing read give the string 0. -/
def getUserAllowance (userAddress spenderAddress : Option JSString)
    (publicClient : Option ChainReads) : JSString :=
  if !truthy userAddress || !truthy spenderAddress then js "0"
  else
    match publicClient with
    | none => js "0"
    | some client =>
      match client.allowance with
      | some allowance => formatEther allowance
      | none => js "0"

/-- The record returned by `getUserMarketShares`. -/
structure UserShares where
  yesShares : JSString
  noShares : JSString
deriving DecidableEq

/-- The function `getUserMarketShares(userAddress, marketAddress, publicClient)`: a missing
argument and a failing read give zero shares. -/
def getUserMarketShares (userAddress marketAddress : Option JSString)
    (publicClient : Option ChainReads) : UserShares :=
  if !truthy userAddress || !truthy marketAddress then ⟨js "0", js "0"⟩
  else
    match publicClient with
    | none => ⟨js "0", js "0"⟩
    | some client =>
      match client.positions with
      | some (yesShares, noShares) => ⟨formatEther yesShares, formatEther noShares⟩
      | none => ⟨js "0", js "0"⟩

/-! ## Parsing amounts: `parseFloat` and the viem function `parseEther` -/

/-- The code unit is an ASCII decimal digit. -/
def isDigit (u : CodeUnit) : Bool := 48 ≤ u.val && u.val ≤ 57

/-- The number written by a string of decimal digits, 0 for the empty string. -/
def digitsValue (digits : JSString) : ℕ :=
  digits.foldl (fun n u => 10 * n + (u.val - 48)) 0

/-- The value of the exponent part at the head of `rest` (the letter e, an optional sign
and at least one digit), 0 when there is none. -/
def exponentPart (rest : JSString) : ℤ :=
  if rest.head? = some 101 ∨ rest.head? = some 69 then
    let signed := rest.tail
    let digits :=
      if signed.head? = some 45 ∨ signed.head? = some 43 then signed.tail else signed
    let magnitude : ℤ := digitsValue (digits.takeWhile isDigit)
    if signed.head? = some 45 then -magnitude else magnitude
  else 0

/-- The decimal literal found by `parseFloat`: the word Infinity or a number
`digits * 10 ^ exponent`, with a sign. -/
inductive StrDecimalLiteral where
  | infinity (negative : Bool)
  | decimal (negative : Bool) (digits : ℕ) (exponent : ℤ)
deriving DecidableEq

/-- The longest leading part of the trimmed string that is a decimal literal (digits with an
optional point and exponent, or Infinity, after an optional sign), if there is one. -/
def strDecimalLiteral (string : JSString) : Option StrDecimalLiteral :=
  let trimmed := string.dropWhile isWhiteSpace
  let negative := decide (trimmed.head? = some 45)
  let unsigned :=
    if trimmed.head? = some 45 ∨ trimmed.head? = some 43 then trimmed.tail else trimmed
  if (js "Infinity").isPrefixOf unsigned then some (.infinity negative)
  else
    let integer := unsigned.takeWhile isDigit
    let afterInteger := unsigned.dropWhile isDigit
    let hasPoint := decide (afterInteger.head? = some 46)
    let fraction := if hasPoint then afterInteger.tail.takeWhile isDigit else []
    let afterFraction := if hasPoint then afterInteger.tail.dropWhile isDigit else afterInteger
    if integer.isEmpty && fraction.isEmpty then none
    else
      some (.decimal negative (digitsValue (integer ++ fraction))
        (exponentPart afterFraction - fraction.length))

/-- The built-in `parseFloat(string)`: the Number value of the longest leading part of the
trimmed string that is a decimal literal, NaN when there is none. -/
def parseFloat (string : JSString) : JSNumber :=
  match strDecimalLiteral string with
  | none => .nan
  | some (.infinity negative) => JSNumber.infOfSign negative
  | some (.decimal negative digits exponent) =>
    let magnitude : ℚ := digits * (10 : ℚ) ^ exponent
    JSNumber.ofRat (if negative then -magnitude else magnitude)

/-- The test of the pattern `/^(-?)([0-9]*)\.?([0-9]*)$/` made by `parseUnits`. -/
def isDecimalPattern (value : JSString) : Bool :=
  let unsigned := if value.head? = some 45 then value.tail else value
  let afterInteger := unsigned.dropWhile isDigit
  let afterPoint := if afterInteger.head? = some 46 then afterInteger.tail else afterInteger
  afterPoint.all isDigit

/-- The value `Math.round(Number(unit + "." + right))` for strings of digits. -/
def roundDecimal (unit right : JSString) : ℤ :=
  match JSNumber.ofRat (digitsValue unit + (digitsValue right : ℚ) / 10 ^ right.length) with
  | .fin q => roundHalfUp q
  | _ => 0

/-- The viem function `parseUnits(value, decimals)`; `none` is the error thrown for text
that is not a decimal number.  The integer and fraction digit strings are carried as in the
source and their concatenation is read as one integer at the end. -/
def parseUnits (value : JSString) (decimals : ℕ) : Option ℤ :=
  if !isDecimalPattern value then none
  else
    let negative := decide (value.head? = some 45)
    let unsigned := if negative then value.tail else value
    let integer := unsigned.takeWhile isDigit
    let afterInteger := unsigned.dropWhile isDigit
    let fraction := if afterInteger.head? = some 46 then afterInteger.tail else js "0"
    let fraction := (fraction.reverse.dropWhile fun u => u = 48).reverse
    let magnitude : ℤ :=
      if decimals = 0 then
        if roundDecimal [] fraction = 1 then digitsValue integer + 1 else digitsValue integer
      else if decimals < fraction.length then
        let left := fraction.take (decimals - 1)
        let unit := (fraction.drop (decimals - 1)).take 1
        let right := fraction.drop decimals
        digitsValue integer * 10 ^ decimals + digitsValue left * 10 + roundDecimal unit right
      else
        digitsValue (integer ++ fraction ++ List.replicate (decimals - fraction.length) 48)
    some (if negative then -magnitude else magnitude)

/-- The viem function `parseEther(ether)`. -/
def parseEther (ether : JSString) : Option ℤ := parseUnits ether 18

/-! ## Page state and handlers (`src/App.jsx`, `src/pages/MarketDetails.jsx`) -/

/-- The completion of an awaited call: a value, or a thrown error with its message (empty
when the error has none). -/
inductive Outcome (α : Type) where
  | ok (value : α)
  | failed (message : JSString)
deriving DecidableEq

/-- The argument of `handleTrade`, the string yes or no. -/
inductive TradeType where
  | yes
  | no
deriving DecidableEq

/-- The contract function called for a trade type. -/
def TradeType.functionName : TradeType → JSString
  | .yes => js "buyYes"
  | .no => js "buyNo"

/-- The method `type.toUpperCase()`. -/
def TradeType.toUpperCase : TradeType → JSString
  | .yes => js "YES"
  | .no => js "NO"

/-- The observable steps of a handler, in the order they happen: notifications, state
updates, the contract write of a trade (`writeContract`) or of an approval (`writeApprove`,
whose amount is passed as text) and the successful wait for its receipt. -/
inductive UiEvent where
  | toastError (message : JSString)
  | toastSuccess (message : JSString)
  | setMarkets (markets : List JSString)
  | setMarket (market : MarketData)
  | setUserShares (shares : UserShares)
  | setAllowance (allowance : JSString)
  | refetchBalance
  | setTradeAmount (value : JSString)
  | setTrading (type : Option TradeType) (loading : Bool)
  | setRefreshing (refreshing : Bool)
  | writeContract (functionName : JSString) (amount : ℤ)
  | receiptAwaited
  | setApproving (approving : Bool)
  | writeApprove (spender : JSString) (amount : JSString)
deriving DecidableEq

/-- The displayed state: the market list of `App`, and the market data, user shares and
allowance of `MarketDetails`. -/
structure DisplayState where
  markets : List JSString
  market : Option MarketData
  userShares : UserShares
  allowance : JSString
deriving DecidableEq

/-- The effect of one step on the displayed state. -/
def DisplayState.step (s : DisplayState) : UiEvent → DisplayState
  | .setMarkets markets => { s with markets := markets }
  | .setMarket market => { s with market := some market }
  | .setUserShares shares => { s with userShares := shares }
  | .setAllowance allowance => { s with allowance := allowance }
  | _ => s

/-- The displayed state after a sequence of steps. -/
def DisplayState.run (s : DisplayState) (events : List UiEvent) : DisplayState :=
  events.foldl DisplayState.step s

/-- The function `refreshMarkets` of `App`. -/
def refreshMarkets (publicClient : Option ChainReads) : List UiEvent :=
  [.setMarkets (getAllMarkets publicClient)]

/-- The steps of a data refresh once the three fetches have settled: the three state updates
when `getMarketDetails` succeeds, and the given notification when it throws. -/
def refreshSteps (marketAddress : JSString) (address : Option JSString)
    (publicClient : Option ChainReads) (onFailure : UiEvent) : List UiEvent :=
  match getMarketDetails marketAddress publicClient with
  | some marketData =>
    [.setMarket marketData,
      .setUserShares (getUserMarketShares address (some marketAddress) publicClient),
      .setAllowance (getUserAllowance address (some marketAddress) publicClient),
      .refetchBalance,
      .toastSuccess (js "Data refreshed successfully!")]
  | none => [onFailure]

/-- The function `handleRefreshData` of `MarketDetails`. -/
def handleRefreshData (marketAddress : JSString) (address : Option JSString)
    (publicClient : Option ChainReads) : List UiEvent :=
  if marketAddress.isEmpty || !truthy address || publicClient.isNone then []
  else
    [.setRefreshing true]
      ++ refreshSteps marketAddress address publicClient
          (.toastError (js "Failed to refresh data"))
      ++ [.setRefreshing false]

/-- What `handleTrade` reads from its surroundings: the wallet state, the form field, and
the completions of the calls it awaits (`readsBefore` when the allowance is checked,
`readsAfter` when the data is fetched again). -/
structure TradeEnv where
  isConnected : Bool
  chainId : Option ℕ
  address : Option JSString
  marketAddress : JSString
  tradeAmount : JSString
  walletChainId : Outcome (Option ℕ)
  readsBefore : Option ChainReads
  write : Outcome Unit
  receipt : Outcome Unit
  readsAfter : Option ChainReads

/-- The notification of the outer `catch` block of `handleTrade`. -/
def tradeFailed (message : JSString) : UiEvent :=
  .toastError (js "Trade failed: " ++ (if message.isEmpty then js "Unknown error" else message))

/-- The function `handleTrade(type)` of `MarketDetails`.  The chain identifier `sepolia`
(the constant `SEPOLIA_CHAIN_ID`), the built-in `parseFloat` and the viem function
`parseEther` (which throws on text that is not a decimal number) are parameters; the
functions `parseFloat` and `parseEther` below are their models. -/
def handleTrade (sepolia : ℕ) (parseFloat : JSString → JSNumber)
    (parseEther : JSString → Outcome ℤ) (env : TradeEnv) (type : TradeType) : List UiEvent :=
  if !env.isConnected then [.toastError (js "Please connect your wallet")]
  else if env.chainId ≠ some sepolia then [.toastError (js "Please switch to Sepolia testnet")]
  else if env.tradeAmount.isEmpty || (parseFloat env.tradeAmount).le (.fin 0) then
    [.toastError (js "Please enter a valid trade amount")]
  else
    [.setTrading (some type) true]
      ++ (match env.walletChainId with
        | .failed message => [tradeFailed message]
        | .ok walletChainId =>
          if walletChainId ≠ some sepolia then
            [.toastError (js "Please switch to the correct chain (Sepolia)")]
          else
            let currentAllowance :=
              getUserAllowance env.address (some env.marketAddress) env.readsBefore
            let requiredAmount := parseFloat env.tradeAmount
            let allowanceAmount := parseFloat currentAllowance
            if allowanceAmount.lt requiredAmount then
              [.toastError (js "Insufficient allowance. Please approve tokens first."),
                .setTrading none false]
            else
              match parseEther env.tradeAmount with
              | .failed message => [tradeFailed message]
              | .ok amount =>
                [.writeContract type.functionName amount]
                  ++ (match env.write with
                    | .failed message => [tradeFailed message]
                    | .ok _ =>
                      match env.receipt with
                      | .failed message => [tradeFailed message]
                      | .ok _ =>
                        [.receiptAwaited,
                          .toastSuccess (type.toUpperCase
                            ++ js " trade successful! Refreshing data...")]
                          ++ refreshSteps env.marketAddress env.address env.readsAfter
                              (.toastSuccess (js "Trade completed! (Data refresh failed)"))
                          ++ [.setTradeAmount []]))
      ++ [.setTrading none false]

/-- An awaited call that returns `value`, or throws an error with `message` when there is
no value. -/
def Outcome.ofOption {α : Type} (message : JSString) : Option α → Outcome α
  | some value => .ok value
  | none => .failed message

/-- Every character of the string is an ASCII character. -/
def isAscii (s : JSString) : Bool := s.all fun u => decide (u.val < 128)

/-- The values read from the sample market, with the given contract state. -/
def sampleMarketReads (state : ℕ) : MarketReads where
  question := js "0x57696c6c206974207261696e3f00000000000000000000000000000000000000"
  resolveTimestamp := 1767225600
  state := state
  resolutionOutcome := false
  yesPool := 1000000000000000000000
  noPool := 1000000000000000000000
  feeBps := 100
  feeRecipient := js "0x70997970C51812dc3A010C7d01b50e0d17dc79C8"
  settlementToken := js "0x9fE46736679d2D9a65F0992F2272dE9f3c7fa6e0"
  totalYesPositions := 0
  totalNoPositions := 0

/-- The chain reads of an active market in which every read succeeds; the user holds 2 YES
shares and the allowance is 5 tokens. -/
def sampleReads : ChainReads where
  markets := some [js "0x5FbDB2315678afecb367f032d93F642f64180aa3"]
  market := some (sampleMarketReads 0)
  positions := some (2000000000000000000, 0)
  allowance := some 5000000000000000000

/-- A connected wallet on chain 11155111 trading `tradeAmount` on the sample market; the write
and the receipt succeed and the reads made after the trade are `readsAfter`. -/
def sampleTrade (tradeAmount : JSString) (readsAfter : Option ChainReads) : TradeEnv where
  isConnected := true
  chainId := some 11155111
  address := some (js "0xf39Fd6e51aad88F6F4ce6aB8827279cffFb92266")
  marketAddress := js "0x5FbDB2315678afecb367f032d93F642f64180aa3"
  tradeAmount := tradeAmount
  walletChainId := .ok (some 11155111)
  readsBefore := some sampleReads
  write := .ok ()
  receipt := .ok ()
  readsAfter := readsAfter

/-- The viem function `parseEther` as an awaited call. -/
def parseEtherOutcome (ether : JSString) : Outcome ℤ :=
  Outcome.ofOption (js "Number is not a valid decimal number.") (parseEther ether)

/-- A displayed state: one market in the list, 2 YES shares and an allowance of 5. -/
def sampleDisplay : DisplayState where
  markets := [js "0x5FbDB2315678afecb367f032d93F642f64180aa3"]
  market := none
  userShares := ⟨js "2", js "0"⟩
  allowance := js "5"

/-- The sample chain reads with a failing market-list read, failing position reads and a
failing allowance read; the reads of the market details succeed. -/
def failingReads : ChainReads :=
  { sampleReads with markets := none, positions := none, allowance := none }

/-! ## The approval handler (`src/pages/MarketDetails.jsx`) -/

/-- The literal `maxApproval` of `handleApprove`. -/
def maxApproval : JSString :=
  js "115792089237316195423570985008687907853269984665640564039457584007913129639935"

/-- What `handleApprove` reads from its surroundings: the wallet state and the completions
of the calls it awaits. -/
structure ApproveEnv where
  isConnected : Bool
  address : Option JSString
  marketAddress : JSString
  walletChainId : Outcome (Option ℕ)
  write : Outcome Unit
  receipt : Outcome Unit
  readsAfter : Option ChainReads

/-- The notification of the `catch` block of `handleApprove`. -/
def approvalFailed (message : JSString) : UiEvent :=
  .toastError
    (js "Approval failed: " ++ (if message.isEmpty then js "Unknown error" else message))

/-- The function `handleApprove` of `MarketDetails`; the chain identifier `sepolia` (the
constant `SEPOLIA_CHAIN_ID`) is a parameter. -/
def handleApprove (sepolia : ℕ) (env : ApproveEnv) : List UiEvent :=
  if !env.isConnected then []
  else
    [.setApproving true]
      ++ (match env.walletChainId with
        | .failed message => [approvalFailed message]
        | .ok walletChainId =>
          if walletChainId ≠ some sepolia then
            [.toastError (js "Please switch to the correct chain (Sepolia)")]
          else
            [.writeApprove env.marketAddress maxApproval]
              ++ (match env.write with
                | .failed message => [approvalFailed message]
                | .ok _ =>
                  match env.receipt with
                  | .failed message => [approvalFailed message]
                  | .ok _ =>
                    [.receiptAwaited, .toastSuccess (js "Approval successful!"),
                      .setAllowance
                        (getUserAllowance env.address (some env.marketAddress)
                          env.readsAfter)]))
      ++ [.setApproving false]

/-- A connected wallet on chain 11155111 approving the sample market; the write and the
receipt succeed. -/
def sampleApprove : ApproveEnv where
  isConnected := true
  address := some (js "0xf39Fd6e51aad88F6F4ce6aB8827279cffFb92266")
  marketAddress := js "0x5FbDB2315678afecb367f032d93F642f64180aa3"
  walletChainId := .ok (some 11155111)
  write := .ok ()
  receipt := .ok ()
  readsAfter := some sampleReads

/-! ## Dates (ECMAScript `Date`) and the resolution time (`src/pages/CreateMarket.jsx`) -/

/-- The function `DayFromYear(y)`: the day number of the first day of year `y`. -/
def dayFromYear (y : ℤ) : ℤ :=
  365 * (y - 1970) + (y - 1969) / 4 - (y - 1901) / 100 + (y - 1601) / 400

/-- The year `y` is a leap year (`DaysInYear(y) = 366`). -/
def inLeapYear (y : ℤ) : Bool :=
  if y % 4 ≠ 0 then false else if y % 100 ≠ 0 then true else if y % 400 ≠ 0 then false else true

/-- The search of `yearFromDay`: the largest year at or below `y` that starts on or before
`day`. -/
def yearFromDayAux : ℕ → ℤ → ℤ → ℤ
  | 0, y, _ => y
  | fuel + 1, y, day => if dayFromYear y ≤ day then y else yearFromDayAux fuel (y - 1) day

/-- The function `YearFromTime` on a day number from 1970 on: the largest year whose first
day is not after `day`. -/
def yearFromDay (day : ℕ) : ℤ := yearFromDayAux (day / 365 + 1) (1970 + day / 365) day

/-- The function `MonthFromTime` on the day within the year (months count from 0). -/
def monthFromDay (leap : Bool) (dayWithinYear : ℤ) : ℤ :=
  let l : ℤ := if leap then 1 else 0
  if dayWithinYear < 31 then 0
  else if dayWithinYear < 59 + l then 1
  else if dayWithinYear < 90 + l then 2
  else if dayWithinYear < 120 + l then 3
  else if dayWithinYear < 151 + l then 4
  else if dayWithinYear < 181 + l then 5
  else if dayWithinYear < 212 + l then 6
  else if dayWithinYear < 243 + l then 7
  else if dayWithinYear < 273 + l then 8
  else if dayWithinYear < 304 + l then 9
  else if dayWithinYear < 334 + l then 10
  else 11

/-- The number of days of the year before the month `month` (counted from 0). -/
def daysBeforeMonth (leap : Bool) (month : ℤ) : ℤ :=
  let l : ℤ := if leap then 1 else 0
  if month = 0 then 0
  else if month = 1 then 31
  else if month = 2 then 59 + l
  else if month = 3 then 90 + l
  else if month = 4 then 120 + l
  else if month = 5 then 151 + l
  else if month = 6 then 181 + l
  else if month = 7 then 212 + l
  else if month = 8 then 243 + l
  else if month = 9 then 273 + l
  else if month = 10 then 304 + l
  else 334 + l

/-- The number of days of the month `month` (counted from 0). -/
def daysInMonth (leap : Bool) (month : ℤ) : ℤ :=
  if month = 1 then (if leap then 29 else 28)
  else if month = 3 ∨ month = 5 ∨ month = 8 ∨ month = 10 then 30
  else 31

/-- The method `toISOString()` of a `Date` whose time value is `tv` milliseconds, not before
1970: `YYYY-MM-DDTHH:mm:ss.sssZ` in UTC, with the expanded year `+YYYYYY` after the year
9999. -/
def toISOString (tv : ℕ) : JSString :=
  let day := tv / 86400000
  let year := yearFromDay day
  let dayWithinYear := (day : ℤ) - dayFromYear year
  let month := monthFromDay (inLeapYear year) dayWithinYear
  let date := dayWithinYear - daysBeforeMonth (inLeapYear year) month + 1
  (if year ≤ 9999 then lastDigits 4 year.toNat else js "+" ++ lastDigits 6 year.toNat)
    ++ js "-" ++ lastDigits 2 (month + 1).toNat
    ++ js "-" ++ lastDigits 2 date.toNat
    ++ js "T" ++ lastDigits 2 (tv / 3600000 % 24)
    ++ js ":" ++ lastDigits 2 (tv / 60000 % 60)
    ++ js ":" ++ lastDigits 2 (tv / 1000 % 60)
    ++ js "." ++ lastDigits 3 (tv % 1000)
    ++ js "Z"

/-- The time value of `new Date(string)` for a string of the form `YYYY-MM-DDTHH:mm`, which
has no time-zone designator and is therefore read as local time; `offsetMinutes` is the
offset of local time from UTC.  The result is `none` for any other string and for element
values out of range (an invalid date, or a form this model does not cover). -/
def dateParseLocal (offsetMinutes : ℤ) (string : JSString) : Option ℤ :=
  match string with
  | [y1, y2, y3, y4, s1, m1, m2, s2, d1, d2, s3, h1, h2, s4, n1, n2] =>
    if [y1, y2, y3, y4, m1, m2, d1, d2, h1, h2, n1, n2].all isDigit
        && s1 = 45 && s2 = 45 && s3 = 84 && s4 = 58 then
      let year : ℤ := digitsValue [y1, y2, y3, y4]
      let month : ℤ := digitsValue [m1, m2]
      let date : ℤ := digitsValue [d1, d2]
      let hour : ℤ := digitsValue [h1, h2]
      let minute : ℤ := digitsValue [n1, n2]
      if 1 ≤ month ∧ month ≤ 12 ∧ 1 ≤ date
          ∧ date ≤ daysInMonth (inLeapYear year) (month - 1)
          ∧ hour ≤ 23 ∧ minute ≤ 59 then
        let day := dayFromYear year + daysBeforeMonth (inLeapYear year) (month - 1) + date - 1
        let localTime := day * 86400000 + hour * 3600000 + minute * 60000
        some (localTime - offsetMinutes * 60000)
      else none
    else none
  | _ => none

/-- The function `setQuickTime(type)` at the time `nowMs = Date.now()`: the value written
to the form field `resolveTimestamp`. -/
def setQuickTime (type : JSString) (nowMs : ℕ) : JSString :=
  let now := nowMs / 1000
  let timestamp :=
    if type = js "1hour" then now + 1 * 60 * 60
    else if type = js "1day" then now + 24 * 60 * 60
    else if type = js "7days" then now + 7 * 24 * 60 * 60
    else if type = js "30days" then now + 30 * 24 * 60 * 60
    else now
  (toISOString (timestamp * 1000)).take 16

/-- The value `resolveTimestamp` that `handleCreateMarket` derives from the form field at the
time `nowMs = Date.now()`, in a browser whose local time is `offsetMinutes` ahead of UTC;
`none` is NaN. -/
def resolveTimestampOf (offsetMinutes : ℤ) (formValue : JSString) (nowMs : ℕ) : Option ℤ :=
  if !formValue.isEmpty then (dateParseLocal offsetMinutes formValue).map fun tv => tv / 1000
  else some ((nowMs / 1000 : ℕ) + 7 * 24 * 60 * 60)

/-- The number of bytes of the sequence under way that the decoder has read. -/
def Utf8State.consumed (st : Utf8State) : ℕ :=
  if st.bytesNeeded = 0 then 0 else st.bytesSeen + 1

/-- The states the decoder can reach: outside a sequence, or inside one of two, three or four
bytes with the code point bits read so far. -/
def Utf8State.Reachable (st : Utf8State) : Prop :=
  st.bytesNeeded = 0 ∨ (st.bytesNeeded = 1 ∧ st.bytesSeen = 0 ∧ st.codePoint < 32)
    ∨ (st.bytesNeeded = 2 ∧ st.bytesSeen = 0 ∧ st.codePoint < 16)
    ∨ (st.bytesNeeded = 2 ∧ st.bytesSeen = 1 ∧ st.codePoint < 1024)
    ∨ (st.bytesNeeded = 3 ∧ st.bytesSeen < 3)

end LoafMarket

/-! ## Facts about binary64 rounding -/

namespace LoafMarket

namespace JSNumber

theorem log_eq_of_bounds {x : ℚ} {e : ℤ} (h1 : (2 : ℚ) ^ e ≤ x) (h2 : x < (2 : ℚ) ^ (e + 1)) :
    Int.log 2 x = e := by
  have hx : 0 < x := lt_of_lt_of_le (by positivity) h1
  have a := (Int.zpow_le_iff_le_log (b := 2) (by norm_num) (x := e) hx).1 (by simpa using h1)
  have b := (Int.lt_zpow_iff_log_lt (b := 2) (by norm_num) (x := e + 1) hx).1 (by simpa using h2)
  omega

theorem binade_eq {x : ℚ} {e : ℤ} (h1 : (2 : ℚ) ^ e ≤ |x|) (h2 : |x| < (2 : ℚ) ^ (e + 1))
    (he : -1022 ≤ e) : binade x = e := by
  unfold binade
  rw [log_eq_of_bounds h1 h2]
  exact max_eq_left he

theorem roundHalfEven_intCast (n : ℤ) : roundHalfEven (n : ℚ) = n := by
  unfold roundHalfEven
  simp

theorem roundQ_eval {x : ℚ} {e : ℤ} (m : ℤ) (h1 : (2 : ℚ) ^ e ≤ |x|)
    (h2 : |x| < (2 : ℚ) ^ (e + 1)) (he : -1022 ≤ e)
    (hm : roundHalfEven (x / (2 : ℚ) ^ (e - 52)) = m) :
    roundQ x = m * (2 : ℚ) ^ (e - 52) := by
  unfold roundQ ulp gridStep
  rw [binade_eq h1 h2 he, hm]

theorem ofRat_of_roundQ {x r : ℚ} (h : roundQ x = r) (hr : |r| < 2 ^ 1024) : ofRat x = fin r := by
  unfold ofRat
  rw [h]
  have := abs_lt.1 hr
  rw [if_neg (by linarith), if_neg (by linarith)]

theorem ulp_pos (x : ℚ) : 0 < ulp x := by
  unfold ulp gridStep
  positivity

theorem floor_le_roundHalfEven (r : ℚ) : ⌊r⌋ ≤ roundHalfEven r := by
  unfold roundHalfEven
  split_ifs <;> omega

theorem roundHalfEven_le_floor_add_one (r : ℚ) : roundHalfEven r ≤ ⌊r⌋ + 1 := by
  unfold roundHalfEven
  split_ifs <;> omega

theorem roundHalfEven_mono {r s : ℚ} (h : r ≤ s) : roundHalfEven r ≤ roundHalfEven s := by
  have hfl : ⌊r⌋ ≤ ⌊s⌋ := Int.floor_mono h
  rcases lt_or_eq_of_le hfl with hlt | heq
  · calc roundHalfEven r ≤ ⌊r⌋ + 1 := roundHalfEven_le_floor_add_one r
      _ ≤ ⌊s⌋ := hlt
      _ ≤ roundHalfEven s := floor_le_roundHalfEven s
  · have hfrac : r - ⌊r⌋ ≤ s - ⌊s⌋ := by rw [heq]; linarith
    unfold roundHalfEven
    rw [heq] at hfrac ⊢
    split_ifs <;> first | omega | (exfalso; linarith)

theorem abs_roundHalfEven_sub_le (r : ℚ) : |(roundHalfEven r : ℚ) - r| ≤ 1 / 2 := by
  have h1 : (⌊r⌋ : ℚ) ≤ r := Int.floor_le r
  have h2 : r < ⌊r⌋ + 1 := Int.lt_floor_add_one r
  unfold roundHalfEven
  rw [abs_le]
  split_ifs <;> push_cast <;> constructor <;> linarith

theorem abs_roundQ_sub_le (x : ℚ) : |roundQ x - x| ≤ ulp x / 2 := by
  have hu := ulp_pos x
  have h := abs_roundHalfEven_sub_le (x / ulp x)
  have e : roundQ x - x = ((roundHalfEven (x / ulp x) : ℚ) - x / ulp x) * ulp x := by
    unfold roundQ
    field_simp
  rw [e, abs_mul, abs_of_pos hu]
  calc |(roundHalfEven (x / ulp x) : ℚ) - x / ulp x| * ulp x ≤ 1 / 2 * ulp x :=
        mul_le_mul_of_nonneg_right h hu.le
    _ = ulp x / 2 := by ring

theorem roundQ_nonneg {x : ℚ} (hx : 0 ≤ x) : 0 ≤ roundQ x := by
  unfold roundQ
  have hu := ulp_pos x
  have h0 : (0 : ℤ) ≤ roundHalfEven (x / ulp x) := by
    have := roundHalfEven_mono (r := ((0 : ℤ) : ℚ)) (s := x / ulp x) (by simpa using div_nonneg hx hu.le)
    rwa [roundHalfEven_intCast] at this
  have : (0 : ℚ) ≤ roundHalfEven (x / ulp x) := by exact_mod_cast h0
  positivity

theorem binade_mono {x y : ℚ} (hx : 0 < x) (h : x ≤ y) : binade x ≤ binade y := by
  unfold binade
  have hy : 0 < y := lt_of_lt_of_le hx h
  rw [abs_of_pos hx, abs_of_pos hy]
  exact max_le_max (Int.log_mono_right hx h) le_rfl

theorem lt_two_zpow_binade_succ (x : ℚ) : |x| < (2 : ℚ) ^ (binade x + 1) := by
  have h := Int.lt_zpow_succ_log_self (b := 2) (by norm_num) |x|
  have hle : Int.log 2 |x| + 1 ≤ binade x + 1 := by
    unfold binade
    have := le_max_left (Int.log 2 |x|) (-1022)
    omega
  calc |x| < ((2 : ℕ) : ℚ) ^ (Int.log 2 |x| + 1) := h
    _ = (2 : ℚ) ^ (Int.log 2 |x| + 1) := by norm_num
    _ ≤ (2 : ℚ) ^ (binade x + 1) := zpow_le_zpow_right₀ (by norm_num) hle

theorem two_zpow_binade_le {x : ℚ} (hx : 0 < x) (hb : -1022 < binade x) :
    (2 : ℚ) ^ binade x ≤ x := by
  have hlog : binade x = Int.log 2 x := by
    unfold binade at hb ⊢
    rw [abs_of_pos hx] at hb ⊢
    rcases max_cases (Int.log 2 x) (-1022) with h | h
    · exact h.1
    · omega
  rw [hlog]
  simpa using Int.zpow_log_le_self (b := 2) (by norm_num) hx

theorem two_zpow_split (b : ℤ) (k : ℕ) :
    (2 : ℚ) ^ (b - 52 + k) = ((2 ^ k : ℤ) : ℚ) * gridStep b := by
  unfold gridStep
  rw [zpow_add₀ (by norm_num : (2 : ℚ) ≠ 0), mul_comm]
  push_cast
  rw [zpow_natCast]

theorem roundQ_le_top (x : ℚ) : roundQ x ≤ (2 : ℚ) ^ (binade x + 1) := by
  have hu := ulp_pos x
  have hx : x < (2 : ℚ) ^ (binade x + 1) := lt_of_le_of_lt (le_abs_self x) (lt_two_zpow_binade_succ x)
  have e : (2 : ℚ) ^ (binade x + 1) = ((2 ^ 53 : ℤ) : ℚ) * ulp x := by
    have := two_zpow_split (binade x) 53
    rw [show ulp x = gridStep (binade x) from rfl, ← this]
    congr 1
    push_cast
    ring
  have hq : x / ulp x ≤ ((2 ^ 53 : ℤ) : ℚ) := by
    rw [div_le_iff₀ hu, ← e]
    exact hx.le
  have hr := roundHalfEven_mono hq
  rw [roundHalfEven_intCast] at hr
  have hr2 : (roundHalfEven (x / ulp x) : ℚ) ≤ ((2 ^ 53 : ℤ) : ℚ) := by exact_mod_cast hr
  rw [e]
  unfold roundQ
  exact mul_le_mul_of_nonneg_right hr2 hu.le

theorem bottom_le_roundQ {x : ℚ} (hx : (2 : ℚ) ^ binade x ≤ x) : (2 : ℚ) ^ binade x ≤ roundQ x := by
  have hu := ulp_pos x
  have e : (2 : ℚ) ^ binade x = ((2 ^ 52 : ℤ) : ℚ) * ulp x := by
    have := two_zpow_split (binade x) 52
    rw [show ulp x = gridStep (binade x) from rfl, ← this]
    congr 1
    push_cast
    ring
  have hq : ((2 ^ 52 : ℤ) : ℚ) ≤ x / ulp x := by
    rw [le_div_iff₀ hu, ← e]
    exact hx
  have hr := roundHalfEven_mono hq
  rw [roundHalfEven_intCast] at hr
  have hr2 : ((2 ^ 52 : ℤ) : ℚ) ≤ (roundHalfEven (x / ulp x) : ℚ) := by exact_mod_cast hr
  rw [e]
  unfold roundQ
  exact mul_le_mul_of_nonneg_right hr2 hu.le

theorem roundQ_zero : roundQ 0 = 0 := by
  unfold roundQ
  simp [roundHalfEven]

theorem roundQ_mono {x y : ℚ} (hx : 0 ≤ x) (h : x ≤ y) : roundQ x ≤ roundQ y := by
  rcases eq_or_lt_of_le hx with h0 | hpos
  · rw [← h0, roundQ_zero]
    exact roundQ_nonneg (hx.trans h)
  · have hb := binade_mono hpos h
    rcases eq_or_lt_of_le hb with heq | hlt
    · have hu : ulp x = ulp y := by unfold ulp; rw [heq]
      have huy := ulp_pos y
      unfold roundQ
      rw [hu]
      have hq : x / ulp y ≤ y / ulp y := div_le_div_of_nonneg_right h huy.le
      have hr : (roundHalfEven (x / ulp y) : ℚ) ≤ (roundHalfEven (y / ulp y) : ℚ) := by
        exact_mod_cast roundHalfEven_mono hq
      exact mul_le_mul_of_nonneg_right hr huy.le
    · have hy : 0 < y := lt_of_lt_of_le hpos h
      have hby : -1022 < binade y := by
        have : -1022 ≤ binade x := le_max_right _ _
        omega
      calc roundQ x ≤ (2 : ℚ) ^ (binade x + 1) := roundQ_le_top x
        _ ≤ (2 : ℚ) ^ binade y := zpow_le_zpow_right₀ (by norm_num) (by omega)
        _ ≤ roundQ y := bottom_le_roundQ (two_zpow_binade_le hy hby)

theorem isDouble_iff (x : ℚ) : IsDouble x ↔ roundQ x = x ∧ |x| < 2 ^ 1024 := by
  unfold IsDouble ofRat
  constructor
  · intro h
    split_ifs at h with h1 h2
    · have hx : roundQ x = x := by injection h
      refine ⟨hx, ?_⟩
      rw [hx] at h1 h2
      rw [abs_lt]
      constructor <;> linarith
  · rintro ⟨hx, hlt⟩
    rw [hx]
    have := abs_lt.1 hlt
    rw [if_neg (by linarith), if_neg (by linarith)]

theorem IsDouble.roundQ_eq {x : ℚ} (h : IsDouble x) : roundQ x = x := ((isDouble_iff x).1 h).1

theorem roundQ_one : roundQ 1 = 1 := by
  have := roundQ_eval (x := 1) (e := 0) (2 ^ 52) (by norm_num) (by norm_num) (by norm_num)
    (by norm_num [roundHalfEven])
  rw [this]
  norm_num

theorem binade_eq_log {x : ℚ} (hx : (2 : ℚ) ^ (-1022 : ℤ) ≤ |x|) : binade x = Int.log 2 |x| := by
  have hpos : 0 < |x| := lt_of_lt_of_le (by positivity) hx
  have := (Int.zpow_le_iff_le_log (b := 2) (by norm_num) (x := -1022) hpos).1 (by simpa using hx)
  unfold binade
  exact max_eq_left this

theorem binade_subnormal {x : ℚ} (hx0 : x ≠ 0) (hx : |x| < (2 : ℚ) ^ (-1022 : ℤ)) :
    binade x = -1022 := by
  have hpos : 0 < |x| := abs_pos.2 hx0
  have := (Int.lt_zpow_iff_log_lt (b := 2) (by norm_num) (x := -1022) hpos).1 (by simpa using hx)
  unfold binade
  exact max_eq_right this.le

/-- Relative error of rounding in the normal range: half an ulp is at most `2^-53 |x|`. -/
theorem abs_roundQ_sub_le_rel {x : ℚ} (hx : (2 : ℚ) ^ (-1022 : ℤ) ≤ |x|) :
    |roundQ x - x| ≤ |x| / 2 ^ 53 := by
  have hpos : 0 < |x| := lt_of_lt_of_le (by positivity) hx
  have hb : (2 : ℚ) ^ binade x ≤ |x| := by
    rw [binade_eq_log hx]
    simpa using Int.zpow_log_le_self (b := 2) (by norm_num) hpos
  have hu : ulp x / 2 = (2 : ℚ) ^ binade x / 2 ^ 53 := by
    unfold ulp gridStep
    rw [zpow_sub₀ (by norm_num : (2 : ℚ) ≠ 0)]
    norm_num
    ring
  calc |roundQ x - x| ≤ ulp x / 2 := abs_roundQ_sub_le x
    _ = (2 : ℚ) ^ binade x / 2 ^ 53 := hu
    _ ≤ |x| / 2 ^ 53 := div_le_div_of_nonneg_right hb (by positivity)

/-- Absolute error of rounding in the subnormal range. -/
theorem abs_roundQ_sub_le_abs {x : ℚ} (hx : |x| < (2 : ℚ) ^ (-1022 : ℤ)) :
    |roundQ x - x| ≤ (2 : ℚ) ^ (-1075 : ℤ) := by
  by_cases hx0 : x = 0
  · rw [hx0, roundQ_zero]
    norm_num
  · have hu : ulp x / 2 = (2 : ℚ) ^ (-1075 : ℤ) := by
      unfold ulp gridStep
      rw [binade_subnormal hx0 hx]
      norm_num
    rw [← hu]
    exact abs_roundQ_sub_le x

/-- Rounding error with both the relative and the underflow term. -/
theorem abs_roundQ_sub_le_mixed (x : ℚ) :
    |roundQ x - x| ≤ |x| / 2 ^ 53 + (2 : ℚ) ^ (-1075 : ℤ) := by
  rcases le_or_lt ((2 : ℚ) ^ (-1022 : ℤ)) |x| with h | h
  · have h0 : (0 : ℚ) ≤ (2 : ℚ) ^ (-1075 : ℤ) := by positivity
    exact le_trans (abs_roundQ_sub_le_rel h) (le_add_of_nonneg_right h0)
  · have h0 : (0 : ℚ) ≤ |x| / 2 ^ 53 := by positivity
    exact le_trans (abs_roundQ_sub_le_abs h) (le_add_of_nonneg_left h0)

/-- Every binary64 value is an integer multiple of the least subnormal `2^-1074`. -/
theorem IsDouble.exists_multiple {x : ℚ} (h : IsDouble x) :
    ∃ k : ℤ, x = k * (2 : ℚ) ^ (-1074 : ℤ) := by
  have hx := h.roundQ_eq
  have hb : -1022 ≤ binade x := le_max_right _ _
  obtain ⟨j, hj⟩ : ∃ j : ℕ, binade x - 52 = -1074 + j := ⟨(binade x + 1022).toNat, by omega⟩
  refine ⟨roundHalfEven (x / ulp x) * 2 ^ j, ?_⟩
  have hu : ulp x = (2 : ℚ) ^ j * (2 : ℚ) ^ (-1074 : ℤ) := by
    unfold ulp gridStep
    rw [hj, zpow_add₀ (by norm_num : (2 : ℚ) ≠ 0), zpow_natCast, mul_comm]
  conv_lhs => rw [← hx]
  unfold roundQ
  rw [hu]
  push_cast
  ring

/-- Multiples of `2^-1074` below the normal range are represented exactly. -/
theorem roundQ_subnormal_multiple {x : ℚ} (k : ℤ) (hk : x = k * (2 : ℚ) ^ (-1074 : ℤ))
    (hx : |x| < (2 : ℚ) ^ (-1022 : ℤ)) : roundQ x = x := by
  by_cases hx0 : x = 0
  · rw [hx0, roundQ_zero]
  · have hu : ulp x = (2 : ℚ) ^ (-1074 : ℤ) := by
      unfold ulp gridStep
      rw [binade_subnormal hx0 hx]
      norm_num
    unfold roundQ
    rw [hu]
    have : x / (2 : ℚ) ^ (-1074 : ℤ) = (k : ℚ) := by
      rw [hk]
      field_simp
    rw [this, roundHalfEven_intCast, ← hk]

/-- The sum of two binary64 values is rounded with relative error at most `2^-53`
(there is no underflow term: small sums are exact). -/
theorem abs_roundQ_add_sub_le {a b : ℚ} (ha : IsDouble a) (hb : IsDouble b) :
    |roundQ (a + b) - (a + b)| ≤ |a + b| / 2 ^ 53 := by
  rcases le_or_lt ((2 : ℚ) ^ (-1022 : ℤ)) |a + b| with h | h
  · exact abs_roundQ_sub_le_rel h
  · obtain ⟨k, hk⟩ := ha.exists_multiple
    obtain ⟨l, hl⟩ := hb.exists_multiple
    have : roundQ (a + b) = a + b :=
      roundQ_subnormal_multiple (k + l) (by rw [hk, hl]; push_cast; ring) h
    rw [this, sub_self, abs_zero]
    positivity

theorem binade_abs (x : ℚ) : binade |x| = binade x := by
  unfold binade
  rw [abs_abs]

theorem ofRat_zero : ofRat 0 = fin 0 := ofRat_of_roundQ roundQ_zero (by norm_num)

/-- Representability: a 53-bit integer scaled by a power of two in the binary64 exponent
range is a binary64 value. -/
theorem isDouble_of_mantissa (m e : ℤ) (hm : |m| < 2 ^ 53) (he : -1074 ≤ e) (he2 : e ≤ 971) :
    IsDouble ((m : ℚ) * (2 : ℚ) ^ e) := by
  by_cases hm0 : m = 0
  · subst hm0
    simp only [Int.cast_zero, zero_mul]
    exact ofRat_zero
  set x : ℚ := (m : ℚ) * (2 : ℚ) ^ e with hx
  have hmq : |(m : ℚ)| < 2 ^ 53 := by exact_mod_cast hm
  have habs : |x| = |(m : ℚ)| * (2 : ℚ) ^ e := by
    rw [hx, abs_mul, abs_of_pos (show (0 : ℚ) < (2 : ℚ) ^ e by positivity)]
  have hxpos : 0 < |x| := by
    rw [habs]
    have : (0 : ℚ) < |(m : ℚ)| := abs_pos.2 (by exact_mod_cast hm0)
    positivity
  have hlt : |x| < (2 : ℚ) ^ (e + 53) := by
    rw [habs, zpow_add₀ (by norm_num : (2 : ℚ) ≠ 0), mul_comm]
    have h2 : (0 : ℚ) < (2 : ℚ) ^ e := by positivity
    have : (2 : ℚ) ^ (53 : ℤ) = 2 ^ 53 := by norm_num
    rw [this]
    exact mul_lt_mul_of_pos_left hmq h2
  have hb : binade x - 52 ≤ e := by
    by_contra hcon
    have hb1 : -1022 < binade |x| := by rw [binade_abs]; omega
    have h1 := two_zpow_binade_le hxpos hb1
    rw [binade_abs] at h1
    have h2 : (2 : ℚ) ^ binade x < (2 : ℚ) ^ (e + 53) := lt_of_le_of_lt h1 hlt
    have := (zpow_lt_zpow_iff_right₀ (by norm_num : (1 : ℚ) < 2)).1 h2
    omega
  obtain ⟨j, hj⟩ : ∃ j : ℕ, e = binade x - 52 + j := ⟨(e - (binade x - 52)).toNat, by omega⟩
  have hu : x / ulp x = ((m * 2 ^ j : ℤ) : ℚ) := by
    have hupos := ulp_pos x
    rw [div_eq_iff hupos.ne']
    unfold ulp gridStep
    rw [hx]
    conv_lhs => rw [hj, zpow_add₀ (by norm_num : (2 : ℚ) ≠ 0), zpow_natCast]
    push_cast
    ring
  have hr : roundQ x = x := by
    have hupos := ulp_pos x
    unfold roundQ
    rw [hu, roundHalfEven_intCast, ← hu]
    field_simp
  refine (isDouble_iff x).2 ⟨hr, ?_⟩
  calc |x| < (2 : ℚ) ^ (e + 53) := hlt
    _ ≤ (2 : ℚ) ^ (1024 : ℤ) := zpow_le_zpow_right₀ (by norm_num) (by omega)
    _ = 2 ^ 1024 := by norm_num

/-- Integers below `2^53` in magnitude are binary64 values. -/
theorem isDouble_intCast (m : ℤ) (hm : |m| < 2 ^ 53) : IsDouble (m : ℚ) := by
  simpa using isDouble_of_mantissa m 0 hm (by norm_num) (by norm_num)

theorem IsDouble.ofRat_eq {x : ℚ} (h : IsDouble x) : ofRat x = fin x := h

/-- An operation whose exact result is a binary64 value returns that value. -/
theorem add_exact {a b c : ℚ} (e : a + b = c) (h : IsDouble c) : (fin a).add (fin b) = fin c := by
  simp only [JSNumber.add, e]
  exact h

theorem sub_exact {a b c : ℚ} (e : a - b = c) (h : IsDouble c) : (fin a).sub (fin b) = fin c := by
  simp only [JSNumber.sub, e]
  exact h

theorem mul_exact {a b c : ℚ} (e : a * b = c) (h : IsDouble c) : (fin a).mul (fin b) = fin c := by
  simp only [JSNumber.mul, e]
  exact h

theorem div_exact {a b c : ℚ} (hb : b ≠ 0) (e : a / b = c) (h : IsDouble c) :
    (fin a).div (fin b) = fin c := by
  simp only [JSNumber.div, e, if_neg hb]
  exact h

/-- Evaluation of a rounding from its binade `e` and its rounded significand `m`. -/
theorem ofRat_eval {x r : ℚ} (e m : ℤ) (h1 : (2 : ℚ) ^ e ≤ |x|) (h2 : |x| < (2 : ℚ) ^ (e + 1))
    (he : -1022 ≤ e) (hm : roundHalfEven (x / (2 : ℚ) ^ (e - 52)) = m)
    (hr : (m : ℚ) * (2 : ℚ) ^ (e - 52) = r) (hfin : |r| < 2 ^ 1024) : ofRat x = fin r :=
  ofRat_of_roundQ ((roundQ_eval m h1 h2 he hm).trans hr) hfin

/-- A quotient of a non-negative value by a larger positive one rounds into `[0, 1]`. -/
theorem ofRat_quotient {a t : ℚ} (ha : 0 ≤ a) (hat : a ≤ t) (ht : 0 < t) :
    ofRat (a / t) = fin (roundQ (a / t)) ∧ 0 ≤ roundQ (a / t) ∧ roundQ (a / t) ≤ 1 := by
  have h0 : 0 ≤ a / t := div_nonneg ha ht.le
  have h1 : a / t ≤ 1 := (div_le_one ht).2 hat
  have r0 := roundQ_nonneg h0
  have r1 : roundQ (a / t) ≤ 1 := by
    have := roundQ_mono h0 h1
    rwa [roundQ_one] at this
  refine ⟨ofRat_of_roundQ rfl ?_, r0, r1⟩
  rw [abs_of_nonneg r0]
  exact lt_of_le_of_lt r1 (by norm_num)

end JSNumber

open JSNumber

/-- The shape of the result of `getMarketPrice` on non-negative reserves whose rounded total
is finite and not zero. -/
theorem getMarketPrice_of_total {y n : ℚ} (hy : IsDouble y) (hn : IsDouble n)
    (hy0 : 0 ≤ y) (hn0 : 0 ≤ n) (hne : roundQ (y + n) ≠ 0) (hfin : roundQ (y + n) < 2 ^ 1024) :
    getMarketPrice (some (fin y)) (some (fin n))
        = ⟨fin (roundQ (n / roundQ (y + n))), fin (roundQ (y / roundQ (y + n)))⟩
      ∧ 0 < roundQ (y + n)
      ∧ (0 ≤ roundQ (n / roundQ (y + n)) ∧ roundQ (n / roundQ (y + n)) ≤ 1)
      ∧ (0 ≤ roundQ (y / roundQ (y + n)) ∧ roundQ (y / roundQ (y + n)) ≤ 1) := by
  have ht0 : 0 ≤ roundQ (y + n) := roundQ_nonneg (add_nonneg hy0 hn0)
  have ht : 0 < roundQ (y + n) := lt_of_le_of_ne ht0 (Ne.symm hne)
  have hnt : n ≤ roundQ (y + n) := by
    have := roundQ_mono hn0 (show n ≤ y + n by linarith)
    rwa [hn.roundQ_eq] at this
  have hyt : y ≤ roundQ (y + n) := by
    have := roundQ_mono hy0 (show y ≤ y + n by linarith)
    rwa [hy.roundQ_eq] at this
  obtain ⟨qn, qn0, qn1⟩ := ofRat_quotient hn0 hnt ht
  obtain ⟨qy, qy0, qy1⟩ := ofRat_quotient hy0 hyt ht
  have htot : (fin y).add (fin n) = fin (roundQ (y + n)) :=
    ofRat_of_roundQ rfl (by rw [abs_of_nonneg ht0]; exact hfin)
  refine ⟨?_, ht, ⟨qn0, qn1⟩, ⟨qy0, qy1⟩⟩
  simp only [getMarketPrice, getMarketPriceTraced, htot, strictEq, JSNumber.div]
  simp [hne, qn, qy]

/-! ## Facts about `toFixed` -/

theorem decimalDigitsAux_unfold (fuel n : ℕ) :
    decimalDigitsAux (fuel + 1) n
      = if n < 10 then [digitUnit n] else decimalDigitsAux fuel (n / 10) ++ [digitUnit n] := rfl

theorem decimalDigitsAux_succ (fuel n : ℕ) (h : n < fuel) :
    decimalDigitsAux (fuel + 1) n = decimalDigitsAux fuel n := by
  induction fuel generalizing n with
  | zero => omega
  | succ f ih =>
    rw [decimalDigitsAux_unfold (f + 1) n, decimalDigitsAux_unfold f n]
    by_cases h10 : n < 10
    · simp [h10]
    · simp only [h10, if_false]
      rw [ih (n / 10) (by omega)]

theorem decimalDigitsAux_eq (fuel n : ℕ) (h : n < fuel) :
    decimalDigitsAux fuel n = decimalDigits n := by
  induction fuel with
  | zero => omega
  | succ f ih =>
    rcases Nat.lt_or_ge n f with hlt | hge
    · rw [decimalDigitsAux_succ f n hlt, ih hlt]
    · have : f = n := by omega
      subst this
      rfl

theorem decimalDigits_small {n : ℕ} (h : n < 10) : decimalDigits n = [digitUnit n] := by
  unfold decimalDigits
  rw [decimalDigitsAux_unfold]
  simp [h]

theorem decimalDigits_step {n : ℕ} (h : 10 ≤ n) :
    decimalDigits n = decimalDigits (n / 10) ++ [digitUnit n] := by
  conv_lhs => unfold decimalDigits
  rw [decimalDigitsAux_unfold]
  simp only [show ¬ n < 10 by omega, if_false]
  rw [decimalDigitsAux_eq n (n / 10) (by omega)]

theorem length_lastDigits (k n : ℕ) : (lastDigits k n).length = k := by
  induction k generalizing n with
  | zero => rfl
  | succ k ih => simp [lastDigits, ih]

theorem lastDigits_zero (k : ℕ) : lastDigits k 0 = List.replicate k (digitUnit 0) := by
  induction k with
  | zero => rfl
  | succ k ih =>
    rw [lastDigits, Nat.zero_div, ih, List.replicate_succ']

theorem decimalDigits_split (k n : ℕ) (h : 10 ^ k ≤ n) :
    decimalDigits n = decimalDigits (n / 10 ^ k) ++ lastDigits k n := by
  induction k generalizing n with
  | zero => simp [lastDigits]
  | succ k ih =>
    have h10 : 10 ≤ n := le_trans (by
      calc 10 = 10 ^ 1 := by norm_num
        _ ≤ 10 ^ (k + 1) := Nat.pow_le_pow_right (by norm_num) (by omega)) h
    have hk : 10 ^ k ≤ n / 10 := by
      rw [Nat.le_div_iff_mul_le (by norm_num)]
      rw [pow_succ] at h
      exact h
    rw [decimalDigits_step h10, ih (n / 10) hk, lastDigits, Nat.div_div_eq_div_mul,
      List.append_assoc]
    congr 2
    rw [pow_succ, mul_comm]

theorem decimalDigits_pad (k n : ℕ) (hk : 1 ≤ k) (h : n < 10 ^ k) :
    (decimalDigits n).length ≤ k
      ∧ List.replicate (k - (decimalDigits n).length) (digitUnit 0) ++ decimalDigits n
        = lastDigits k n := by
  induction k generalizing n with
  | zero => omega
  | succ k ih =>
    by_cases h10 : n < 10
    · rw [decimalDigits_small h10]
      refine ⟨by simp, ?_⟩
      rw [lastDigits, Nat.div_eq_of_lt h10, lastDigits_zero]
      simp
    · have hlt : n / 10 < 10 ^ k := by
        rw [Nat.div_lt_iff_lt_mul (by norm_num)]
        rw [pow_succ] at h
        exact h
      have hk1 : 1 ≤ k := by
        rcases Nat.eq_zero_or_pos k with h0 | h0
        · subst h0
          simp at h
          omega
        · exact h0
      obtain ⟨hlen, hpad⟩ := ih (n / 10) hk1 hlt
      rw [decimalDigits_step (by omega)]
      refine ⟨by simp; omega, ?_⟩
      rw [lastDigits, ← hpad, List.length_append, List.length_singleton,
        show k + 1 - ((decimalDigits (n / 10)).length + 1) = k - (decimalDigits (n / 10)).length by
          omega, List.append_assoc]

/-- On a finite value `0 ≤ q < 10^21`, `toFixed(6)` is the fixed-point rendering of the
integer nearest to `q · 10^6`. -/
theorem toFixed_six (numberToString : ℚ → JSString) {q : ℚ} (h0 : 0 ≤ q)
    (h21 : q < 10 ^ 21) :
    toFixed numberToString (.fin q) 6 = fixed6 (roundHalfUp (q * 10 ^ 6)).toNat := by
  unfold toFixed
  simp only [abs_of_nonneg h0, not_lt.2 h0, if_false, not_le.2 h21, List.nil_append]
  set n := (roundHalfUp (q * 10 ^ 6)).toNat
  simp only [show (6 : ℕ) ≠ 0 by norm_num, ne_eq, not_false_eq_true, if_true]
  unfold fixed6
  rcases Nat.lt_or_ge n (10 ^ 6) with hn | hn
  · obtain ⟨hlen, hpad⟩ := decimalDigits_pad 6 n (by norm_num) hn
    have hm : List.replicate (6 + 1 - (decimalDigits n).length) (digitUnit 0) ++ decimalDigits n
        = digitUnit 0 :: lastDigits 6 n := by
      rw [← hpad, show 6 + 1 - (decimalDigits n).length = (6 - (decimalDigits n).length) + 1 by
        omega, List.replicate_succ]
      rfl
    rw [if_pos hlen, hm, Nat.div_eq_of_lt hn, decimalDigits_small (by norm_num)]
    simp [length_lastDigits]
  · have hsplit := decimalDigits_split 6 n hn
    have hlen : ¬ (decimalDigits n).length ≤ 6 := by
      rw [hsplit, List.length_append, length_lastDigits]
      have : 0 < n / 10 ^ 6 := Nat.div_pos hn (by norm_num)
      have : 1 ≤ (decimalDigits (n / 10 ^ 6)).length := by
        by_cases h10 : n / 10 ^ 6 < 10
        · rw [decimalDigits_small h10]
          simp
        · rw [decimalDigits_step (by omega)]
          simp
      omega
    rw [if_neg hlen, hsplit]
    simp [length_lastDigits]

/-! ## Facts about the quoting engine -/

theorem add_hundred : (fin 100).add (fin 100) = fin 200 :=
  add_exact (by norm_num) (by simpa using isDouble_intCast 200 (by norm_num))

/-- The quote for finite positive operands is `toFixed(6)` of the Number computed as
`|pool * pool / (pool + trade) - pool|`. -/
theorem calculateTradeAmount_pos (numberToString : ℚ → JSString) {pool trade : ℚ}
    (hp : 0 < pool) (ht : 0 < trade) (isYes : Bool) :
    calculateTradeAmount numberToString (some (fin pool)) (some (fin trade)) isYes
      = toFixed numberToString
          ((((fin pool).mul (fin pool)).div ((fin pool).add (fin trade))).sub (fin pool)).abs 6 := by
  simp [calculateTradeAmount, JSNumber.le, not_le.2 hp, not_le.2 ht]

theorem roundHalfUp_near (r : ℚ) : |((roundHalfUp r : ℤ) : ℚ) - r| ≤ 1 / 2 := by
  unfold roundHalfUp
  have h1 : (⌊r + 1 / 2⌋ : ℚ) ≤ r + 1 / 2 := Int.floor_le _
  have h2 : r + 1 / 2 < ⌊r + 1 / 2⌋ + 1 := Int.lt_floor_add_one _
  rw [abs_le]
  constructor <;> linarith

theorem shares_hundred_ten :
    ((((fin 100).mul (fin 100)).div ((fin 100).add (fin 10))).sub (fin 100)).abs
      = fin (319857928080291 / 35184372088832) := by
  have hmul : (fin 100).mul (fin 100) = fin 10000 :=
    mul_exact (by norm_num) (by simpa using isDouble_intCast 10000 (by norm_num))
  have hadd : (fin 100).add (fin 10) = fin 110 :=
    add_exact (by norm_num) (by simpa using isDouble_intCast 110 (by norm_num))
  have hdiv : (fin 10000).div (fin 110) = fin (3198579280802909 / 35184372088832) := by
    simp only [JSNumber.div]
    rw [if_neg (by norm_num)]
    exact ofRat_eval 6 6397158561605818 (by norm_num [abs_of_pos]) (by norm_num [abs_of_pos])
      (by norm_num) (by norm_num [roundHalfEven]) (by norm_num) (by norm_num [abs_of_pos])
  have hsub : (fin (3198579280802909 / 35184372088832)).sub (fin 100)
      = fin (-(319857928080291 / 35184372088832)) := by
    refine sub_exact (by norm_num) ?_
    have := isDouble_of_mantissa (-319857928080291) (-45) (by norm_num) (by norm_num)
      (by norm_num)
    norm_num at this ⊢
    exact this
  rw [hmul, hadd, hdiv, hsub]
  simp only [JSNumber.abs, abs_neg]
  rw [abs_of_pos (by norm_num)]

theorem quote_hundred_ten (numberToString : ℚ → JSString) (isYes : Bool) :
    calculateTradeAmount numberToString (some (fin 100)) (some (fin 10)) isYes
      = js "9.090909" := by
  rw [calculateTradeAmount_pos numberToString (by norm_num) (by norm_num), shares_hundred_ten,
    toFixed_six numberToString (by norm_num) (by norm_num)]
  have : roundHalfUp (319857928080291 / 35184372088832 * 10 ^ 6) = 9090909 := by
    norm_num [roundHalfUp]
  rw [this, show Int.toNat 9090909 = 9090909 from rfl]
  decide

/-! ## Facts about hexadecimal strings and the encoder -/

theorem js_0x : js "0x" = [48, 120] := by decide
theorem js_0 : js "0" = [48] := by decide

theorem charCodeToBase16_hexDigit {n : ℕ} (h : n < 16) : charCodeToBase16 (hexDigit n) = some n := by
  interval_cases n <;> decide

theorem hexDigit_eq_zero_iff {n : ℕ} (h : n < 16) : (hexDigit n).val = 48 ↔ n = 0 := by
  interval_cases n <;> decide

theorem byte_of_nibbles (b : Byte) : (Fin.ofNat (b.val / 16 * 16 + b.val % 16) : Byte) = b := by
  apply Fin.ext
  have := b.isLt
  simp only [Fin.ofNat, Fin.val_mk]
  omega

theorem parseHexPairs_cons {u v : CodeUnit} {l r : ℕ} (rest : JSString)
    (hu : charCodeToBase16 u = some l) (hv : charCodeToBase16 v = some r) :
    parseHexPairs (u :: v :: rest) = (parseHexPairs rest).map (Fin.ofNat (l * 16 + r) :: ·) := by
  rw [parseHexPairs, hu, hv]
  cases parseHexPairs rest <;> rfl

theorem parseHexPairs_byteToHex (b : Byte) (rest : JSString) :
    parseHexPairs (byteToHex b ++ rest) = (parseHexPairs rest).map (b :: ·) := by
  have := b.isLt
  have h := parseHexPairs_cons rest
    (charCodeToBase16_hexDigit (show b.val / 16 < 16 by omega))
    (charCodeToBase16_hexDigit (show b.val % 16 < 16 by omega))
  rw [byte_of_nibbles] at h
  exact h

theorem parseHexPairs_hexChars (bytes : List Byte) :
    parseHexPairs (bytes.flatMap byteToHex) = some bytes := by
  induction bytes with
  | nil => rfl
  | cons b rest ih => rw [List.flatMap_cons, parseHexPairs_byteToHex, ih]; rfl

theorem length_hexChars (bytes : List Byte) :
    (bytes.flatMap byteToHex).length = 2 * bytes.length := by
  induction bytes with
  | nil => rfl
  | cons b rest ih =>
    rw [List.flatMap_cons, List.length_append, ih]
    simp [byteToHex]
    omega

/-- The digits kept by `trimHex`, padded to an even number. -/
theorem trimmed_hexChars (bytes : List Byte) (hne : bytes ≠ []) :
    parseHexPairs
        (if ((bytes.flatMap byteToHex).drop
              (leadingZeroChars ((bytes.flatMap byteToHex).length - 1)
                (bytes.flatMap byteToHex))).length % 2 = 1
          then js "0" ++ (bytes.flatMap byteToHex).drop
              (leadingZeroChars ((bytes.flatMap byteToHex).length - 1)
                (bytes.flatMap byteToHex))
          else (bytes.flatMap byteToHex).drop
              (leadingZeroChars ((bytes.flatMap byteToHex).length - 1)
                (bytes.flatMap byteToHex)))
      = some (if bytes.dropWhile (fun b => b.val = 0) = [] then [0]
              else bytes.dropWhile (fun b => b.val = 0)) := by
  induction bytes with
  | nil => exact absurd rfl hne
  | cons b rest ih =>
    have hb := b.isLt
    have hlen : ((b :: rest).flatMap byteToHex).length - 1 = (rest.flatMap byteToHex).length + 1 := by
      rw [length_hexChars, length_hexChars, List.length_cons]
      omega
    rw [hlen]
    have hcons : (b :: rest).flatMap byteToHex
        = hexDigit (b.val / 16) :: hexDigit (b.val % 16) :: rest.flatMap byteToHex := by
      rw [List.flatMap_cons]; rfl
    rw [hcons]
    have hpar : parseHexPairs (hexDigit (b.val / 16) :: hexDigit (b.val % 16)
        :: rest.flatMap byteToHex) = some (b :: rest) := by
      have := parseHexPairs_hexChars (b :: rest)
      rwa [hcons] at this
    have heven : (rest.flatMap byteToHex).length % 2 = 0 := by
      rw [length_hexChars]; omega
    by_cases hhi : b.val / 16 = 0
    · by_cases hlo : b.val % 16 = 0
      · -- the byte is zero
        have hb0 : b.val = 0 := by omega
        have hd : (hexDigit 0).val = 48 := by decide
        rw [hhi, hlo]
        cases rest with
        | nil =>
          simp only [List.flatMap_nil, List.length_nil, leadingZeroChars, hd, if_true]
          have hr : List.dropWhile (fun b : Byte => decide (b.val = 0)) [b] = [] := by
            simp [List.dropWhile_cons, hb0]
          rw [hr]
          decide
        | cons b' rest' =>
          have hl2 : ((b' :: rest').flatMap byteToHex).length
              = (((b' :: rest').flatMap byteToHex).length - 1) + 1 := by
            rw [length_hexChars, List.length_cons]; omega
          have hz : leadingZeroChars (((b' :: rest').flatMap byteToHex).length + 1)
              (hexDigit 0 :: hexDigit 0 :: (b' :: rest').flatMap byteToHex)
              = leadingZeroChars (((b' :: rest').flatMap byteToHex).length - 1)
                  ((b' :: rest').flatMap byteToHex) + 2 := by
            rw [leadingZeroChars, if_pos hd]
            conv_lhs => rw [hl2]
            rw [leadingZeroChars, if_pos hd]
          rw [hz, List.drop_succ_cons, List.drop_succ_cons, ih (by simp)]
          simp only [List.dropWhile_cons, hb0]
          simp
      · have hd : (hexDigit 0).val = 48 := by decide
        have hl : (hexDigit (b.val % 16)).val ≠ 48 := fun h =>
          hlo ((hexDigit_eq_zero_iff (by omega)).1 h)
        have hz : leadingZeroChars ((rest.flatMap byteToHex).length + 1)
            (hexDigit (b.val / 16) :: hexDigit (b.val % 16) :: rest.flatMap byteToHex) = 1 := by
          rw [hhi, leadingZeroChars, if_pos hd]
          cases hD : (rest.flatMap byteToHex).length with
          | zero => simp [leadingZeroChars]
          | succ n => simp [leadingZeroChars, hl]
        have hb0 : b.val ≠ 0 := by omega
        rw [hz, List.drop_succ_cons, List.drop_zero, List.length_cons,
          if_pos (by omega), js_0]
        have hd0 : hexDigit (b.val / 16) = 48 := by rw [hhi]; decide
        rw [← hd0] 
        simp only [List.cons_append, List.nil_append]
        rw [hpar]
        simp [List.dropWhile_cons, hb0]
    · have hh : (hexDigit (b.val / 16)).val ≠ 48 := fun h =>
        hhi ((hexDigit_eq_zero_iff (by omega)).1 h)
      have hz : leadingZeroChars ((rest.flatMap byteToHex).length + 1)
          (hexDigit (b.val / 16) :: hexDigit (b.val % 16) :: rest.flatMap byteToHex) = 0 := by
        rw [leadingZeroChars, if_neg hh]
      have hb0 : b.val ≠ 0 := by omega
      rw [hz, List.drop_zero, List.length_cons, List.length_cons, if_neg (by omega), hpar]
      simp [List.dropWhile_cons, hb0]


theorem length_toHex (bytes : List Byte) : (toHex bytes).length = 2 + 2 * bytes.length := by
  unfold toHex
  rw [List.length_append, js_0x]
  congr 1
  induction bytes with
  | nil => rfl
  | cons b rest ih =>
    rw [List.flatMap_cons, List.length_append, ih]
    simp [byteToHex]
    omega

theorem isHexChar_hexDigit {n : ℕ} (h : n < 16) : isHexChar (hexDigit n) = true := by
  interval_cases n <;> decide

theorem hexChars_toHex (bytes : List Byte) : ∀ u ∈ (toHex bytes).drop 2, isHexChar u = true := by
  unfold toHex
  rw [js_0x]
  simp only [List.cons_append, List.nil_append, List.drop_succ_cons, List.drop_zero]
  intro u hu
  rw [List.mem_flatMap] at hu
  obtain ⟨b, -, hb⟩ := hu
  simp only [byteToHex, List.mem_cons, List.mem_singleton, List.not_mem_nil, or_false] at hb
  rcases hb with rfl | rfl
  · exact isHexChar_hexDigit (by omega)
  · exact isHexChar_hexDigit (by omega)

theorem typedArraySet_new {n : ℕ} {source : List Byte} (h : source.length ≤ n) :
    typedArraySet (uint8ArrayNew n) source
      = some (source ++ List.replicate (n - source.length) 0) := by
  unfold typedArraySet uint8ArrayNew
  rw [List.length_replicate, if_pos h, List.drop_replicate]

theorem questionBuffer_short {question : JSString} (h : (textEncode question).length ≤ 32) :
    questionBuffer question
      = some (textEncode question ++ List.replicate (32 - (textEncode question).length) 0) := by
  unfold questionBuffer
  simp only [if_pos h]
  exact typedArraySet_new h

theorem questionBuffer_long {question : JSString} (h : 32 < (textEncode question).length) :
    questionBuffer question = some ((textEncode question).take 32) := by
  unfold questionBuffer
  simp only [if_neg (not_le.2 h)]
  have hlen : ((textEncode question).take 32).length = 32 := by
    rw [List.length_take]
    omega
  rw [typedArraySet_new (by omega), hlen]
  simp


/-! ## Facts about UTF-8 and UTF-16 -/

theorem val_ofNat_byte (n : ℕ) : ((Fin.ofNat n : Byte) : ℕ) = n % 256 := rfl

theorem utf8DecodeFrom_cons (st : Utf8State) (b : Byte) (rest : List Byte) :
    utf8DecodeFrom st (b :: rest) =
    if st.bytesNeeded = 0 then
      (utf8Start b.val).1.toList ++ utf8DecodeFrom (utf8Start b.val).2 rest
    else if b.val < st.lower ∨ st.upper < b.val then
      0xFFFD :: ((utf8Start b.val).1.toList ++ utf8DecodeFrom (utf8Start b.val).2 rest)
    else if st.bytesSeen + 1 ≠ st.bytesNeeded then
      utf8DecodeFrom
        { codePoint := st.codePoint * 64 + b.val % 64, bytesSeen := st.bytesSeen + 1,
          bytesNeeded := st.bytesNeeded, lower := 0x80, upper := 0xBF } rest
    else (st.codePoint * 64 + b.val % 64) :: utf8DecodeFrom Utf8State.initial rest := rfl

theorem utf8DecodeFrom_ascii (b : Byte) (rest : List Byte) (h : b.val ≤ 0x7F) :
    utf8DecodeFrom Utf8State.initial (b :: rest)
      = b.val :: utf8DecodeFrom Utf8State.initial rest := by
  rw [utf8DecodeFrom_cons]
  simp only [Utf8State.initial, utf8Start, if_true, if_pos h]
  rfl

theorem utf8DecodeFrom_lead2 (b : Byte) (rest : List Byte) (h : 0xC2 ≤ b.val ∧ b.val ≤ 0xDF) :
    utf8DecodeFrom Utf8State.initial (b :: rest)
      = utf8DecodeFrom { codePoint := b.val % 32, bytesSeen := 0, bytesNeeded := 1,
                         lower := 0x80, upper := 0xBF } rest := by
  rw [utf8DecodeFrom_cons]
  simp only [Utf8State.initial, utf8Start, if_true]
  rw [if_neg (by omega), if_pos h]
  rfl

theorem utf8DecodeFrom_lead3 (b : Byte) (rest : List Byte) (h : 0xE0 ≤ b.val ∧ b.val ≤ 0xEF) :
    utf8DecodeFrom Utf8State.initial (b :: rest)
      = utf8DecodeFrom { codePoint := b.val % 16, bytesSeen := 0, bytesNeeded := 2,
                         lower := if b.val = 0xE0 then 0xA0 else 0x80,
                         upper := if b.val = 0xED then 0x9F else 0xBF } rest := by
  rw [utf8DecodeFrom_cons]
  simp only [Utf8State.initial, utf8Start, if_true]
  rw [if_neg (by omega), if_neg (by omega), if_pos h]
  rfl

theorem utf8DecodeFrom_lead4 (b : Byte) (rest : List Byte) (h : 0xF0 ≤ b.val ∧ b.val ≤ 0xF4) :
    utf8DecodeFrom Utf8State.initial (b :: rest)
      = utf8DecodeFrom { codePoint := b.val % 8, bytesSeen := 0, bytesNeeded := 3,
                         lower := if b.val = 0xF0 then 0x90 else 0x80,
                         upper := if b.val = 0xF4 then 0x8F else 0xBF } rest := by
  rw [utf8DecodeFrom_cons]
  simp only [Utf8State.initial, utf8Start, if_true]
  rw [if_neg (by omega), if_neg (by omega), if_neg (by omega), if_pos h]
  rfl

theorem utf8DecodeFrom_continue (st : Utf8State) (b : Byte) (rest : List Byte)
    (hn : st.bytesNeeded ≠ 0) (hr : st.lower ≤ b.val ∧ b.val ≤ st.upper)
    (hm : st.bytesSeen + 1 ≠ st.bytesNeeded) :
    utf8DecodeFrom st (b :: rest)
      = utf8DecodeFrom { codePoint := st.codePoint * 64 + b.val % 64,
                         bytesSeen := st.bytesSeen + 1, bytesNeeded := st.bytesNeeded,
                         lower := 0x80, upper := 0xBF } rest := by
  rw [utf8DecodeFrom_cons, if_neg hn, if_neg (by omega), if_pos hm]

theorem utf8DecodeFrom_complete (st : Utf8State) (b : Byte) (rest : List Byte)
    (hn : st.bytesNeeded ≠ 0) (hr : st.lower ≤ b.val ∧ b.val ≤ st.upper)
    (hm : st.bytesSeen + 1 = st.bytesNeeded) :
    utf8DecodeFrom st (b :: rest)
      = (st.codePoint * 64 + b.val % 64) :: utf8DecodeFrom Utf8State.initial rest := by
  rw [utf8DecodeFrom_cons, if_neg hn, if_neg (by omega), if_neg (by omega)]

theorem utf8Decode_one (c : ℕ) (hc : c < 0x80) (rest : List Byte) :
    utf8DecodeFrom Utf8State.initial ((Fin.ofNat c : Byte) :: rest)
      = c :: utf8DecodeFrom Utf8State.initial rest := by
  have h1 : ((Fin.ofNat c : Byte) : ℕ) = c := by rw [val_ofNat_byte]; omega
  rw [utf8DecodeFrom_ascii _ _ (by omega), h1]

theorem utf8Decode_two (c : ℕ) (h1 : 0x80 ≤ c) (h2 : c < 0x800) (rest : List Byte) :
    utf8DecodeFrom Utf8State.initial
        ((Fin.ofNat (0xC0 + c / 64) : Byte) :: (Fin.ofNat (0x80 + c % 64) : Byte) :: rest)
      = c :: utf8DecodeFrom Utf8State.initial rest := by
  have e1 : ((Fin.ofNat (0xC0 + c / 64) : Byte) : ℕ) = 0xC0 + c / 64 := by
    rw [val_ofNat_byte]; omega
  have e2 : ((Fin.ofNat (0x80 + c % 64) : Byte) : ℕ) = 0x80 + c % 64 := by
    rw [val_ofNat_byte]; omega
  rw [utf8DecodeFrom_lead2 _ _ (by omega),
    utf8DecodeFrom_complete _ _ _ (by simp) (by simp only; omega) (by simp), e1, e2]
  congr 1
  simp only
  omega

theorem utf8Decode_three (c : ℕ) (h1 : 0x800 ≤ c) (h2 : c < 0x10000)
    (hs : ¬ (0xD800 ≤ c ∧ c ≤ 0xDFFF)) (rest : List Byte) :
    utf8DecodeFrom Utf8State.initial
        ((Fin.ofNat (0xE0 + c / 4096) : Byte) :: (Fin.ofNat (0x80 + c / 64 % 64) : Byte)
          :: (Fin.ofNat (0x80 + c % 64) : Byte) :: rest)
      = c :: utf8DecodeFrom Utf8State.initial rest := by
  have e1 : ((Fin.ofNat (0xE0 + c / 4096) : Byte) : ℕ) = 0xE0 + c / 4096 := by
    rw [val_ofNat_byte]; omega
  have e2 : ((Fin.ofNat (0x80 + c / 64 % 64) : Byte) : ℕ) = 0x80 + c / 64 % 64 := by
    rw [val_ofNat_byte]; omega
  have e3 : ((Fin.ofNat (0x80 + c % 64) : Byte) : ℕ) = 0x80 + c % 64 := by
    rw [val_ofNat_byte]; omega
  rw [utf8DecodeFrom_lead3 _ _ (by omega),
    utf8DecodeFrom_continue _ _ _ (by simp) (by simp only; split_ifs <;> omega) (by simp),
    utf8DecodeFrom_complete _ _ _ (by simp) (by simp only; omega) (by simp), e1, e2, e3]
  congr 1
  simp only
  omega

theorem utf8Decode_four (c : ℕ) (h1 : 0x10000 ≤ c) (h2 : c < 0x110000) (rest : List Byte) :
    utf8DecodeFrom Utf8State.initial
        ((Fin.ofNat (0xF0 + c / 262144) : Byte) :: (Fin.ofNat (0x80 + c / 4096 % 64) : Byte)
          :: (Fin.ofNat (0x80 + c / 64 % 64) : Byte) :: (Fin.ofNat (0x80 + c % 64) : Byte) :: rest)
      = c :: utf8DecodeFrom Utf8State.initial rest := by
  have e1 : ((Fin.ofNat (0xF0 + c / 262144) : Byte) : ℕ) = 0xF0 + c / 262144 := by
    rw [val_ofNat_byte]; omega
  have e2 : ((Fin.ofNat (0x80 + c / 4096 % 64) : Byte) : ℕ) = 0x80 + c / 4096 % 64 := by
    rw [val_ofNat_byte]; omega
  have e3 : ((Fin.ofNat (0x80 + c / 64 % 64) : Byte) : ℕ) = 0x80 + c / 64 % 64 := by
    rw [val_ofNat_byte]; omega
  have e4 : ((Fin.ofNat (0x80 + c % 64) : Byte) : ℕ) = 0x80 + c % 64 := by
    rw [val_ofNat_byte]; omega
  rw [utf8DecodeFrom_lead4 _ _ (by omega),
    utf8DecodeFrom_continue _ _ _ (by simp) (by simp only; split_ifs <;> omega) (by simp),
    utf8DecodeFrom_continue _ _ _ (by simp) (by simp only; omega) (by simp),
    utf8DecodeFrom_complete _ _ _ (by simp) (by simp only; omega) (by simp), e1, e2, e3, e4]
  congr 1
  simp only
  omega

/-- Decoding the UTF-8 encoding of a scalar value gives the scalar value back. -/
theorem utf8Decode_encodeScalar {c : ℕ} (hc : IsScalar c) (rest : List Byte) :
    utf8DecodeFrom Utf8State.initial (utf8EncodeScalar c ++ rest)
      = c :: utf8DecodeFrom Utf8State.initial rest := by
  unfold utf8EncodeScalar
  split_ifs with h1 h2 h3
  · exact utf8Decode_one c h1 rest
  · exact utf8Decode_two c (by omega) h2 rest
  · exact utf8Decode_three c (by omega) h3 hc.2 rest
  · exact utf8Decode_four c (by omega) hc.1 rest

theorem utf8Decode_encode {cs : List ℕ} (hcs : ∀ c ∈ cs, IsScalar c) (rest : List Byte) :
    utf8DecodeFrom Utf8State.initial (cs.flatMap utf8EncodeScalar ++ rest)
      = cs ++ utf8DecodeFrom Utf8State.initial rest := by
  induction cs with
  | nil => rfl
  | cons c cs ih =>
    rw [List.flatMap_cons, List.append_assoc,
      utf8Decode_encodeScalar (hcs c (List.mem_cons_self _ _)),
      ih (fun d hd => hcs d (List.mem_cons_of_mem _ hd))]
    rfl

theorem utf8Decode_zeros (k : ℕ) :
    utf8DecodeFrom Utf8State.initial (List.replicate k (0 : Byte)) = List.replicate k 0 := by
  induction k with
  | zero => rfl
  | succ k ih =>
    rw [List.replicate_succ, utf8DecodeFrom_ascii _ _ (by decide), ih]
    rfl

theorem toScalars_nil : toScalars [] = [] := rfl

theorem toScalars_pair {u v : CodeUnit} (rest : JSString) (hu : isHighSurrogate u = true)
    (hv : isLowSurrogate v = true) :
    toScalars (u :: v :: rest)
      = (0x10000 + (u.val - 0xD800) * 0x400 + (v.val - 0xDC00)) :: toScalars rest := by
  rw [toScalars, if_pos hu]
  simp only [hv, if_true]

theorem toScalars_loneHigh_end {u : CodeUnit} (hu : isHighSurrogate u = true) :
    toScalars [u] = [0xFFFD] := by
  rw [toScalars, if_pos hu]

theorem toScalars_loneHigh {u v : CodeUnit} (rest : JSString) (hu : isHighSurrogate u = true)
    (hv : isLowSurrogate v = false) :
    toScalars (u :: v :: rest) = 0xFFFD :: toScalars (v :: rest) := by
  rw [toScalars, if_pos hu]
  simp only [hv]
  rfl

theorem toScalars_loneLow {u : CodeUnit} (rest : JSString) (hu : isHighSurrogate u = false)
    (hl : isLowSurrogate u = true) :
    toScalars (u :: rest) = 0xFFFD :: toScalars rest := by
  rw [toScalars.eq_def]
  simp [hu, hl]

theorem toScalars_bmp {u : CodeUnit} (rest : JSString) (hu : isHighSurrogate u = false)
    (hl : isLowSurrogate u = false) :
    toScalars (u :: rest) = u.val :: toScalars rest := by
  rw [toScalars.eq_def]
  simp [hu, hl]

theorem val_ofNat_unit (n : ℕ) : ((Fin.ofNat n : CodeUnit) : ℕ) = n % 65536 := rfl

theorem isScalar_of_mem_toScalars (q : JSString) : ∀ c ∈ toScalars q, IsScalar c := by
  induction q using toScalars.induct with
  | case1 => simp [toScalars]
  | case2 u hu =>
    rw [toScalars_loneHigh_end hu]
    intro c hc
    rw [List.mem_singleton] at hc
    subst hc
    unfold IsScalar; omega
  | case3 u hu v rest hv ih =>
    rw [toScalars_pair rest hu hv]
    intro c hc
    rcases List.mem_cons.1 hc with hc | hc
    · simp only [isHighSurrogate, isLowSurrogate, Bool.and_eq_true, decide_eq_true_eq] at hu hv
      have hu' := u.isLt
      have hv' := v.isLt
      unfold IsScalar
      omega
    · exact ih c hc
  | case4 u hu v rest hv ih =>
    rw [toScalars_loneHigh rest hu (by simpa using hv)]
    intro c hc
    rcases List.mem_cons.1 hc with rfl | hc
    · unfold IsScalar; omega
    · exact ih c hc
  | case5 u rest hu hl ih =>
    rw [toScalars_loneLow rest (by simpa using hu) hl]
    intro c hc
    rcases List.mem_cons.1 hc with rfl | hc
    · unfold IsScalar; omega
    · exact ih c hc
  | case6 u rest hu hl ih =>
    rw [toScalars_bmp rest (by simpa using hu) (by simpa using hl)]
    intro c hc
    rcases List.mem_cons.1 hc with rfl | hc
    · have := u.isLt
      simp only [isHighSurrogate, isLowSurrogate, Bool.and_eq_true, decide_eq_true_eq] at hu hl
      unfold IsScalar
      omega
    · exact ih c hc

/-- A string without lone surrogates is the UTF-16 encoding of its scalar values. -/
theorem utf16Encode_toScalars (q : JSString) (h : 0xFFFD ∉ toScalars q) :
    (toScalars q).flatMap utf16Encode = q ∧ ∀ u ∈ q, u.val ≠ 0xFFFD := by
  induction q using toScalars.induct with
  | case1 => simp [toScalars]
  | case2 u hu =>
    rw [toScalars_loneHigh_end hu] at h
    exact absurd (List.mem_cons_self _ _) h
  | case3 u hu v rest hv ih =>
    rw [toScalars_pair rest hu hv] at h ⊢
    obtain ⟨ih1, ih2⟩ := ih (fun hm => h (List.mem_cons_of_mem _ hm))
    have hu' := u.isLt
    have hv' := v.isLt
    simp only [isHighSurrogate, isLowSurrogate, Bool.and_eq_true, decide_eq_true_eq] at hu hv
    constructor
    · rw [List.flatMap_cons, ih1]
      have e : utf16Encode (0x10000 + (u.val - 0xD800) * 0x400 + (v.val - 0xDC00)) = [u, v] := by
        unfold utf16Encode
        rw [if_neg (by omega)]
        have a : (Fin.ofNat (0xD800 + (0x10000 + (u.val - 0xD800) * 0x400 + (v.val - 0xDC00)
            - 0x10000) / 0x400) : CodeUnit) = u := by
          apply Fin.ext
          rw [val_ofNat_unit]
          omega
        have b : (Fin.ofNat (0xDC00 + (0x10000 + (u.val - 0xD800) * 0x400 + (v.val - 0xDC00)
            - 0x10000) % 0x400) : CodeUnit) = v := by
          apply Fin.ext
          rw [val_ofNat_unit]
          omega
        rw [a, b]
      rw [e]
      rfl
    · intro w hw
      rcases List.mem_cons.1 hw with rfl | hw
      · omega
      · rcases List.mem_cons.1 hw with rfl | hw
        · omega
        · exact ih2 w hw
  | case4 u hu v rest hv ih =>
    rw [toScalars_loneHigh rest hu (by simpa using hv)] at h
    exact absurd (List.mem_cons_self _ _) h
  | case5 u rest hu hl ih =>
    rw [toScalars_loneLow rest (by simpa using hu) hl] at h
    exact absurd (List.mem_cons_self _ _) h
  | case6 u rest hu hl ih =>
    rw [toScalars_bmp rest (by simpa using hu) (by simpa using hl)] at h ⊢
    obtain ⟨ih1, ih2⟩ := ih (fun hm => h (List.mem_cons_of_mem _ hm))
    have hu' := u.isLt
    have hne : u.val ≠ 0xFFFD := fun e => h (by rw [e]; exact List.mem_cons_self _ _)
    constructor
    · rw [List.flatMap_cons, ih1]
      have e : utf16Encode u.val = [u] := by
        unfold utf16Encode
        rw [if_pos (by omega)]
        congr 1
        apply Fin.ext
        rw [val_ofNat_unit]
        omega
      rw [e]
      rfl
    · intro w hw
      rcases List.mem_cons.1 hw with rfl | hw
      · exact hne
      · exact ih2 w hw

/-- The first scalar value of a string is U+FEFF only when its first code unit is. -/
theorem head_toScalars (u : CodeUnit) (rest : JSString) :
    ∃ c cs, toScalars (u :: rest) = c :: cs ∧ (c = 0xFEFF → u.val = 0xFEFF) := by
  by_cases hu : isHighSurrogate u = true
  · cases rest with
    | nil => exact ⟨_, _, toScalars_loneHigh_end hu, by norm_num⟩
    | cons v rest' =>
      by_cases hv : isLowSurrogate v = true
      · refine ⟨_, _, toScalars_pair rest' hu hv, ?_⟩
        intro h
        omega
      · exact ⟨_, _, toScalars_loneHigh rest' hu (by simpa using hv), by norm_num⟩
  · by_cases hl : isLowSurrogate u = true
    · exact ⟨_, _, toScalars_loneLow rest (by simpa using hu) hl, by norm_num⟩
    · exact ⟨_, _, toScalars_bmp rest (by simpa using hu) (by simpa using hl), fun h => h⟩

/-! ## Facts about the decoder -/

theorem removeFirst0x_leading (rest : JSString) : removeFirst0x (js "0x" ++ rest) = rest := by
  rw [js_0x]
  show removeFirst0x (48 :: 120 :: rest) = rest
  rw [removeFirst0x, if_pos (by decide)]

/-- Parsing the trimmed hexadecimal string of a non-empty byte array gives the array without
its leading zero bytes (a single zero byte when all are zero). -/
theorem hexToBytes_trimHex_toHex (bytes : List Byte) (hne : bytes ≠ []) :
    hexToBytes (trimHex (toHex bytes))
      = some (if bytes.dropWhile (fun b => b.val = 0) = [] then [0]
              else bytes.dropWhile (fun b => b.val = 0)) := by
  have h := trimmed_hexChars bytes hne
  unfold hexToBytes trimHex toHex
  simp only [removeFirst0x_leading]
  rw [js_0x]
  simp only [List.cons_append, List.nil_append, List.drop_succ_cons, List.drop_zero]
  set d := (bytes.flatMap byteToHex).drop
    (leadingZeroChars ((bytes.flatMap byteToHex).length - 1) (bytes.flatMap byteToHex)) with hd
  have heven : (if d.length % 2 = 1 then js "0" ++ d else d).length % 2 = 0 := by
    split_ifs with hodd
    · rw [js_0, List.length_append, List.length_singleton]; omega
    · omega
  rw [if_neg (by omega)]
  exact h

theorem utf8EncodeScalar_head {c : ℕ} (hc : c ≠ 0) (hs : IsScalar c) :
    ∃ b rest, utf8EncodeScalar c = b :: rest ∧ b.val ≠ 0 := by
  have := hs.1
  unfold utf8EncodeScalar
  split_ifs with h1 h2 h3
  · exact ⟨_, _, rfl, by rw [val_ofNat_byte]; omega⟩
  · exact ⟨_, _, rfl, by rw [val_ofNat_byte]; omega⟩
  · exact ⟨_, _, rfl, by rw [val_ofNat_byte]; omega⟩
  · exact ⟨_, _, rfl, by rw [val_ofNat_byte]; omega⟩

theorem dropWhile_eq_self {α : Type} (p : α → Bool) (l : List α)
    (h : ∀ u, l.head? = some u → p u = false) : l.dropWhile p = l := by
  cases l with
  | nil => rfl
  | cons u r => rw [List.dropWhile_cons, h u rfl]; rfl

theorem jsTrim_eq_self (q : JSString) (hhead : ∀ u, q.head? = some u → isWhiteSpace u = false)
    (hlast : ∀ u, q.getLast? = some u → isWhiteSpace u = false) : jsTrim q = q := by
  unfold jsTrim
  rw [dropWhile_eq_self _ q hhead, dropWhile_eq_self _ q.reverse, List.reverse_reverse]
  intro u hu
  rw [List.head?_reverse] at hu
  exact hlast u hu

theorem removeNul_append_zeros (q : JSString) (k : ℕ) (h : ∀ u ∈ q, u.val ≠ 0) :
    removeNul (q ++ List.replicate k 0) = q := by
  unfold removeNul
  rw [List.filter_append]
  have h1 : q.filter (fun u => decide (u.val ≠ 0)) = q :=
    List.filter_eq_self.2 (fun u hu => by simpa using h u hu)
  have h2 : (List.replicate k (0 : CodeUnit)).filter (fun u => decide (u.val ≠ 0)) = [] := by
    rw [List.filter_eq_nil_iff]
    intro u hu
    rw [List.eq_of_mem_replicate hu]
    decide
  rw [h1, h2, List.append_nil]

theorem utf16Encode_zeros (k : ℕ) :
    (List.replicate k 0).flatMap utf16Encode = List.replicate k (0 : CodeUnit) := by
  induction k with
  | zero => rfl
  | succ k ih => rw [List.replicate_succ, List.flatMap_cons, ih]; rfl

/-- Decoding the zero-padded UTF-8 encoding of a string without lone surrogates whose first
code unit is not U+FEFF gives the string followed by NUL characters. -/
theorem textDecode_textEncode (q : JSString) (k : ℕ) (hrep : 0xFFFD ∉ toScalars q)
    (hbom : ∀ u, q.head? = some u → u.val ≠ 0xFEFF) :
    textDecode (textEncode q ++ List.replicate k 0) = q ++ List.replicate k 0 := by
  unfold textDecode textEncode
  rw [utf8Decode_encode (isScalar_of_mem_toScalars q), utf8Decode_zeros]
  have hstrip : stripBOM (toScalars q ++ List.replicate k 0) = toScalars q ++ List.replicate k 0 := by
    cases q with
    | nil =>
      rw [toScalars_nil, List.nil_append]
      cases k with
      | zero => rfl
      | succ k => rfl
    | cons u rest =>
      obtain ⟨c, cs, hc, hfe⟩ := head_toScalars u rest
      rw [hc, List.cons_append, stripBOM, if_neg (fun h => hbom u rfl (hfe h))]
  rw [hstrip, List.flatMap_append, (utf16Encode_toScalars q hrep).1, utf16Encode_zeros]

theorem jsTrim_of_isTrimmed {q : JSString} (h : isTrimmed q = true) : jsTrim q = q := by
  cases q with
  | nil => rfl
  | cons u r =>
    have hl : ∃ l, (u :: r).getLast? = some l := ⟨(u :: r).getLast (by simp), List.getLast?_eq_getLast _ _⟩
    obtain ⟨l, hl⟩ := hl
    unfold isTrimmed at h
    rw [hl] at h
    simp only [List.head?_cons, Bool.and_eq_true, Bool.not_eq_true'] at h
    apply jsTrim_eq_self
    · intro w hw
      rw [List.head?_cons] at hw
      injection hw with hw
      rw [← hw]
      exact h.1
    · intro w hw
      rw [hl] at hw
      injection hw with hw
      rw [← hw]
      exact h.2

/-! ## Facts about decoding arbitrary buffers -/

theorem jsTrim_cons_whiteSpace {w : CodeUnit} (s : JSString) (hw : isWhiteSpace w = true) :
    jsTrim (w :: s) = jsTrim s := by
  unfold jsTrim
  rw [List.dropWhile_cons, if_pos hw]

theorem removeNul_cons_zero (s : JSString) : removeNul ((0 : CodeUnit) :: s) = removeNul s := by
  unfold removeNul
  rw [List.filter_cons]
  simp

theorem removeNul_cons_ne {u : CodeUnit} (s : JSString) (hu : u.val ≠ 0) :
    removeNul (u :: s) = u :: removeNul s := by
  unfold removeNul
  rw [List.filter_cons]
  simp [hu]

/-- Removing a leading byte order mark does not change the cleaned text. -/
theorem clean_stripBOM (cs : List ℕ) :
    jsTrim (removeNul ((stripBOM cs).flatMap utf16Encode))
      = jsTrim (removeNul (cs.flatMap utf16Encode)) := by
  cases cs with
  | nil => rfl
  | cons c rest =>
    by_cases hc : c = 0xFEFF
    · rw [stripBOM, if_pos hc, hc, List.flatMap_cons]
      have e : utf16Encode 0xFEFF = [(Fin.ofNat 0xFEFF : CodeUnit)] := by decide
      rw [e, List.singleton_append, removeNul_cons_ne _ (by decide),
        jsTrim_cons_whiteSpace _ (by decide)]
    · rw [stripBOM, if_neg hc]

theorem textDecode_cons_zero (rest : List Byte) :
    removeNul (textDecode ((0 : Byte) :: rest))
      = removeNul ((utf8DecodeFrom Utf8State.initial rest).flatMap utf16Encode) := by
  unfold textDecode
  rw [utf8DecodeFrom_ascii _ _ (by decide)]
  have e : ((0 : Byte) : ℕ) = 0 := rfl
  rw [e, stripBOM, if_neg (by decide), List.flatMap_cons]
  have e2 : utf16Encode 0 = [(0 : CodeUnit)] := by decide
  rw [e2, List.singleton_append, removeNul_cons_zero]

/-- Leading zero bytes do not change the cleaned text. -/
theorem cleanedText_stripLeadingZeros (buffer : List Byte) :
    cleanedText (stripLeadingZeros buffer) = cleanedText buffer := by
  induction buffer with
  | nil => decide
  | cons b rest ih =>
    by_cases hb : b.val = 0
    · have hb0 : b = 0 := Fin.ext hb
      have hs : stripLeadingZeros (b :: rest) = stripLeadingZeros rest := by
        unfold stripLeadingZeros
        rw [List.dropWhile_cons]
        simp [hb]
      rw [hs, ih, hb0]
      unfold cleanedText
      rw [textDecode_cons_zero]
      unfold textDecode
      rw [clean_stripBOM]
    · have hs : stripLeadingZeros (b :: rest) = b :: rest := by
        unfold stripLeadingZeros
        rw [List.dropWhile_cons]
        simp [hb]
      rw [hs]

/-- The decoder on the hexadecimal string of a non-empty buffer, in terms of the cleaned text
of the buffer. -/
theorem decodeQuestion_toHex (buffer : List Byte) (marketAddress : JSString)
    (hne : buffer ≠ []) :
    decodeQuestion (toHex buffer) marketAddress
      = if (cleanedText buffer).isEmpty || (cleanedText buffer).length < 3
            || (cleanedText buffer).contains (0xFFFD : CodeUnit)
            || isHexPattern (cleanedText buffer)
        then fallbackQuestion marketAddress else cleanedText buffer := by
  have h := hexToBytes_trimHex_toHex buffer hne
  have hc := cleanedText_stripLeadingZeros buffer
  unfold cleanedText stripLeadingZeros at hc
  unfold decodeQuestion hexToString
  rw [h]
  simp only [Option.map_some']
  rw [hc]
  rfl

/-! ## Facts about malformed UTF-8 -/

theorem utf8DecodeFrom_end (st : Utf8State) (hn : st.bytesNeeded ≠ 0) :
    utf8DecodeFrom st [] = [0xFFFD] := by
  rw [utf8DecodeFrom, if_pos hn]

theorem utf8DecodeFrom_mismatch (st : Utf8State) (b : Byte) (rest : List Byte)
    (hn : st.bytesNeeded ≠ 0) (hr : b.val < st.lower ∨ st.upper < b.val) :
    utf8DecodeFrom st (b :: rest)
      = 0xFFFD :: ((utf8Start b.val).1.toList ++ utf8DecodeFrom (utf8Start b.val).2 rest) := by
  rw [utf8DecodeFrom_cons, if_neg hn, if_pos hr]

theorem utf8DecodeFrom_invalid (b : Byte) (rest : List Byte) (h1 : ¬ b.val ≤ 0x7F)
    (h2 : ¬ (0xC2 ≤ b.val ∧ b.val ≤ 0xDF)) (h3 : ¬ (0xE0 ≤ b.val ∧ b.val ≤ 0xEF))
    (h4 : ¬ (0xF0 ≤ b.val ∧ b.val ≤ 0xF4)) :
    utf8DecodeFrom Utf8State.initial (b :: rest)
      = 0xFFFD :: utf8DecodeFrom Utf8State.initial rest := by
  rw [utf8DecodeFrom_cons]
  simp only [Utf8State.initial, utf8Start, if_true]
  rw [if_neg h1, if_neg h2, if_neg h3, if_neg h4]
  rfl

/-- In a multi-byte sequence, the decoder emits U+FFFD on a byte outside the expected
range and at the end of the input. -/
theorem replacement_of_bad_continuation (st : Utf8State) (bs : List Byte)
    (hn : st.bytesNeeded ≠ 0)
    (h : ∀ c rest, bs = c :: rest → ¬ (st.lower ≤ c.val ∧ c.val ≤ st.upper)) :
    0xFFFD ∈ utf8DecodeFrom st bs := by
  cases bs with
  | nil => rw [utf8DecodeFrom_end st hn]; exact List.mem_singleton_self _
  | cons c rest =>
    have := h c rest rfl
    rw [utf8DecodeFrom_mismatch st c rest hn (by omega)]
    exact List.mem_cons_self _ _

theorem inByteRange_iff (b : Byte) (lo hi : ℕ) :
    inByteRange b lo hi = true ↔ lo ≤ b.val ∧ b.val ≤ hi := by
  simp [inByteRange]

theorem utf8SequenceLength_cons (b : Byte) (rest : List Byte) :
    utf8SequenceLength (b :: rest) =
    if b.val ≤ 0x7F then some 1
    else if 0xC2 ≤ b.val ∧ b.val ≤ 0xDF then
      match rest with
      | c :: _ => if inByteRange c 0x80 0xBF then some 2 else none
      | _ => none
    else if 0xE0 ≤ b.val ∧ b.val ≤ 0xEF then
      match rest with
      | c :: d :: _ =>
        if inByteRange c (if b.val = 0xE0 then 0xA0 else 0x80)
              (if b.val = 0xED then 0x9F else 0xBF)
            && inByteRange d 0x80 0xBF then some 3 else none
      | _ => none
    else if 0xF0 ≤ b.val ∧ b.val ≤ 0xF4 then
      match rest with
      | c :: d :: e :: _ =>
        if inByteRange c (if b.val = 0xF0 then 0x90 else 0x80)
              (if b.val = 0xF4 then 0x8F else 0xBF)
            && inByteRange d 0x80 0xBF && inByteRange e 0x80 0xBF then some 4 else none
      | _ => none
    else none := rfl

/-- Bytes that do not start with a well-formed sequence decode to a text that contains the
replacement character. -/
theorem replacement_of_no_sequence (b : Byte) (rest : List Byte)
    (h : utf8SequenceLength (b :: rest) = none) :
    0xFFFD ∈ utf8DecodeFrom Utf8State.initial (b :: rest) := by
  rw [utf8SequenceLength_cons] at h
  by_cases h1 : b.val ≤ 0x7F
  · rw [if_pos h1] at h
    exact absurd h (by simp)
  rw [if_neg h1] at h
  by_cases h2 : 0xC2 ≤ b.val ∧ b.val ≤ 0xDF
  · rw [if_pos h2] at h
    rw [utf8DecodeFrom_lead2 b _ h2]
    apply replacement_of_bad_continuation _ _ (by simp)
    intro c r e hc
    subst e
    simp only [(inByteRange_iff c 0x80 0xBF).2 hc, if_true] at h
    exact absurd h (by simp)
  rw [if_neg h2] at h
  by_cases h3 : 0xE0 ≤ b.val ∧ b.val ≤ 0xEF
  · rw [if_pos h3] at h
    rw [utf8DecodeFrom_lead3 b _ h3]
    by_cases hc : ∃ c r, rest = c :: r ∧ (if b.val = 0xE0 then 0xA0 else 0x80) ≤ c.val
        ∧ c.val ≤ (if b.val = 0xED then 0x9F else 0xBF)
    · obtain ⟨c, r, e, hc⟩ := hc
      subst e
      rw [utf8DecodeFrom_continue _ _ _ (by simp) (by simpa using hc) (by simp)]
      apply replacement_of_bad_continuation _ _ (by simp)
      intro d r' e hd
      subst e
      simp only [(inByteRange_iff c _ _).2 hc, (inByteRange_iff d 0x80 0xBF).2 hd,
        Bool.and_self, if_true] at h
      exact absurd h (by simp)
    · apply replacement_of_bad_continuation _ _ (by simp)
      intro c r e hc'
      exact hc ⟨c, r, e, by simpa using hc'⟩
  rw [if_neg h3] at h
  by_cases h4 : 0xF0 ≤ b.val ∧ b.val ≤ 0xF4
  · rw [if_pos h4] at h
    rw [utf8DecodeFrom_lead4 b _ h4]
    by_cases hc : ∃ c r, rest = c :: r ∧ (if b.val = 0xF0 then 0x90 else 0x80) ≤ c.val
        ∧ c.val ≤ (if b.val = 0xF4 then 0x8F else 0xBF)
    · obtain ⟨c, r, e, hc⟩ := hc
      subst e
      rw [utf8DecodeFrom_continue _ _ _ (by simp) (by simpa using hc) (by simp)]
      by_cases hd : ∃ d r', r = d :: r' ∧ 0x80 ≤ d.val ∧ d.val ≤ 0xBF
      · obtain ⟨d, r', e, hd⟩ := hd
        subst e
        rw [utf8DecodeFrom_continue _ _ _ (by simp) (by simpa using hd) (by simp)]
        apply replacement_of_bad_continuation _ _ (by simp)
        intro e' r'' e he
        subst e
        simp only [(inByteRange_iff c _ _).2 hc, (inByteRange_iff d 0x80 0xBF).2 hd,
          (inByteRange_iff e' 0x80 0xBF).2 he, Bool.and_self, if_true] at h
        exact absurd h (by simp)
      · apply replacement_of_bad_continuation _ _ (by simp)
        intro d r' e hd'
        exact hd ⟨d, r', e, by simpa using hd'⟩
    · apply replacement_of_bad_continuation _ _ (by simp)
      intro c r e hc'
      exact hc ⟨c, r, e, by simpa using hc'⟩
  · rw [utf8DecodeFrom_invalid b rest h1 h2 h3 h4]
    exact List.mem_cons_self _ _

/-- A well-formed sequence at the start of the bytes decodes to one code point, and decoding
continues after it outside any sequence. -/
theorem utf8Decode_sequence (b : Byte) (rest : List Byte) (n : ℕ)
    (h : utf8SequenceLength (b :: rest) = some n) :
    1 ≤ n ∧ ∃ cp, utf8DecodeFrom Utf8State.initial (b :: rest)
      = cp :: utf8DecodeFrom Utf8State.initial ((b :: rest).drop n) := by
  rw [utf8SequenceLength_cons] at h
  by_cases h1 : b.val ≤ 0x7F
  · rw [if_pos h1] at h
    injection h with h
    subst h
    exact ⟨le_refl _, _, utf8DecodeFrom_ascii b rest h1⟩
  rw [if_neg h1] at h
  by_cases h2 : 0xC2 ≤ b.val ∧ b.val ≤ 0xDF
  · rw [if_pos h2] at h
    cases rest with
    | nil => exact absurd h (by simp)
    | cons c r =>
      by_cases hc : inByteRange c 0x80 0xBF = true
      · simp only [hc, if_true] at h
        injection h with h
        subst h
        refine ⟨by norm_num, ?_⟩
        rw [utf8DecodeFrom_lead2 b _ h2, utf8DecodeFrom_complete _ _ _ (by simp)
          (by simpa using (inByteRange_iff c _ _).1 hc) (by simp)]
        exact ⟨_, rfl⟩
      · simp only [hc] at h
        exact absurd h (by simp)
  rw [if_neg h2] at h
  by_cases h3 : 0xE0 ≤ b.val ∧ b.val ≤ 0xEF
  · rw [if_pos h3] at h
    match rest, h with
    | [], h => exact absurd h (by simp)
    | [_], h => exact absurd h (by simp)
    | c :: d :: r, h =>
      by_cases hc : inByteRange c (if b.val = 0xE0 then 0xA0 else 0x80)
          (if b.val = 0xED then 0x9F else 0xBF) = true
      · by_cases hd : inByteRange d 0x80 0xBF = true
        · simp only [hc, hd, Bool.and_self, if_true] at h
          injection h with h
          subst h
          refine ⟨by norm_num, ?_⟩
          rw [utf8DecodeFrom_lead3 b _ h3, utf8DecodeFrom_continue _ _ _ (by simp)
            (by simpa using (inByteRange_iff c _ _).1 hc) (by simp),
            utf8DecodeFrom_complete _ _ _ (by simp)
            (by simpa using (inByteRange_iff d _ _).1 hd) (by simp)]
          exact ⟨_, rfl⟩
        · simp only [hc, hd] at h
          exact absurd h (by simp)
      · simp only [hc] at h
        exact absurd h (by simp)
  rw [if_neg h3] at h
  by_cases h4 : 0xF0 ≤ b.val ∧ b.val ≤ 0xF4
  · rw [if_pos h4] at h
    match rest, h with
    | [], h => exact absurd h (by simp)
    | [_], h => exact absurd h (by simp)
    | [_, _], h => exact absurd h (by simp)
    | c :: d :: e :: r, h =>
      by_cases hc : inByteRange c (if b.val = 0xF0 then 0x90 else 0x80)
          (if b.val = 0xF4 then 0x8F else 0xBF) = true
      · by_cases hd : inByteRange d 0x80 0xBF = true
        · by_cases he : inByteRange e 0x80 0xBF = true
          · simp only [hc, hd, he, Bool.and_self, if_true] at h
            injection h with h
            subst h
            refine ⟨by norm_num, ?_⟩
            rw [utf8DecodeFrom_lead4 b _ h4, utf8DecodeFrom_continue _ _ _ (by simp)
              (by simpa using (inByteRange_iff c _ _).1 hc) (by simp),
              utf8DecodeFrom_continue _ _ _ (by simp)
              (by simpa using (inByteRange_iff d _ _).1 hd) (by simp),
              utf8DecodeFrom_complete _ _ _ (by simp)
              (by simpa using (inByteRange_iff e _ _).1 he) (by simp)]
            exact ⟨_, rfl⟩
          · simp only [hc, hd, he] at h
            exact absurd h (by simp)
        · simp only [hc, hd] at h
          exact absurd h (by simp)
      · simp only [hc] at h
        exact absurd h (by simp)
  · rw [if_neg h4] at h
    exact absurd h (by simp)

theorem replacement_of_not_wellFormedAux (fuel : ℕ) (bs : List Byte) (hlen : bs.length ≤ fuel)
    (h : wellFormedUtf8Aux fuel bs = false) :
    0xFFFD ∈ utf8DecodeFrom Utf8State.initial bs := by
  induction fuel generalizing bs with
  | zero =>
    cases bs with
    | nil => simp [wellFormedUtf8Aux] at h
    | cons b rest => simp at hlen
  | succ fuel ih =>
    cases bs with
    | nil => simp [wellFormedUtf8Aux] at h
    | cons b rest =>
      rw [wellFormedUtf8Aux] at h
      cases hs : utf8SequenceLength (b :: rest) with
      | none => exact replacement_of_no_sequence b rest hs
      | some n =>
        rw [hs] at h
        obtain ⟨hn, cp, hcp⟩ := utf8Decode_sequence b rest n hs
        rw [hcp]
        apply List.mem_cons_of_mem
        apply ih _ _ h
        rw [List.length_drop]
        simp only [List.length_cons] at hlen ⊢
        omega

/-- A byte sequence that is not well-formed UTF-8 decodes to a text that contains the
replacement character. -/
theorem replacement_of_not_wellFormed (bs : List Byte) (h : wellFormedUtf8 bs = false) :
    0xFFFD ∈ utf8DecodeFrom Utf8State.initial bs :=
  replacement_of_not_wellFormedAux bs.length bs le_rfl h

theorem wellFormedUtf8Aux_fuel (f1 f2 : ℕ) (bs : List Byte) (h1 : bs.length ≤ f1)
    (h2 : bs.length ≤ f2) : wellFormedUtf8Aux f1 bs = wellFormedUtf8Aux f2 bs := by
  induction f1 generalizing f2 bs with
  | zero =>
    cases bs with
    | nil => cases f2 <;> rfl
    | cons b rest => simp at h1
  | succ f1 ih =>
    cases bs with
    | nil => cases f2 <;> rfl
    | cons b rest =>
      cases f2 with
      | zero => simp at h2
      | succ f2 =>
        rw [wellFormedUtf8Aux, wellFormedUtf8Aux]
        cases hs : utf8SequenceLength (b :: rest) with
        | none => rfl
        | some n =>
          obtain ⟨hn, -⟩ := utf8Decode_sequence b rest n hs
          simp only
          apply ih
          · rw [List.length_drop]; simp only [List.length_cons] at h1 ⊢; omega
          · rw [List.length_drop]; simp only [List.length_cons] at h2 ⊢; omega

theorem wellFormedUtf8_cons (b : Byte) (rest : List Byte) :
    wellFormedUtf8 (b :: rest)
      = match utf8SequenceLength (b :: rest) with
        | none => false
        | some n => wellFormedUtf8 ((b :: rest).drop n) := by
  unfold wellFormedUtf8
  rw [List.length_cons, wellFormedUtf8Aux]
  cases hs : utf8SequenceLength (b :: rest) with
  | none => rfl
  | some n =>
    obtain ⟨hn, -⟩ := utf8Decode_sequence b rest n hs
    simp only
    apply wellFormedUtf8Aux_fuel
    · rw [List.length_drop]; simp only [List.length_cons]; omega
    · exact le_rfl

/-- A well-formed sequence that does not start with a zero byte has no zero byte, and is
recognised whatever follows it. -/
theorem utf8Sequence_nonzero (b : Byte) (rest : List Byte) (n : ℕ)
    (h : utf8SequenceLength (b :: rest) = some n) (hb : b.val ≠ 0) (tail : List Byte) :
    (b :: rest).filter (fun x => x.val ≠ 0)
        = (b :: rest).take n ++ ((b :: rest).drop n).filter (fun x => x.val ≠ 0)
      ∧ ∃ r', (b :: rest).take n ++ tail = b :: r'
        ∧ utf8SequenceLength (b :: r') = some n ∧ (b :: r').drop n = tail := by
  rw [utf8SequenceLength_cons] at h
  by_cases h1 : b.val ≤ 0x7F
  · rw [if_pos h1] at h
    injection h with h
    subst h
    refine ⟨by simp [List.filter_cons, hb], tail, rfl, ?_, rfl⟩
    rw [utf8SequenceLength_cons, if_pos h1]
  rw [if_neg h1] at h
  by_cases h2 : 0xC2 ≤ b.val ∧ b.val ≤ 0xDF
  · rw [if_pos h2] at h
    cases rest with
    | nil => exact absurd h (by simp)
    | cons c r =>
      by_cases hc : inByteRange c 0x80 0xBF = true
      · simp only [hc, if_true] at h
        injection h with h
        subst h
        have hc' := (inByteRange_iff c _ _).1 hc
        refine ⟨by simp [List.filter_cons, hb, show c.val ≠ 0 by omega], c :: tail, rfl, ?_, rfl⟩
        rw [utf8SequenceLength_cons, if_neg h1, if_pos h2]
        simp only [hc, if_true]
      · simp only [hc] at h
        exact absurd h (by simp)
  rw [if_neg h2] at h
  by_cases h3 : 0xE0 ≤ b.val ∧ b.val ≤ 0xEF
  · rw [if_pos h3] at h
    match rest, h with
    | [], h => exact absurd h (by simp)
    | [_], h => exact absurd h (by simp)
    | c :: d :: r, h =>
      by_cases hc : inByteRange c (if b.val = 0xE0 then 0xA0 else 0x80)
          (if b.val = 0xED then 0x9F else 0xBF) = true
      · by_cases hd : inByteRange d 0x80 0xBF = true
        · simp only [hc, hd, Bool.and_self, if_true] at h
          injection h with h
          subst h
          have hc' := (inByteRange_iff c _ _).1 hc
          have hd' := (inByteRange_iff d _ _).1 hd
          have hc0 : c.val ≠ 0 := by
            have := hc'.1
            split_ifs at this <;> omega
          refine ⟨by simp [List.filter_cons, hb, hc0, show d.val ≠ 0 by omega],
            c :: d :: tail, rfl, ?_, rfl⟩
          rw [utf8SequenceLength_cons, if_neg h1, if_neg h2, if_pos h3]
          simp only [hc, hd, Bool.and_self, if_true]
        · simp only [hc, hd] at h
          exact absurd h (by simp)
      · simp only [hc] at h
        exact absurd h (by simp)
  rw [if_neg h3] at h
  by_cases h4 : 0xF0 ≤ b.val ∧ b.val ≤ 0xF4
  · rw [if_pos h4] at h
    match rest, h with
    | [], h => exact absurd h (by simp)
    | [_], h => exact absurd h (by simp)
    | [_, _], h => exact absurd h (by simp)
    | c :: d :: e :: r, h =>
      by_cases hc : inByteRange c (if b.val = 0xF0 then 0x90 else 0x80)
          (if b.val = 0xF4 then 0x8F else 0xBF) = true
      · by_cases hd : inByteRange d 0x80 0xBF = true
        · by_cases he : inByteRange e 0x80 0xBF = true
          · simp only [hc, hd, he, Bool.and_self, if_true] at h
            injection h with h
            subst h
            have hc' := (inByteRange_iff c _ _).1 hc
            have hd' := (inByteRange_iff d _ _).1 hd
            have he' := (inByteRange_iff e _ _).1 he
            have hc0 : c.val ≠ 0 := by
              have := hc'.1
              split_ifs at this <;> omega
            refine ⟨by simp [List.filter_cons, hb, hc0, show d.val ≠ 0 by omega,
              show e.val ≠ 0 by omega], c :: d :: e :: tail, rfl, ?_, rfl⟩
            rw [utf8SequenceLength_cons, if_neg h1, if_neg h2, if_neg h3, if_pos h4]
            simp only [hc, hd, he, Bool.and_self, if_true]
          · simp only [hc, hd, he] at h
            exact absurd h (by simp)
        · simp only [hc, hd] at h
          exact absurd h (by simp)
      · simp only [hc] at h
        exact absurd h (by simp)
  · rw [if_neg h4] at h
    exact absurd h (by simp)

theorem wellFormedUtf8_filter_bounded (k : ℕ) (bs : List Byte) (hk : bs.length ≤ k)
    (h : wellFormedUtf8 bs = true) :
    wellFormedUtf8 (bs.filter (fun x => x.val ≠ 0)) = true := by
  induction k generalizing bs with
  | zero =>
    cases bs with
    | nil => rfl
    | cons b rest => simp at hk
  | succ k ih =>
    cases bs with
    | nil => rfl
    | cons b rest =>
      rw [wellFormedUtf8_cons] at h
      cases hs : utf8SequenceLength (b :: rest) with
      | none => rw [hs] at h; exact absurd h (by simp)
      | some n =>
        rw [hs] at h
        simp only at h
        obtain ⟨hn, -⟩ := utf8Decode_sequence b rest n hs
        have hshort : ((b :: rest).drop n).length ≤ k := by
          rw [List.length_drop]; simp only [List.length_cons] at hk ⊢; omega
        have ihd := ih _ hshort h
        by_cases hb : b.val = 0
        · have hn1 : n = 1 := by
            rw [utf8SequenceLength_cons, if_pos (by omega)] at hs
            injection hs with hs
            exact hs.symm
          subst hn1
          have : (b :: rest).filter (fun x => x.val ≠ 0) = rest.filter (fun x => x.val ≠ 0) := by
            simp [List.filter_cons, hb]
          rw [this]
          exact ihd
        · obtain ⟨hf, r', hr', hseq, hdrop⟩ := utf8Sequence_nonzero b rest n hs hb
            (((b :: rest).drop n).filter (fun x => x.val ≠ 0))
          rw [hf, hr', wellFormedUtf8_cons, hseq]
          simp only
          rw [hdrop]
          exact ihd

/-- Removing the zero bytes of well-formed UTF-8 leaves well-formed UTF-8. -/
theorem wellFormedUtf8_filter (bs : List Byte) (h : wellFormedUtf8 bs = true) :
    wellFormedUtf8 (bs.filter (fun x => x.val ≠ 0)) = true :=
  wellFormedUtf8_filter_bounded bs.length bs le_rfl h

theorem mem_dropWhile_of_not {α : Type} (p : α → Bool) (l : List α) (u : α) (hu : u ∈ l)
    (hp : p u = false) : u ∈ l.dropWhile p := by
  induction l with
  | nil => exact absurd hu (List.not_mem_nil _)
  | cons a r ih =>
    rw [List.dropWhile_cons]
    by_cases ha : p a = true
    · rw [if_pos ha]
      rcases List.mem_cons.1 hu with rfl | h
      · rw [hp] at ha; exact absurd ha (by simp)
      · exact ih h
    · rw [if_neg ha]
      exact hu

/-- Trimming keeps every character that is not white space. -/
theorem mem_jsTrim (s : JSString) (u : CodeUnit) (hu : u ∈ s) (hw : isWhiteSpace u = false) :
    u ∈ jsTrim s := by
  unfold jsTrim
  rw [List.mem_reverse]
  apply mem_dropWhile_of_not _ _ _ _ hw
  rw [List.mem_reverse]
  exact mem_dropWhile_of_not _ _ _ hu hw

theorem mem_removeNul (s : JSString) (u : CodeUnit) (hu : u ∈ s) (h0 : u.val ≠ 0) :
    u ∈ removeNul s := by
  unfold removeNul
  rw [List.mem_filter]
  exact ⟨hu, by simpa using h0⟩

theorem mem_stripBOM (cs : List ℕ) (c : ℕ) (hc : c ∈ cs) (h : c ≠ 0xFEFF) : c ∈ stripBOM cs := by
  cases cs with
  | nil => exact hc
  | cons a r =>
    rw [stripBOM]
    by_cases ha : a = 0xFEFF
    · rw [if_pos ha]
      rcases List.mem_cons.1 hc with e | h'
      · exact absurd (e.trans ha) h
      · exact h'
    · rw [if_neg ha]; exact hc

/-- A replacement character produced by the UTF-8 decoder is in the decoded string. -/
theorem replacement_mem_textDecode (bytes : List Byte)
    (h : 0xFFFD ∈ utf8DecodeFrom Utf8State.initial bytes) :
    (0xFFFD : CodeUnit) ∈ textDecode bytes := by
  unfold textDecode
  rw [List.mem_flatMap]
  exact ⟨0xFFFD, mem_stripBOM _ _ h (by norm_num), by decide⟩

/-- A replacement character in the decoded string stays in the cleaned text. -/
theorem replacement_mem_cleanedText (buffer : List Byte)
    (h : (0xFFFD : CodeUnit) ∈ textDecode buffer) : (0xFFFD : CodeUnit) ∈ cleanedText buffer := by
  unfold cleanedText
  exact mem_jsTrim _ _ (mem_removeNul _ _ h (by decide)) (by decide)

theorem fallbackQuestion_head (marketAddress : JSString) :
    ∃ rest, fallbackQuestion marketAddress = (77 : CodeUnit) :: rest := by
  unfold fallbackQuestion
  have : js "Market Question (" = (77 : CodeUnit) :: js "arket Question (" := by decide
  rw [this]
  exact ⟨_, rfl⟩

/-! ## Facts about the length of the encoding -/

theorem utf8EncodeScalar_length (c : ℕ) :
    1 ≤ (utf8EncodeScalar c).length ∧ (utf8EncodeScalar c).length ≤ 4
      ∧ (c < 0x10000 → (utf8EncodeScalar c).length ≤ 3)
      ∧ (c < 0x80 → (utf8EncodeScalar c).length = 1)
      ∧ (0x10000 ≤ c → (utf8EncodeScalar c).length = 4) := by
  unfold utf8EncodeScalar
  split_ifs with h1 h2 h3 <;> simp only [List.length_cons, List.length_nil] <;>
    refine ⟨by omega, by omega, fun _ => ?_, fun _ => ?_, fun _ => ?_⟩ <;>
    first | trivial | omega

theorem textEncode_cons_scalar (c : ℕ) (cs : List ℕ) :
    (List.flatMap (c :: cs) utf8EncodeScalar).length
      = (utf8EncodeScalar c).length + (List.flatMap cs utf8EncodeScalar).length := by
  rw [List.flatMap_cons, List.length_append]

/-- Every code unit gives at least one byte and at most three. -/
theorem textEncode_length_bounds (q : JSString) :
    q.length ≤ (textEncode q).length ∧ (textEncode q).length ≤ 3 * q.length := by
  unfold textEncode
  induction q using toScalars.induct with
  | case1 => simp [toScalars]
  | case2 u hu =>
    rw [toScalars_loneHigh_end hu, textEncode_cons_scalar]
    have := utf8EncodeScalar_length 0xFFFD
    simp only [List.flatMap_nil, List.length_nil, List.length_cons]
    omega
  | case3 u hu v rest hv ih =>
    rw [toScalars_pair rest hu hv, textEncode_cons_scalar]
    have := utf8EncodeScalar_length (0x10000 + (u.val - 0xD800) * 0x400 + (v.val - 0xDC00))
    simp only [List.length_cons]
    omega
  | case4 u hu v rest hv ih =>
    rw [toScalars_loneHigh rest hu (by simpa using hv), textEncode_cons_scalar]
    have := utf8EncodeScalar_length 0xFFFD
    simp only [List.length_cons] at ih ⊢
    omega
  | case5 u rest hu hl ih =>
    rw [toScalars_loneLow rest (by simpa using hu) hl, textEncode_cons_scalar]
    have := utf8EncodeScalar_length 0xFFFD
    simp only [List.length_cons]
    omega
  | case6 u rest hu hl ih =>
    rw [toScalars_bmp rest (by simpa using hu) (by simpa using hl), textEncode_cons_scalar]
    have := utf8EncodeScalar_length u.val
    have := u.isLt
    simp only [List.length_cons]
    omega

/-- An ASCII string has one byte for each character. -/
theorem textEncode_length_ascii (q : JSString) (h : ∀ u ∈ q, u.val < 128) :
    (textEncode q).length = q.length := by
  unfold textEncode
  induction q with
  | nil => simp [toScalars]
  | cons u rest ih =>
    have hu : u.val < 128 := h u (List.mem_cons_self _ _)
    have h1 : isHighSurrogate u = false := by
      simp only [isHighSurrogate, Bool.and_eq_false_iff, decide_eq_false_iff_not]; omega
    have h2 : isLowSurrogate u = false := by
      simp only [isLowSurrogate, Bool.and_eq_false_iff, decide_eq_false_iff_not]; omega
    rw [toScalars_bmp rest h1 h2, textEncode_cons_scalar,
      ih (fun w hw => h w (List.mem_cons_of_mem _ hw))]
    have := (utf8EncodeScalar_length u.val).2.2.2.1 hu
    simp only [List.length_cons]
    omega

/-- The buffer holds the whole encoding exactly when the encoding has at most 32 bytes. -/
theorem questionBuffer_whole_iff (question : JSString) :
    (∃ padding, questionBuffer question = some (textEncode question ++ padding))
      ↔ (textEncode question).length ≤ 32 := by
  constructor
  · rintro ⟨padding, h⟩
    by_contra hlt
    rw [questionBuffer_long (not_le.1 hlt)] at h
    have := congrArg List.length (Option.some.inj h)
    rw [List.length_take, List.length_append] at this
    omega
  · intro h
    exact ⟨_, questionBuffer_short h⟩

/-! ## Facts about the page handlers -/

theorem run_append (s : DisplayState) (xs ys : List UiEvent) :
    s.run (xs ++ ys) = (s.run xs).run ys := by
  simp [DisplayState.run, List.foldl_append]

/-- The steps of a refresh whose market read fails. -/
theorem refreshSteps_failed {marketAddress : JSString} {address : Option JSString}
    {publicClient : Option ChainReads} (onFailure : UiEvent)
    (h : getMarketDetails marketAddress publicClient = none) :
    refreshSteps marketAddress address publicClient onFailure = [onFailure] := by
  simp only [refreshSteps, h]

/-- The steps of a refresh whose market read succeeds. -/
theorem refreshSteps_ok {marketAddress : JSString} {address : Option JSString}
    {publicClient : Option ChainReads} (onFailure : UiEvent) {marketData : MarketData}
    (h : getMarketDetails marketAddress publicClient = some marketData) :
    refreshSteps marketAddress address publicClient onFailure
      = [.setMarket marketData,
          .setUserShares (getUserMarketShares address (some marketAddress) publicClient),
          .setAllowance (getUserAllowance address (some marketAddress) publicClient),
          .refetchBalance,
          .toastSuccess (js "Data refreshed successfully!")] := by
  simp only [refreshSteps, h]

/-- The trace of a trade whose receipt has been awaited. -/
theorem handleTrade_of_receipt (sepolia : ℕ) (parseFloat : JSString → JSNumber)
    (parseEther : JSString → Outcome ℤ) (env : TradeEnv) (type : TradeType)
    (h : UiEvent.receiptAwaited ∈ handleTrade sepolia parseFloat parseEther env type) :
    ∃ amount, handleTrade sepolia parseFloat parseEther env type
      = [.setTrading (some type) true, .writeContract type.functionName amount]
        ++ .receiptAwaited
          :: ([.toastSuccess (type.toUpperCase ++ js " trade successful! Refreshing data...")]
            ++ refreshSteps env.marketAddress env.address env.readsAfter
                (.toastSuccess (js "Trade completed! (Data refresh failed)"))
            ++ [.setTradeAmount [], .setTrading none false]) := by
  unfold handleTrade at h ⊢
  split_ifs at h ⊢ with h1 h2 h3
  · simp at h
  · simp at h
  · simp at h
  · cases hw : env.walletChainId with
    | failed message => rw [hw] at h; simp [tradeFailed] at h
    | ok walletChainId =>
      rw [hw] at h
      simp only at h ⊢
      split_ifs at h ⊢ with h4 h5
      · simp at h
      · simp at h
      · cases hp : parseEther env.tradeAmount with
        | failed message => rw [hp] at h; simp [tradeFailed] at h
        | ok amount =>
          rw [hp] at h
          simp only at h ⊢
          cases hwr : env.write with
          | failed message => rw [hwr] at h; simp [tradeFailed] at h
          | ok _ =>
            rw [hwr] at h
            simp only at h ⊢
            cases hr : env.receipt with
            | failed message => rw [hr] at h; simp [tradeFailed] at h
            | ok _ =>
              exact ⟨amount, by simp⟩

/-- What has held when a trade reaches the contract write. -/
theorem handleTrade_of_write (sepolia : ℕ) (parseFloat : JSString → JSNumber)
    (parseEther : JSString → Outcome ℤ) (env : TradeEnv) (type : TradeType)
    (functionName : JSString) (amount : ℤ)
    (h : UiEvent.writeContract functionName amount
      ∈ handleTrade sepolia parseFloat parseEther env type) :
    env.isConnected = true ∧ env.chainId = some sepolia
      ∧ env.walletChainId = .ok (some sepolia)
      ∧ env.tradeAmount ≠ []
      ∧ (parseFloat env.tradeAmount).le (.fin 0) = false
      ∧ (parseFloat (getUserAllowance env.address (some env.marketAddress)
          env.readsBefore)).lt (parseFloat env.tradeAmount) = false
      ∧ parseEther env.tradeAmount = .ok amount
      ∧ functionName = type.functionName := by
  unfold handleTrade at h
  split_ifs at h with h1 h2 h3
  · simp at h
  · simp at h
  · simp at h
  · cases hw : env.walletChainId with
    | failed message => rw [hw] at h; simp [tradeFailed] at h
    | ok walletChainId =>
      rw [hw] at h
      simp only at h
      split_ifs at h with h4 h5
      · simp at h
      · simp at h
      · cases hp : parseEther env.tradeAmount with
        | failed message => rw [hp] at h; simp [tradeFailed] at h
        | ok amount0 =>
          rw [hp] at h
          have hmem : UiEvent.writeContract functionName amount
              = UiEvent.writeContract type.functionName amount0 := by
            cases hwr : env.write with
            | failed message => rw [hwr] at h; simpa [tradeFailed] using h
            | ok _ =>
              rw [hwr] at h
              cases hr : env.receipt with
              | failed message => rw [hr] at h; simpa [tradeFailed] using h
              | ok _ =>
                rw [hr] at h
                cases hm : getMarketDetails env.marketAddress env.readsAfter with
                | none => simpa [refreshSteps, hm] using h
                | some marketData => simpa [refreshSteps, hm] using h
          injection hmem with hf ha
          simp only [Bool.not_eq_true, Bool.or_eq_true, List.isEmpty_iff, not_or,
            Bool.not_eq_true', Bool.not_eq_false] at h1 h2 h3 h4 h5
          refine ⟨by simpa using h1, by simpa using h2, ?_, ?_, ?_, ?_, ?_, hf⟩
          · rw [not_not.1 h4]
          · exact h3.1
          · simpa using h3.2
          · simpa using h5
          · rw [ha]

/-! ## Facts about parsing amounts -/

theorem ofRat_ne_nan (x : ℚ) : JSNumber.ofRat x ≠ .nan := by
  unfold JSNumber.ofRat
  split_ifs <;> simp

/-- A string that starts with a digit parses to a number. -/
theorem parseFloat_ne_nan_of_digit (d : CodeUnit) (rest : JSString) (hd : isDigit d = true) :
    parseFloat (d :: rest) ≠ .nan := by
  have hdig := hd
  simp only [isDigit, Bool.and_eq_true, decide_eq_true_eq] at hd
  have hws : isWhiteSpace d = false := by
    simp only [isWhiteSpace, Bool.or_eq_false_iff, Bool.and_eq_false_iff,
      decide_eq_false_iff_not]
    omega
  have h45 : d ≠ 45 := by
    intro h; rw [h] at hd; revert hd; decide
  have h43 : d ≠ 43 := by
    intro h; rw [h] at hd; revert hd; decide
  have h73 : d ≠ 73 := by
    intro h; rw [h] at hd; revert hd; decide
  have hinf : (js "Infinity").isPrefixOf (d :: rest) = false := by
    have : js "Infinity" = (73 : CodeUnit) :: js "nfinity" := by decide
    rw [this, List.isPrefixOf]
    simp [Ne.symm h73]
  unfold parseFloat strDecimalLiteral
  simp only [List.dropWhile_cons, hws, List.head?_cons, Option.some.injEq, h45, h43,
    or_self, if_false, hinf, List.takeWhile_cons, hdig, if_true, List.isEmpty_cons,
    Bool.false_and, Bool.false_eq_true]
  exact ofRat_ne_nan _

theorem isDigit_digitUnit (n : ℕ) : isDigit (digitUnit n) = true := by
  have h : (digitUnit n).val = 48 + n % 10 := by
    unfold digitUnit
    rw [val_ofNat_unit]
    omega
  simp only [isDigit, Bool.and_eq_true, decide_eq_true_eq, h]
  omega

theorem isDigit_of_mem_decimalDigitsAux (fuel n : ℕ) :
    ∀ u ∈ decimalDigitsAux fuel n, isDigit u = true := by
  induction fuel generalizing n with
  | zero => intro u hu; simp [decimalDigitsAux] at hu
  | succ fuel ih =>
    intro u hu
    rw [decimalDigitsAux] at hu
    split_ifs at hu
    · rw [List.mem_singleton] at hu
      rw [hu]; exact isDigit_digitUnit n
    · rcases List.mem_append.1 hu with hu | hu
      · exact ih _ u hu
      · rw [List.mem_singleton] at hu
        rw [hu]; exact isDigit_digitUnit n

/-- The text made by `formatUnits` starts with a digit. -/
theorem formatUnits_head (value decimals : ℕ) :
    ∃ d rest, formatUnits value decimals = d :: rest ∧ isDigit d = true := by
  have hall : ∀ u ∈ List.replicate (decimals - (decimalDigits value).length) (digitUnit 0)
      ++ decimalDigits value, isDigit u = true := by
    intro u hu
    rcases List.mem_append.1 hu with hu | hu
    · rw [(List.mem_replicate.1 hu).2]; exact isDigit_digitUnit 0
    · exact isDigit_of_mem_decimalDigitsAux _ _ u hu
  unfold formatUnits
  simp only
  generalize List.replicate (decimals - (decimalDigits value).length) (digitUnit 0)
      ++ decimalDigits value = display at hall
  cases hi : List.take (display.length - decimals) display with
  | nil =>
    simp only [List.isEmpty_nil, if_true]
    exact ⟨48, _, rfl, by decide⟩
  | cons d rest =>
    simp only [List.isEmpty_cons, Bool.false_eq_true, if_false, List.cons_append]
    exact ⟨d, _, rfl, hall d (List.mem_of_mem_take (hi ▸ List.mem_cons_self d rest))⟩

/-- The allowance text returned by `getUserAllowance` always parses to a number. -/
theorem parseFloat_getUserAllowance (userAddress spenderAddress : Option JSString)
    (publicClient : Option ChainReads) :
    parseFloat (getUserAllowance userAddress spenderAddress publicClient) ≠ .nan := by
  have h0 : parseFloat (js "0") ≠ .nan := parseFloat_ne_nan_of_digit 48 [] (by decide)
  have hf : ∀ n, parseFloat (formatEther n) ≠ .nan := by
    intro n
    obtain ⟨d, rest, he, hd⟩ := formatUnits_head n 18
    unfold formatEther
    rw [he]
    exact parseFloat_ne_nan_of_digit d rest hd
  unfold getUserAllowance
  split_ifs
  · exact h0
  · cases publicClient with
    | none => exact h0
    | some client =>
      cases hc : client.allowance with
      | none => simp only [hc]; exact h0
      | some allowance => simp only [hc]; exact hf allowance

theorem le_zero_false_of_ne_nan {x : JSNumber} (hx : x ≠ .nan)
    (h : x.le (.fin 0) = false) : (JSNumber.fin 0).lt x = true := by
  cases x with
  | nan => exact absurd rfl hx
  | posInf => rfl
  | negInf => simp [JSNumber.le] at h
  | fin q =>
    simp only [JSNumber.le, decide_eq_false_iff_not, not_le] at h
    simpa [JSNumber.lt] using h

theorem lt_false_of_ne_nan {x y : JSNumber} (hx : x ≠ .nan) (hy : y ≠ .nan)
    (h : x.lt y = false) : y.le x = true := by
  cases x <;> cases y <;> first
    | exact absurd rfl hx
    | exact absurd rfl hy
    | rfl
    | (simp [JSNumber.lt] at h; done)
    | (simp only [JSNumber.lt, decide_eq_false_iff_not, not_lt] at h
       simpa [JSNumber.le] using h)

/-! ## Facts about the trade handler -/

theorem JSNumber.lt_nan (x : JSNumber) : x.lt .nan = false := by
  cases x <;> rfl

theorem parseFloat_natCast {text : JSString} {n : ℕ}
    (h : strDecimalLiteral text = some (.decimal false n 0)) (hn : (n : ℤ) < 2 ^ 53) :
    parseFloat text = .fin n := by
  unfold parseFloat
  rw [h]
  simp only [zpow_zero, mul_one, Bool.false_eq_true, if_false]
  have := JSNumber.isDouble_intCast (n : ℤ) (by rw [abs_of_nonneg (by positivity)]; exact hn)
  simpa using this

/-- A trade that passes every guard reaches the contract write; what follows is decided by
the write, the receipt and the data refresh. -/
theorem handleTrade_write (sepolia : ℕ) (parseFloat : JSString → JSNumber)
    (parseEther : JSString → Outcome ℤ) (env : TradeEnv) (type : TradeType) (amount : ℤ)
    (h1 : env.isConnected = true) (h2 : env.chainId = some sepolia)
    (h3 : env.tradeAmount ≠ []) (h4 : (parseFloat env.tradeAmount).le (.fin 0) = false)
    (h5 : env.walletChainId = .ok (some sepolia))
    (h6 : (parseFloat (getUserAllowance env.address (some env.marketAddress)
      env.readsBefore)).lt (parseFloat env.tradeAmount) = false)
    (h7 : parseEther env.tradeAmount = .ok amount) :
    ∃ rest, handleTrade sepolia parseFloat parseEther env type
      = .setTrading (some type) true :: .writeContract type.functionName amount :: rest := by
  unfold handleTrade
  have h3' : env.tradeAmount.isEmpty = false := by
    cases hq : env.tradeAmount with
    | nil => exact absurd hq h3
    | cons _ _ => rfl
  simp only [h1, h2, h3', h4, h5, h6, h7, Bool.not_true, Bool.false_eq_true, if_false,
    ne_eq, not_true_eq_false, Bool.or_self, List.cons_append, List.nil_append,
    List.singleton_append]
  exact ⟨_, rfl⟩

/-- The whole trace of a trade that passes every guard and whose write and receipt
succeed. -/
theorem handleTrade_success (sepolia : ℕ) (parseFloat : JSString → JSNumber)
    (parseEther : JSString → Outcome ℤ) (env : TradeEnv) (type : TradeType) (amount : ℤ)
    (h1 : env.isConnected = true) (h2 : env.chainId = some sepolia)
    (h3 : env.tradeAmount ≠ []) (h4 : (parseFloat env.tradeAmount).le (.fin 0) = false)
    (h5 : env.walletChainId = .ok (some sepolia))
    (h6 : (parseFloat (getUserAllowance env.address (some env.marketAddress)
      env.readsBefore)).lt (parseFloat env.tradeAmount) = false)
    (h7 : parseEther env.tradeAmount = .ok amount)
    (h8 : env.write = .ok ()) (h9 : env.receipt = .ok ()) :
    handleTrade sepolia parseFloat parseEther env type
      = [.setTrading (some type) true, .writeContract type.functionName amount]
        ++ .receiptAwaited
          :: ([.toastSuccess (type.toUpperCase ++ js " trade successful! Refreshing data...")]
            ++ refreshSteps env.marketAddress env.address env.readsAfter
                (.toastSuccess (js "Trade completed! (Data refresh failed)"))
            ++ [.setTradeAmount [], .setTrading none false]) := by
  unfold handleTrade
  have h3' : env.tradeAmount.isEmpty = false := by
    cases hq : env.tradeAmount with
    | nil => exact absurd hq h3
    | cons _ _ => rfl
  simp only [h1, h2, h3', h4, h5, h6, h7, h8, h9, Bool.not_true, Bool.false_eq_true, if_false,
    ne_eq, not_true_eq_false, Bool.or_self, List.cons_append, List.nil_append,
    List.singleton_append, List.append_assoc]

theorem receiptAwaited_not_mem_refreshSteps (marketAddress : JSString)
    (address : Option JSString) (publicClient : Option ChainReads) (message : JSString) :
    UiEvent.receiptAwaited
      ∉ refreshSteps marketAddress address publicClient (.toastSuccess message) := by
  unfold refreshSteps
  split <;> simp

theorem toastError_not_mem_refreshSteps (marketAddress : JSString)
    (address : Option JSString) (publicClient : Option ChainReads) (message error : JSString) :
    UiEvent.toastError error
      ∉ refreshSteps marketAddress address publicClient (.toastSuccess message) := by
  unfold refreshSteps
  split <;> simp

set_option maxRecDepth 100000 in
theorem sampleTrade_guards (readsAfter : Option ChainReads) :
    (parseFloat (sampleTrade (js "1") readsAfter).tradeAmount).le (.fin 0) = false
      ∧ (parseFloat (getUserAllowance (sampleTrade (js "1") readsAfter).address
          (some (sampleTrade (js "1") readsAfter).marketAddress)
          (sampleTrade (js "1") readsAfter).readsBefore)).lt
            (parseFloat (sampleTrade (js "1") readsAfter).tradeAmount) = false
      ∧ parseEtherOutcome (sampleTrade (js "1") readsAfter).tradeAmount
          = .ok 1000000000000000000 := by
  have h1 : parseFloat (js "1") = .fin (1 : ℕ) :=
    parseFloat_natCast (by decide) (by norm_num)
  have h5 : parseFloat (js "5") = .fin (5 : ℕ) :=
    parseFloat_natCast (by decide) (by norm_num)
  have ha : getUserAllowance (sampleTrade (js "1") readsAfter).address
      (some (sampleTrade (js "1") readsAfter).marketAddress)
      (sampleTrade (js "1") readsAfter).readsBefore = js "5" := by
    show getUserAllowance (some (js "0xf39Fd6e51aad88F6F4ce6aB8827279cffFb92266"))
      (some (js "0x5FbDB2315678afecb367f032d93F642f64180aa3")) (some sampleReads) = js "5"
    decide
  have he : parseEtherOutcome (js "1") = .ok 1000000000000000000 := by decide
  refine ⟨?_, ?_, he⟩
  · show (parseFloat (js "1")).le (.fin 0) = false
    rw [h1]; simp [JSNumber.le]
  · rw [ha]
    show (parseFloat (js "5")).lt (parseFloat (js "1")) = false
    rw [h1, h5]; simp [JSNumber.lt]

set_option maxRecDepth 100000 in
/-- The amount text 5.000000000000000001 parses to the Number 5. -/
theorem parseFloat_five_and_one_wei : parseFloat (js "5.000000000000000001") = .fin 5 := by
  have hl : strDecimalLiteral (js "5.000000000000000001")
      = some (.decimal false 5000000000000000001 (-18)) := by decide
  unfold parseFloat
  rw [hl]
  simp only [Bool.false_eq_true, if_false]
  exact JSNumber.ofRat_eval 2 5629499534213120 (by norm_num [abs_of_pos])
    (by norm_num [abs_of_pos]) (by norm_num) (by norm_num [JSNumber.roundHalfEven])
    (by norm_num) (by norm_num [abs_of_pos])

/-! ## Facts about the displayed state -/

theorem run_nil (s : DisplayState) : s.run [] = s := rfl

theorem run_cons (s : DisplayState) (e : UiEvent) (es : List UiEvent) :
    s.run (e :: es) = (s.step e).run es := rfl

/-- A refresh whose market read fails leaves the displayed state as it was, whichever
notification it shows. -/
theorem run_refreshSteps_failed (s : DisplayState) {marketAddress : JSString}
    {address : Option JSString} {publicClient : Option ChainReads} (message : JSString)
    (isError : Bool) (h : getMarketDetails marketAddress publicClient = none) :
    s.run (refreshSteps marketAddress address publicClient
      (if isError then .toastError message else .toastSuccess message)) = s := by
  rw [refreshSteps_failed _ h]
  cases isError <;> rfl

/-- Steps of `handleTrade` other than those of the data refresh do not change the displayed
state. -/
theorem run_handleTrade (s : DisplayState) (sepolia : ℕ) (parseFloat : JSString → JSNumber)
    (parseEther : JSString → Outcome ℤ) (env : TradeEnv) (type : TradeType) :
    s.run (handleTrade sepolia parseFloat parseEther env type) = s
      ∨ s.run (handleTrade sepolia parseFloat parseEther env type)
        = s.run (refreshSteps env.marketAddress env.address env.readsAfter
            (.toastSuccess (js "Trade completed! (Data refresh failed)"))) := by
  unfold handleTrade
  split_ifs with h1 h2 h3
  · exact Or.inl rfl
  · exact Or.inl rfl
  · exact Or.inl rfl
  · cases env.walletChainId with
    | failed message => exact Or.inl rfl
    | ok walletChainId =>
      simp only
      split_ifs with h4 h5
      · exact Or.inl rfl
      · exact Or.inl rfl
      · cases parseEther env.tradeAmount with
        | failed message => exact Or.inl rfl
        | ok amount =>
          cases env.write with
          | failed message => exact Or.inl rfl
          | ok _ =>
            cases env.receipt with
            | failed message => exact Or.inl rfl
            | ok _ =>
              right
              simp only [List.cons_append, List.nil_append, List.append_assoc, run_cons,
                run_append]
              rfl

/-! ## Facts about the length of the decoded text -/

theorem length_utf16Encode (c : ℕ) :
    (utf16Encode c).length ≤ 2 ∧ (c < 0x10000 → (utf16Encode c).length = 1) := by
  unfold utf16Encode
  split_ifs with h
  · exact ⟨by simp, fun _ => rfl⟩
  · exact ⟨by simp, fun h' => absurd h' h⟩

theorem length_flatMap_cons_utf16 (c : ℕ) (cs : List ℕ) :
    (List.flatMap (c :: cs) utf16Encode).length
      = (utf16Encode c).length + (List.flatMap cs utf16Encode).length := by
  rw [List.flatMap_cons, List.length_append]

theorem length_flatMap_append_utf16 (xs ys : List ℕ) :
    (List.flatMap (xs ++ ys) utf16Encode).length
      = (List.flatMap xs utf16Encode).length + (List.flatMap ys utf16Encode).length := by
  rw [List.flatMap_append, List.length_append]

/-- The decoder outside a sequence, on one byte: the next state is reachable, and the code
unit it emits, if any, is paid for by that byte. -/
theorem utf8Start_reachable (b : ℕ) (hb : b < 256) :
    (utf8Start b).2.Reachable
      ∧ ((utf8Start b).1.toList.flatMap utf16Encode).length + (utf8Start b).2.consumed ≤ 1 := by
  have hl := (length_utf16Encode 0xFFFD).2 (by norm_num)
  have hlb : b ≤ 0x7F → (utf16Encode b).length = 1 :=
    fun h => (length_utf16Encode b).2 (by omega)
  unfold utf8Start Utf8State.Reachable Utf8State.consumed
  by_cases h1 : b ≤ 0x7F
  · rw [if_pos h1]
    simp [Utf8State.initial, Option.toList, hlb h1]
  rw [if_neg h1]
  by_cases h2 : 0xC2 ≤ b ∧ b ≤ 0xDF
  · rw [if_pos h2]
    refine ⟨Or.inr (Or.inl ⟨rfl, rfl, ?_⟩), by simp [Option.toList, Utf8State.initial]⟩
    show b % 32 < 32
    omega
  rw [if_neg h2]
  by_cases h3 : 0xE0 ≤ b ∧ b ≤ 0xEF
  · rw [if_pos h3]
    refine ⟨Or.inr (Or.inr (Or.inl ⟨rfl, rfl, ?_⟩)), by simp [Option.toList]⟩
    show b % 16 < 16
    omega
  rw [if_neg h3]
  by_cases h4 : 0xF0 ≤ b ∧ b ≤ 0xF4
  · rw [if_pos h4]
    refine ⟨Or.inr (Or.inr (Or.inr (Or.inr ⟨rfl, ?_⟩))), by simp [Option.toList]⟩
    show 0 < 3
    norm_num
  rw [if_neg h4]
  simp [Utf8State.initial, Option.toList, hl]

/-- The UTF-16 length of the decoded code points is at most the number of bytes read, counting
the bytes of a sequence already under way. -/
theorem length_decode_le (bs : List Byte) : ∀ st : Utf8State, st.Reachable →
    ((utf8DecodeFrom st bs).flatMap utf16Encode).length ≤ bs.length + st.consumed := by
  induction bs with
  | nil =>
    intro st _
    unfold utf8DecodeFrom Utf8State.consumed
    by_cases h : st.bytesNeeded = 0
    · simp [h]
    · have hl := (length_utf16Encode 0xFFFD).2 (by norm_num)
      simp only [ne_eq, h, not_false_eq_true, if_true, if_false, length_flatMap_cons_utf16, hl,
        List.flatMap_nil, List.length_nil]
      omega
  | cons b rest ih =>
    intro st hinv
    obtain ⟨hr, hc⟩ := utf8Start_reachable b.val b.isLt
    have hstart := ih _ hr
    have hb := b.isLt
    rw [utf8DecodeFrom_cons]
    unfold Utf8State.Reachable at hinv
    by_cases h0 : st.bytesNeeded = 0
    · rw [if_pos h0, length_flatMap_append_utf16]
      simp only [Utf8State.consumed, h0, if_true, List.length_cons]
      omega
    rw [if_neg h0]
    by_cases hbad : b.val < st.lower ∨ st.upper < b.val
    · rw [if_pos hbad]
      have hl := (length_utf16Encode 0xFFFD).2 (by norm_num)
      rw [length_flatMap_cons_utf16, length_flatMap_append_utf16, hl]
      simp only [Utf8State.consumed, h0, if_false, List.length_cons]
      omega
    rw [if_neg hbad]
    by_cases hcont : st.bytesSeen + 1 ≠ st.bytesNeeded
    · rw [if_pos hcont]
      have := ih { codePoint := st.codePoint * 64 + b.val % 64, bytesSeen := st.bytesSeen + 1,
                   bytesNeeded := st.bytesNeeded, lower := 0x80, upper := 0xBF } (by
        unfold Utf8State.Reachable
        simp only
        omega)
      simp only [Utf8State.consumed, h0, if_false, List.length_cons] at this ⊢
      omega
    · rw [if_neg hcont]
      have hi := ih Utf8State.initial (Or.inl rfl)
      have hci : Utf8State.initial.consumed = 0 := rfl
      rw [hci] at hi
      have hl := length_utf16Encode (st.codePoint * 64 + b.val % 64)
      rw [length_flatMap_cons_utf16]
      simp only [Utf8State.consumed, h0, if_false, List.length_cons]
      by_cases h3 : st.bytesNeeded = 3
      · have := hl.1
        omega
      · have := hl.2 (by omega)
        omega

/-- The decoded string has at most one code unit for each byte. -/
theorem length_textDecode_le (bytes : List Byte) : (textDecode bytes).length ≤ bytes.length := by
  have h := length_decode_le bytes Utf8State.initial (Or.inl rfl)
  have hci : Utf8State.initial.consumed = 0 := rfl
  rw [hci] at h
  unfold textDecode
  cases hd : utf8DecodeFrom Utf8State.initial bytes with
  | nil => simp [stripBOM, hd]
  | cons c cs =>
    rw [hd, length_flatMap_cons_utf16] at h
    by_cases hc : c = 0xFEFF
    · have : stripBOM (c :: cs) = cs := by simp [stripBOM, hc]
      rw [this]; omega
    · have : stripBOM (c :: cs) = c :: cs := by simp [stripBOM, hc]
      rw [this, length_flatMap_cons_utf16]; omega

theorem length_jsTrim_le (s : JSString) : (jsTrim s).length ≤ s.length := by
  unfold jsTrim
  rw [List.length_reverse]
  calc ((s.dropWhile isWhiteSpace).reverse.dropWhile isWhiteSpace).length
      ≤ (s.dropWhile isWhiteSpace).reverse.length := (List.dropWhile_sublist _).length_le
    _ = (s.dropWhile isWhiteSpace).length := List.length_reverse _
    _ ≤ s.length := (List.dropWhile_sublist _).length_le

theorem length_removeNul_le (s : JSString) : (removeNul s).length ≤ s.length := by
  unfold removeNul
  exact List.length_filter_le _ _

theorem length_stripLeadingZeros_le (buffer : List Byte) (hne : buffer ≠ []) :
    (stripLeadingZeros buffer).length ≤ buffer.length := by
  unfold stripLeadingZeros
  split_ifs
  · cases buffer with
    | nil => exact absurd rfl hne
    | cons b r => simp
  · exact (List.dropWhile_sublist _).length_le

/-! ## Facts about truncated encodings -/

/-- A proper, non-empty part of the encoding of one scalar value decodes to text that
contains the replacement character. -/
theorem replacement_of_partial (c : ℕ) (hc : IsScalar c) (k : ℕ) (hk0 : 0 < k)
    (hk : k < (utf8EncodeScalar c).length) :
    0xFFFD ∈ utf8DecodeFrom Utf8State.initial ((utf8EncodeScalar c).take k) := by
  have hc1 := hc.1
  unfold utf8EncodeScalar at hk ⊢
  split_ifs at hk ⊢ with h1 h2 h3
  · simp only [List.length_cons, List.length_nil] at hk
    omega
  · simp only [List.length_cons, List.length_nil] at hk
    have hk1 : k = 1 := by omega
    subst hk1
    apply replacement_of_no_sequence
    rw [utf8SequenceLength_cons, val_ofNat_byte]
    rw [if_neg (by omega), if_pos (by omega)]
    rfl
  · simp only [List.length_cons, List.length_nil] at hk
    have hlead : ¬ ((0xE0 + c / 4096) % 256 ≤ 0x7F) := by omega
    have hlead2 : ¬ (0xC2 ≤ (0xE0 + c / 4096) % 256 ∧ (0xE0 + c / 4096) % 256 ≤ 0xDF) := by omega
    have hlead3 : 0xE0 ≤ (0xE0 + c / 4096) % 256 ∧ (0xE0 + c / 4096) % 256 ≤ 0xEF := by omega
    have hk12 : k = 1 ∨ k = 2 := by omega
    rcases hk12 with rfl | rfl
    · apply replacement_of_no_sequence
      rw [utf8SequenceLength_cons, val_ofNat_byte, if_neg hlead, if_neg hlead2, if_pos hlead3]
      rfl
    · apply replacement_of_no_sequence
      rw [utf8SequenceLength_cons, val_ofNat_byte, if_neg hlead, if_neg hlead2, if_pos hlead3]
      rfl
  · simp only [List.length_cons, List.length_nil] at hk
    have hlead : ¬ ((0xF0 + c / 262144) % 256 ≤ 0x7F) := by omega
    have hlead2 : ¬ (0xC2 ≤ (0xF0 + c / 262144) % 256 ∧ (0xF0 + c / 262144) % 256 ≤ 0xDF) := by
      omega
    have hlead3 : ¬ (0xE0 ≤ (0xF0 + c / 262144) % 256 ∧ (0xF0 + c / 262144) % 256 ≤ 0xEF) := by
      omega
    have hlead4 : 0xF0 ≤ (0xF0 + c / 262144) % 256 ∧ (0xF0 + c / 262144) % 256 ≤ 0xF4 := by
      omega
    have hk123 : k = 1 ∨ k = 2 ∨ k = 3 := by omega
    rcases hk123 with rfl | rfl | rfl
    all_goals
      apply replacement_of_no_sequence
      rw [utf8SequenceLength_cons, val_ofNat_byte, if_neg hlead, if_neg hlead2, if_neg hlead3,
        if_pos hlead4]
      rfl

/-- When the 32nd byte of the encoding falls inside the encoding of a scalar value, the first
32 bytes decode to text that contains the replacement character. -/
theorem replacement_of_split (question : JSString) (before after : List ℕ) (c : ℕ)
    (hsplit : toScalars question = before ++ c :: after)
    (hlo : (before.flatMap utf8EncodeScalar).length < 32)
    (hhi : 32 < (before.flatMap utf8EncodeScalar).length + (utf8EncodeScalar c).length) :
    32 < (textEncode question).length
      ∧ 0xFFFD ∈ utf8DecodeFrom Utf8State.initial ((textEncode question).take 32) := by
  have hsc := isScalar_of_mem_toScalars question
  rw [hsplit] at hsc
  have henc : textEncode question
      = before.flatMap utf8EncodeScalar ++ (utf8EncodeScalar c ++ after.flatMap utf8EncodeScalar) := by
    unfold textEncode
    rw [hsplit, List.flatMap_append, List.flatMap_cons]
  constructor
  · rw [henc, List.length_append, List.length_append]
    omega
  · have htake : (textEncode question).take 32
        = before.flatMap utf8EncodeScalar
          ++ (utf8EncodeScalar c).take (32 - (before.flatMap utf8EncodeScalar).length) := by
      rw [henc, List.take_append_eq_append_take, List.take_of_length_le (by omega),
        List.take_append_eq_append_take]
      have : 32 - (before.flatMap utf8EncodeScalar).length - (utf8EncodeScalar c).length = 0 := by
        omega
      rw [this, List.take_zero, List.append_nil]
    rw [htake, utf8Decode_encode (fun d hd => hsc d (List.mem_append_left _ hd))]
    apply List.mem_append_right
    exact replacement_of_partial c (hsc c (List.mem_append_right _ (List.mem_cons_self _ _))) _
      (by omega) (by omega)

/-- A buffer whose decoding produces a replacement character decodes to the fallback
label. -/
theorem decodeQuestion_of_replacement (buffer : List Byte) (marketAddress : JSString)
    (hne : buffer ≠ []) (h : 0xFFFD ∈ utf8DecodeFrom Utf8State.initial buffer) :
    decodeQuestion (toHex buffer) marketAddress
      = js "Market Question (" ++ marketAddress.take 8 ++ js "...)" := by
  have hc : (cleanedText buffer).contains (0xFFFD : CodeUnit) = true := by
    rw [List.contains_iff_exists_mem_beq]
    exact ⟨_, replacement_mem_cleanedText buffer (replacement_mem_textDecode _ h), by simp⟩
  rw [decodeQuestion_toHex buffer marketAddress hne, hc]
  simp
  rfl

/-! ## Facts about the computed share quantity -/

/-- The quote is `toFixed(6)` of the computed share quantity. -/
theorem calculateTradeAmount_tradeShares (numberToString : ℚ → JSString) {pool trade : ℚ}
    (hp : 0 < pool) (ht : 0 < trade) (isYes : Bool) :
    calculateTradeAmount numberToString (some (fin pool)) (some (fin trade)) isYes
      = toFixed numberToString (tradeShares (fin pool) (fin trade) isYes) 6 :=
  calculateTradeAmount_pos numberToString hp ht isYes

/-- The exact share quantity in closed form. -/
theorem sharesFormula_eq {pool trade : ℚ} (hp : 0 < pool) (ht : 0 < trade) :
    pool ^ 2 / (pool + trade) < pool
      ∧ sharesFormula pool trade = pool * trade / (pool + trade)
      ∧ sharesFormula pool trade = pool - pool ^ 2 / (pool + trade) := by
  have hs : 0 < pool + trade := by linarith
  have hlt : pool ^ 2 / (pool + trade) < pool := by
    rw [div_lt_iff₀ hs]
    nlinarith
  have habs : sharesFormula pool trade = pool - pool ^ 2 / (pool + trade) := by
    unfold sharesFormula
    rw [abs_sub_comm, abs_of_pos (by linarith)]
  refine ⟨hlt, ?_, habs⟩
  rw [habs]
  field_simp
  ring

theorem eta_eq : (2 : ℚ) ^ (-1075 : ℤ) = 1 / 2 ^ 1075 := by
  rw [zpow_neg, one_div]
  norm_cast

theorem normal_eq : (2 : ℚ) ^ (-1022 : ℤ) = 1 / 2 ^ 1022 := by
  rw [zpow_neg, one_div]
  norm_cast

/-- The quotient of two approximations: relative errors of at most `2^-53` in the numerator
and in the denominator move the quotient by at most `3 * 2^-53` times the bound `p`. -/
theorem quotient_near {p s a b : ℚ} (hp : 0 < p) (hps : p ≤ s)
    (ha : |a - p * p| ≤ p * p / 2 ^ 53) (hb : |b - s| ≤ s / 2 ^ 53) :
    0 < b ∧ 0 ≤ a ∧ |a / b - p * p / s| ≤ 3 * p / 2 ^ 53 := by
  have hs : 0 < s := lt_of_lt_of_le hp hps
  have hb1 := abs_le.1 hb
  have ha1 := abs_le.1 ha
  have hu : (0 : ℚ) < 1 / 2 ^ 53 := by positivity
  have hbl : s * (1 - 1 / 2 ^ 53) ≤ b := by linarith
  have hbpos : 0 < b := lt_of_lt_of_le (mul_pos hs (by norm_num)) hbl
  have hpp : 0 < p * p := mul_pos hp hp
  have ha0 : 0 ≤ a := by
    have : 0 ≤ p * p * (1 - 1 / 2 ^ 53) := mul_nonneg hpp.le (by norm_num)
    linarith
  refine ⟨hbpos, ha0, ?_⟩
  have e : a / b - p * p / s = ((a - p * p) * s - p * p * (b - s)) / (b * s) := by
    field_simp
    ring
  have hnum : |(a - p * p) * s - p * p * (b - s)| ≤ 2 * (p * p * s) / 2 ^ 53 := by
    calc |(a - p * p) * s - p * p * (b - s)|
        ≤ |(a - p * p) * s| + |p * p * (b - s)| := abs_sub _ _
      _ = |a - p * p| * s + p * p * |b - s| := by
          rw [abs_mul, abs_mul, abs_of_pos hs, abs_of_pos hpp]
      _ ≤ p * p / 2 ^ 53 * s + p * p * (s / 2 ^ 53) := by
          have h1 := mul_le_mul_of_nonneg_right ha hs.le
          have h2 := mul_le_mul_of_nonneg_left hb hpp.le
          linarith
      _ = 2 * (p * p * s) / 2 ^ 53 := by ring
  rw [e, abs_div, abs_of_pos (mul_pos hbpos hs), div_le_iff₀ (mul_pos hbpos hs)]
  have hbp : p * (1 - 1 / 2 ^ 53) ≤ b := by
    have : p * (1 - 1 / 2 ^ 53) ≤ s * (1 - 1 / 2 ^ 53) :=
      mul_le_mul_of_nonneg_right hps (by norm_num)
    linarith
  have key : 2 * (p * p * s) / 2 ^ 53 ≤ 3 * p / 2 ^ 53 * (b * s) := by
    have h3 : 2 * p ≤ 3 * b := by nlinarith
    have : 2 * (p * p * s) ≤ 3 * p * (b * s) := by
      have hps' : 0 ≤ p * s := (mul_pos hp hs).le
      nlinarith [mul_le_mul_of_nonneg_left h3 hps']
    calc 2 * (p * p * s) / 2 ^ 53 ≤ 3 * p * (b * s) / 2 ^ 53 :=
          div_le_div_of_nonneg_right this (by positivity)
      _ = 3 * p / 2 ^ 53 * (b * s) := by ring
  exact le_trans hnum key

/-- The computed share quantity is finite, non-negative and within `2^-50 * pool` of the exact
quantity, for binary64 operands in the range from `2^-500` to `2^500`. -/
theorem tradeShares_near {pool trade : ℚ} (isYes : Bool) (hp : IsDouble pool)
    (ht : IsDouble trade) (hpl : 1 / 2 ^ 500 ≤ pool) (hpu : pool ≤ 2 ^ 500)
    (ht0 : 0 < trade) (htu : trade ≤ 2 ^ 500) :
    ∃ s, tradeShares (fin pool) (fin trade) isYes = fin s ∧ 0 ≤ s
      ∧ |s - pool * trade / (pool + trade)| ≤ pool / 2 ^ 50 := by
  have hp0 : 0 < pool := lt_of_lt_of_le (by positivity) hpl
  have hs0 : 0 < pool + trade := by linarith
  have hpp0 : 0 < pool * pool := mul_pos hp0 hp0
  have hppl : (1 : ℚ) / 2 ^ 1000 ≤ pool * pool := by
    have := mul_le_mul hpl hpl (by positivity) hp0.le
    calc (1 : ℚ) / 2 ^ 1000 = 1 / 2 ^ 500 * (1 / 2 ^ 500) := by norm_num
      _ ≤ pool * pool := this
  have hppu : pool * pool ≤ 2 ^ 1000 := by
    have := mul_le_mul hpu hpu hp0.le (by positivity)
    calc pool * pool ≤ 2 ^ 500 * 2 ^ 500 := this
      _ = 2 ^ 1000 := by norm_num
  -- the product
  have ha : |roundQ (pool * pool) - pool * pool| ≤ pool * pool / 2 ^ 53 := by
    have := abs_roundQ_sub_le_rel (x := pool * pool) (by
      rw [normal_eq, abs_of_pos hpp0]
      exact le_trans (by norm_num) hppl)
    rwa [abs_of_pos hpp0] at this
  -- the sum
  have hb : |roundQ (pool + trade) - (pool + trade)| ≤ (pool + trade) / 2 ^ 53 := by
    have := abs_roundQ_add_sub_le hp ht
    rwa [abs_of_pos hs0] at this
  obtain ⟨hbpos, ha0, hq⟩ := quotient_near hp0 (by linarith : pool ≤ pool + trade) ha hb
  set a := roundQ (pool * pool) with hadef
  set b := roundQ (pool + trade) with hbdef
  have hx := sharesFormula_eq hp0 ht0
  have hx0 : 0 ≤ pool * pool / (pool + trade) := (div_pos hpp0 hs0).le
  have hxp : pool * pool / (pool + trade) < pool := by
    have := hx.1
    rwa [pow_two] at this
  have hq1 := abs_le.1 hq
  have hqpos : 0 ≤ a / b := div_nonneg ha0 hbpos.le
  have hqle : a / b ≤ 2 * pool := by
    have : 3 * pool / 2 ^ 53 ≤ pool := by
      rw [div_le_iff₀ (by positivity)]
      nlinarith
    linarith
  have heta : (1 : ℚ) / 2 ^ 1075 ≤ pool / 2 ^ 53 := by
    have : (1 : ℚ) / 2 ^ 1075 ≤ 1 / 2 ^ 500 / 2 ^ 53 := by norm_num
    exact le_trans this (div_le_div_of_nonneg_right hpl (by positivity))
  -- the quotient
  have hc : |roundQ (a / b) - a / b| ≤ 2 * pool / 2 ^ 53 + 1 / 2 ^ 1075 := by
    have := abs_roundQ_sub_le_mixed (a / b)
    rw [eta_eq, abs_of_nonneg hqpos] at this
    have h2 : a / b / 2 ^ 53 ≤ 2 * pool / 2 ^ 53 :=
      div_le_div_of_nonneg_right hqle (by positivity)
    linarith
  set c := roundQ (a / b) with hcdef
  have hc1 := abs_le.1 hc
  have hcx : |c - pool * pool / (pool + trade)| ≤ 5 * pool / 2 ^ 53 + 1 / 2 ^ 1075 := by
    rw [abs_le]
    constructor
    · have e : 5 * pool / 2 ^ 53 = 2 * pool / 2 ^ 53 + 3 * pool / 2 ^ 53 := by ring
      linarith [hc1.1, hq1.1]
    · have e : 5 * pool / 2 ^ 53 = 2 * pool / 2 ^ 53 + 3 * pool / 2 ^ 53 := by ring
      linarith [hc1.2, hq1.2]
  have hcx1 := abs_le.1 hcx
  have hsmall : 5 * pool / 2 ^ 53 + 1 / 2 ^ 1075 ≤ pool := by
    have : 6 * (pool / 2 ^ 53) ≤ pool := by
      have : 6 * (pool / 2 ^ 53) = pool * (6 / 2 ^ 53) := by ring
      rw [this]
      exact mul_le_of_le_one_right hp0.le (by norm_num)
    have e : 5 * pool / 2 ^ 53 = 5 * (pool / 2 ^ 53) := by ring
    linarith
  have hcp : |c - pool| ≤ 2 * pool := by
    rw [abs_le]
    constructor <;> linarith [hcx1.1, hcx1.2]
  -- the difference
  have hd : |roundQ (c - pool) - (c - pool)| ≤ 2 * pool / 2 ^ 53 + 1 / 2 ^ 1075 := by
    have := abs_roundQ_sub_le_mixed (c - pool)
    rw [eta_eq] at this
    have h2 : |c - pool| / 2 ^ 53 ≤ 2 * pool / 2 ^ 53 :=
      div_le_div_of_nonneg_right hcp (by positivity)
    linarith
  set d := roundQ (c - pool) with hddef
  have hd1 := abs_le.1 hd
  have htot : |d - (pool * pool / (pool + trade) - pool)| ≤ pool / 2 ^ 50 := by
    have e8 : pool / 2 ^ 50 = 8 * (pool / 2 ^ 53) := by ring
    have e5 : 5 * pool / 2 ^ 53 = 5 * (pool / 2 ^ 53) := by ring
    have e2 : 2 * pool / 2 ^ 53 = 2 * (pool / 2 ^ 53) := by ring
    rw [abs_le]
    constructor <;> linarith [hcx1.1, hcx1.2, hd1.1, hd1.2]
  -- no overflow
  have hbig : (2 : ℚ) ^ 1000 + 2 ^ 1000 < 2 ^ 1024 := by norm_num
  have hp1024 : 4 * pool < 2 ^ 1024 := by
    have : (4 : ℚ) * 2 ^ 500 < 2 ^ 1024 := by norm_num
    linarith
  have hafin : |a| < 2 ^ 1024 := by
    rw [abs_of_nonneg ha0]
    have h1 := (abs_le.1 ha).2
    have : pool * pool / 2 ^ 53 ≤ pool * pool := div_le_self hpp0.le (by norm_num)
    linarith
  have hbfin : |b| < 2 ^ 1024 := by
    rw [abs_of_pos hbpos]
    have h1 := (abs_le.1 hb).2
    have : (pool + trade) / 2 ^ 53 ≤ pool + trade := div_le_self hs0.le (by norm_num)
    have : (2 : ℚ) * (2 ^ 500 + 2 ^ 500) < 2 ^ 1024 := by norm_num
    linarith
  have hpdiv : pool / 2 ^ 53 ≤ pool := div_le_self hp0.le (by norm_num)
  have hcfin : |c| < 2 ^ 1024 := by
    rw [abs_lt]
    have e2 : 2 * pool / 2 ^ 53 = 2 * (pool / 2 ^ 53) := by ring
    constructor <;> linarith [hc1.1, hc1.2]
  have hcp1 := abs_le.1 hcp
  have hdfin : |d| < 2 ^ 1024 := by
    rw [abs_lt]
    have e2 : 2 * pool / 2 ^ 53 = 2 * (pool / 2 ^ 53) := by ring
    constructor <;> linarith [hd1.1, hd1.2, hcp1.1, hcp1.2]
  have hmul : (fin pool).mul (fin pool) = fin a := by
    simp only [JSNumber.mul]
    exact ofRat_of_roundQ rfl hafin
  have hadd : (fin pool).add (fin trade) = fin b := by
    simp only [JSNumber.add]
    exact ofRat_of_roundQ rfl hbfin
  have hdiv : (fin a).div (fin b) = fin c := by
    simp only [JSNumber.div, if_neg hbpos.ne']
    exact ofRat_of_roundQ rfl hcfin
  have hsub : (fin c).sub (fin pool) = fin d := by
    simp only [JSNumber.sub]
    exact ofRat_of_roundQ rfl hdfin
  refine ⟨|d|, ?_, abs_nonneg d, ?_⟩
  · simp only [tradeShares, hmul, hadd, hdiv, hsub, JSNumber.abs]
  · have hexact : pool * trade / (pool + trade)
        = |pool * pool / (pool + trade) - pool| := by
      rw [← hx.2.1]
      unfold sharesFormula
      rw [pow_two]
    rw [hexact]
    exact le_trans (abs_abs_sub_abs_le_abs_sub _ _) htot

/-! ## Facts about the computed share quantity: rounding at extreme ratios -/

theorem isDouble_two_pow (e : ℕ) (he : e ≤ 971) : IsDouble ((2 : ℚ) ^ e) := by
  have := isDouble_of_mantissa 1 e (by norm_num) (by omega) (by exact_mod_cast he)
  simpa using this

theorem tradeShares_eq (pool trade : JSNumber) (isYes : Bool) :
    tradeShares pool trade isYes = (((pool.mul pool).div (pool.add trade)).sub pool).abs := rfl

/-- With `pool = 2^53` and `trade = 1` the sum rounds back to the pool and the computed
share quantity is 0. -/
theorem tradeShares_large_pool (isYes : Bool) :
    tradeShares (fin (2 ^ 53)) (fin 1) isYes = fin 0 := by
  have h53 : IsDouble (2 ^ 53) := isDouble_two_pow 53 (by norm_num)
  have hadd : (fin (2 ^ 53)).add (fin 1) = fin (2 ^ 53) := by
    simp only [JSNumber.add]
    exact ofRat_eval 53 (2 ^ 52) (by norm_num [abs_of_pos]) (by norm_num [abs_of_pos])
      (by norm_num) (by norm_num [roundHalfEven]) (by norm_num) (by norm_num [abs_of_pos])
  have hmul : (fin (2 ^ 53)).mul (fin (2 ^ 53)) = fin (2 ^ 106) :=
    mul_exact (by norm_num) (isDouble_two_pow 106 (by norm_num))
  have hdiv : (fin (2 ^ 106)).div (fin (2 ^ 53)) = fin (2 ^ 53) :=
    div_exact (by norm_num) (by norm_num) h53
  have hsub : (fin (2 ^ 53)).sub (fin (2 ^ 53)) = fin 0 :=
    sub_exact (by norm_num) ofRat_zero
  rw [tradeShares_eq, hmul, hadd, hdiv, hsub]
  simp only [JSNumber.abs, abs_zero]

/-- With `pool = 1` and `trade = 2^53` the computed share quantity is `1 - 2^-53`. -/
theorem tradeShares_large_trade (isYes : Bool) :
    tradeShares (fin 1) (fin (2 ^ 53)) isYes
      = fin (9007199254740991 / 9007199254740992) := by
  have h1 : IsDouble 1 := by simpa using isDouble_intCast 1 (by norm_num)
  have hadd : (fin 1).add (fin (2 ^ 53)) = fin (2 ^ 53) := by
    simp only [JSNumber.add]
    exact ofRat_eval 53 (2 ^ 52) (by norm_num [abs_of_pos]) (by norm_num [abs_of_pos])
      (by norm_num) (by norm_num [roundHalfEven]) (by norm_num) (by norm_num [abs_of_pos])
  have hmul : (fin 1).mul (fin 1) = fin 1 := mul_exact (by norm_num) h1
  have hdiv : (fin 1).div (fin (2 ^ 53)) = fin (1 / 2 ^ 53) := by
    refine div_exact (by norm_num) rfl ?_
    have := isDouble_of_mantissa 1 (-53) (by norm_num) (by norm_num) (by norm_num)
    norm_num at this ⊢
    exact this
  have hsub : (fin (1 / 2 ^ 53)).sub (fin 1)
      = fin (-(9007199254740991 / 9007199254740992)) := by
    refine sub_exact (by norm_num) ?_
    have := isDouble_of_mantissa (-9007199254740991) (-53) (by norm_num) (by norm_num)
      (by norm_num)
    norm_num at this ⊢
    exact this
  rw [tradeShares_eq, hmul, hadd, hdiv, hsub]
  simp only [JSNumber.abs, abs_neg]
  rw [abs_of_pos (by norm_num)]

/-- With `pool = 2^60` and `trade = 256` the computed share quantity is the trade itself. -/
theorem tradeShares_equal_trade (isYes : Bool) :
    tradeShares (fin (2 ^ 60)) (fin 256) isYes = fin 256 := by
  have hadd : (fin (2 ^ 60)).add (fin 256) = fin (2 ^ 60 + 256) := by
    refine add_exact rfl ?_
    have := isDouble_of_mantissa (2 ^ 52 + 1) 8 (by norm_num) (by norm_num) (by norm_num)
    norm_num at this ⊢
    exact this
  have hmul : (fin (2 ^ 60)).mul (fin (2 ^ 60)) = fin (2 ^ 120) :=
    mul_exact (by norm_num) (isDouble_two_pow 120 (by norm_num))
  have hdiv : (fin (2 ^ 120)).div (fin (2 ^ 60 + 256)) = fin (2 ^ 60 - 256) := by
    simp only [JSNumber.div]
    rw [if_neg (by norm_num)]
    exact ofRat_eval 59 (2 ^ 53 - 2) (by norm_num [abs_of_pos]) (by norm_num [abs_of_pos])
      (by norm_num) (by norm_num [roundHalfEven]) (by norm_num) (by norm_num [abs_of_pos])
  have hsub : (fin (2 ^ 60 - 256)).sub (fin (2 ^ 60)) = fin (-256) :=
    sub_exact (by norm_num) (by simpa using isDouble_intCast (-256) (by norm_num))
  rw [tradeShares_eq, hmul, hadd, hdiv, hsub]
  simp only [JSNumber.abs, abs_neg]
  rw [abs_of_pos (by norm_num)]

/-- With `pool = 1` and `trade = 2^60` the computed share quantity is the pool itself. -/
theorem tradeShares_equal_pool (isYes : Bool) :
    tradeShares (fin 1) (fin (2 ^ 60)) isYes = fin 1 := by
  have h1 : IsDouble 1 := by simpa using isDouble_intCast 1 (by norm_num)
  have hadd : (fin 1).add (fin (2 ^ 60)) = fin (2 ^ 60) := by
    simp only [JSNumber.add]
    exact ofRat_eval 60 (2 ^ 52) (by norm_num [abs_of_pos]) (by norm_num [abs_of_pos])
      (by norm_num) (by norm_num [roundHalfEven]) (by norm_num) (by norm_num [abs_of_pos])
  have hmul : (fin 1).mul (fin 1) = fin 1 := mul_exact (by norm_num) h1
  have hdiv : (fin 1).div (fin (2 ^ 60)) = fin (1 / 2 ^ 60) := by
    refine div_exact (by norm_num) rfl ?_
    have := isDouble_of_mantissa 1 (-60) (by norm_num) (by norm_num) (by norm_num)
    norm_num at this ⊢
    exact this
  have hsub : (fin (1 / 2 ^ 60)).sub (fin 1) = fin (-1) := by
    simp only [JSNumber.sub]
    exact ofRat_eval (-1) (-(2 ^ 53)) (by norm_num [abs_of_neg]) (by norm_num [abs_of_neg])
      (by norm_num) (by norm_num [roundHalfEven]) (by norm_num) (by norm_num [abs_of_pos])
  rw [tradeShares_eq, hmul, hadd, hdiv, hsub]
  simp only [JSNumber.abs, abs_neg, abs_one]

/-! ## The quoting engine: quotes -/

/-- C1, as stated, fails: for `pool = 2^53` and `trade = 1` the sum `pool + trade` rounds back
to `2^53`, the computed share quantity is 0 and the quote is the string 0.000000, whereas the
exact quantity `|pool² / (pool + trade) − pool|` is `2^53 / (2^53 + 1)`, whose nearest
six-digit decimal is 1.000000; and for `pool = 2^600` and `trade = 1` the product
`pool * pool` overflows and the quote is the string Infinity, not a decimal string. -/
theorem calculateTradeAmount_not_nearest :
    IsDouble (2 ^ 53) ∧ IsDouble 1 ∧ (0 : ℚ) < 2 ^ 53 ∧ (0 : ℚ) < 1
      ∧ calculateTradeAmount noExponent (some (fin (2 ^ 53))) (some (fin 1)) true
          = js "0.000000"
      ∧ quoteFormula (2 ^ 53) 1 = js "1.000000"
      ∧ calculateTradeAmount noExponent (some (fin (2 ^ 53))) (some (fin 1)) true
          ≠ quoteFormula (2 ^ 53) 1
      ∧ IsDouble (2 ^ 600) ∧ (0 : ℚ) < 2 ^ 600
      ∧ calculateTradeAmount noExponent (some (fin (2 ^ 600))) (some (fin 1)) true
          = js "Infinity" := by
  have h53 : IsDouble (2 ^ 53) := by
    have := isDouble_of_mantissa 1 53 (by norm_num) (by norm_num) (by norm_num)
    norm_num at this ⊢
    exact this
  have h1 : IsDouble 1 := by simpa using isDouble_intCast 1 (by norm_num)
  have hadd : (fin (2 ^ 53)).add (fin 1) = fin (2 ^ 53) := by
    simp only [JSNumber.add]
    exact ofRat_eval 53 (2 ^ 52) (by norm_num [abs_of_pos]) (by norm_num [abs_of_pos])
      (by norm_num) (by norm_num [roundHalfEven]) (by norm_num) (by norm_num [abs_of_pos])
  have hmul : (fin (2 ^ 53)).mul (fin (2 ^ 53)) = fin (2 ^ 106) := by
    refine mul_exact (by norm_num) ?_
    have := isDouble_of_mantissa 1 106 (by norm_num) (by norm_num) (by norm_num)
    norm_num at this ⊢
    exact this
  have hdiv : (fin (2 ^ 106)).div (fin (2 ^ 53)) = fin (2 ^ 53) :=
    div_exact (by norm_num) (by norm_num) h53
  have hsub : (fin (2 ^ 53)).sub (fin (2 ^ 53)) = fin 0 :=
    sub_exact (by norm_num) ofRat_zero
  have hcode : calculateTradeAmount noExponent (some (fin (2 ^ 53))) (some (fin 1)) true
      = js "0.000000" := by
    rw [calculateTradeAmount_pos noExponent (by norm_num) (by norm_num), hmul, hadd, hdiv, hsub]
    simp only [JSNumber.abs, abs_zero]
    rw [toFixed_six noExponent (by norm_num) (by norm_num)]
    have : (roundHalfUp (0 * 10 ^ 6)).toNat = 0 := by norm_num [roundHalfUp]
    rw [this]
    decide
  have hspec : quoteFormula (2 ^ 53) 1 = js "1.000000" := by
    have hs : sharesFormula (2 ^ 53) 1 = 9007199254740992 / 9007199254740993 := by
      unfold sharesFormula
      rw [abs_of_neg (by norm_num)]
      norm_num
    unfold quoteFormula
    rw [hs]
    have : roundHalfUp (9007199254740992 / 9007199254740993 * 10 ^ 6) = 1000000 := by
      norm_num [roundHalfUp]
    rw [this, show Int.toNat 1000000 = 1000000 from rfl]
    decide
  have h600 : IsDouble (2 ^ 600) := by
    have := isDouble_of_mantissa 1 600 (by norm_num) (by norm_num) (by norm_num)
    norm_num at this ⊢
    exact this
  have hadd6 : (fin (2 ^ 600)).add (fin 1) = fin (2 ^ 600) := by
    simp only [JSNumber.add]
    exact ofRat_eval 600 (2 ^ 52) (by norm_num [abs_of_pos]) (by norm_num [abs_of_pos])
      (by norm_num) (by norm_num [roundHalfEven]) (by norm_num) (by norm_num [abs_of_pos])
  have hmul6 : (fin (2 ^ 600)).mul (fin (2 ^ 600)) = posInf := by
    have hr : roundQ (2 ^ 600 * 2 ^ 600) = 2 ^ 1200 := by
      have := roundQ_eval (x := 2 ^ 600 * 2 ^ 600) (e := 1200) (2 ^ 52)
        (by norm_num [abs_of_pos]) (by norm_num [abs_of_pos]) (by norm_num)
        (by norm_num [roundHalfEven])
      rw [this]
      norm_num
    simp only [JSNumber.mul, ofRat]
    rw [hr, if_pos (by norm_num)]
  have hover : calculateTradeAmount noExponent (some (fin (2 ^ 600))) (some (fin 1)) true
      = js "Infinity" := by
    have hdiv6 : (posInf : JSNumber).div (fin (2 ^ 600)) = posInf := by
      show infOfSign (decide ((2 : ℚ) ^ 600 < 0)) = posInf
      rw [show decide ((2 : ℚ) ^ 600 < 0) = false from decide_eq_false (by norm_num)]
      rfl
    rw [calculateTradeAmount_pos noExponent (by norm_num) (by norm_num), hmul6, hadd6, hdiv6]
    rfl
  refine ⟨h53, h1, by norm_num, by norm_num, hcode, hspec, ?_, h600, by norm_num, hover⟩
  rw [hcode, hspec]
  decide

/-- C1, amended: for every `pool > 0` and `trade > 0` whose share quantity, computed in
binary64 arithmetic as `s = |pool * pool / (pool + trade) - pool|`, is finite and below `10^21`,
`calculateTradeAmount` returns the decimal string with exactly six fractional digits nearest
to that computed `s` (which can differ from the exact quotient); and
`calculateTradeAmount(100, 10, _)` is the string 9.090909. -/
theorem calculateTradeAmount_quote (numberToString : ℚ → JSString) (pool trade s : ℚ)
    (isYes : Bool) (hp : 0 < pool) (ht : 0 < trade)
    (hs : ((((fin pool).mul (fin pool)).div ((fin pool).add (fin trade))).sub (fin pool)).abs
      = fin s)
    (h21 : s < 10 ^ 21) :
    (∃ N : ℕ,
      calculateTradeAmount numberToString (some (fin pool)) (some (fin trade)) isYes
          = decimalDigits (N / 10 ^ 6) ++ js "." ++ lastDigits 6 N
        ∧ (lastDigits 6 N).length = 6
        ∧ |(N : ℚ) / 10 ^ 6 - s| ≤ 1 / 2 / 10 ^ 6)
      ∧ calculateTradeAmount numberToString (some (fin 100)) (some (fin 10)) isYes
          = js "9.090909" := by
  refine ⟨?_, quote_hundred_ten numberToString isYes⟩
  have hs0 : 0 ≤ s := by
    cases h : (((fin pool).mul (fin pool)).div ((fin pool).add (fin trade))).sub (fin pool) with
    | fin a =>
      rw [h] at hs
      simp only [JSNumber.abs] at hs
      injection hs with hs
      rw [← hs]
      exact abs_nonneg a
    | nan => rw [h] at hs; simp [JSNumber.abs] at hs
    | posInf => rw [h] at hs; simp [JSNumber.abs] at hs
    | negInf => rw [h] at hs; simp [JSNumber.abs] at hs
  refine ⟨(roundHalfUp (s * 10 ^ 6)).toNat, ?_, length_lastDigits 6 _, ?_⟩
  · rw [calculateTradeAmount_pos numberToString hp ht, hs, toFixed_six numberToString hs0 h21]
    rfl
  · have hnn : 0 ≤ roundHalfUp (s * 10 ^ 6) := by
      unfold roundHalfUp
      apply Int.floor_nonneg.2
      positivity
    have hcast : (((roundHalfUp (s * 10 ^ 6)).toNat : ℕ) : ℚ) = ((roundHalfUp (s * 10 ^ 6) : ℤ) : ℚ) := by
      have := Int.toNat_of_nonneg hnn
      exact_mod_cast this
    have hnear := roundHalfUp_near (s * 10 ^ 6)
    rw [hcast]
    have e : ((roundHalfUp (s * 10 ^ 6) : ℤ) : ℚ) / 10 ^ 6 - s
        = (((roundHalfUp (s * 10 ^ 6) : ℤ) : ℚ) - s * 10 ^ 6) / 10 ^ 6 := by
      field_simp
      ring
    rw [e, abs_div, abs_of_pos (show (0 : ℚ) < 10 ^ 6 by positivity)]
    exact div_le_div_of_nonneg_right hnear (by positivity)

theorem calculateTradeAmount_quote_witness :
    ((0 : ℚ) < 100 ∧ (0 : ℚ) < 10
        ∧ ((((fin 100).mul (fin 100)).div ((fin 100).add (fin 10))).sub (fin 100)).abs
          = fin (319857928080291 / 35184372088832)
        ∧ (319857928080291 / 35184372088832 : ℚ) < 10 ^ 21)
      ∧ ((∃ N : ℕ,
          calculateTradeAmount noExponent (some (fin 100)) (some (fin 10)) true
              = decimalDigits (N / 10 ^ 6) ++ js "." ++ lastDigits 6 N
            ∧ (lastDigits 6 N).length = 6
            ∧ |(N : ℚ) / 10 ^ 6 - 319857928080291 / 35184372088832| ≤ 1 / 2 / 10 ^ 6)
        ∧ calculateTradeAmount noExponent (some (fin 100)) (some (fin 10)) true
            = js "9.090909") :=
  ⟨⟨by norm_num, by norm_num, shares_hundred_ten, by norm_num⟩,
    calculateTradeAmount_quote noExponent 100 10 (319857928080291 / 35184372088832) true
      (by norm_num) (by norm_num) shares_hundred_ten (by norm_num)⟩

/-! ## The quoting engine: prices -/

/-- C2: whenever the total `yesPool + noPool` is not zero, `getMarketPrice` returns, for each
outcome, the opposite reserve divided by the total: `yesPrice = noPool / (yesPool + noPool)`
and `noPrice = yesPool / (yesPool + noPool)`. -/
theorem getMarketPrice_eq_priceFormula (yes no : JSNumber)
    (h : (yes.add no).strictEq (fin 0) = false) :
    getMarketPrice (some yes) (some no) = priceFormula yes no
      ∧ (getMarketPrice (some yes) (some no)).yesPrice = no.div (yes.add no)
      ∧ (getMarketPrice (some yes) (some no)).noPrice = yes.div (yes.add no) := by
  simp [getMarketPrice, getMarketPriceTraced, priceFormula, h]

theorem getMarketPrice_eq_priceFormula_witness :
    (((fin 100).add (fin 100)).strictEq (fin 0) = false)
      ∧ (getMarketPrice (some (fin 100)) (some (fin 100)) = priceFormula (fin 100) (fin 100)
        ∧ (getMarketPrice (some (fin 100)) (some (fin 100))).yesPrice
            = (fin 100).div ((fin 100).add (fin 100))
        ∧ (getMarketPrice (some (fin 100)) (some (fin 100))).noPrice
            = (fin 100).div ((fin 100).add (fin 100))) :=
  have h : ((fin 100).add (fin 100)).strictEq (fin 0) = false := by
    rw [add_hundred]
    simp [strictEq]
  ⟨h, getMarketPrice_eq_priceFormula (fin 100) (fin 100) h⟩

/-- C3, as stated, fails: for the reserves 0.1 and 0.3 (the binary64 values nearest to them)
`getMarketPrice` returns `yesPrice = 0.7499999999999999` and `noPrice = 0.25`; their exact sum
and their Number sum are both `1 - 2^-53`, not 1. -/
theorem getMarketPrice_sum_ne_one :
    IsDouble (3602879701896397 / 36028797018963968)
      ∧ IsDouble (5404319552844595 / 18014398509481984)
      ∧ (0 : ℚ) < 3602879701896397 / 36028797018963968 + 5404319552844595 / 18014398509481984
      ∧ getMarketPrice (some (fin (3602879701896397 / 36028797018963968)))
          (some (fin (5404319552844595 / 18014398509481984)))
        = ⟨fin (6755399441055743 / 9007199254740992), fin (1 / 4)⟩
      ∧ (6755399441055743 / 9007199254740992 : ℚ) + 1 / 4 ≠ 1
      ∧ (fin (6755399441055743 / 9007199254740992)).add (fin (1 / 4))
        = fin (9007199254740991 / 9007199254740992)
      ∧ (fin (6755399441055743 / 9007199254740992)).add (fin (1 / 4)) ≠ fin 1 := by
  have hy : IsDouble (3602879701896397 / 36028797018963968) := by
    have := isDouble_of_mantissa 3602879701896397 (-55) (by norm_num) (by norm_num) (by norm_num)
    norm_num at this ⊢
    exact this
  have hn : IsDouble (5404319552844595 / 18014398509481984) := by
    have := isDouble_of_mantissa 5404319552844595 (-54) (by norm_num) (by norm_num) (by norm_num)
    norm_num at this ⊢
    exact this
  have htot : (fin (3602879701896397 / 36028797018963968)).add
      (fin (5404319552844595 / 18014398509481984))
      = fin (3602879701896397 / 9007199254740992) := by
    simp only [JSNumber.add]
    exact ofRat_eval (-2) 7205759403792794 (by norm_num [abs_of_pos]) (by norm_num [abs_of_pos])
      (by norm_num) (by norm_num [roundHalfEven]) (by norm_num) (by norm_num [abs_of_pos])
  have hyes : (fin (5404319552844595 / 18014398509481984)).div
      (fin (3602879701896397 / 9007199254740992))
      = fin (6755399441055743 / 9007199254740992) := by
    simp only [JSNumber.div]
    rw [if_neg (by norm_num)]
    exact ofRat_eval (-1) 6755399441055743 (by norm_num [abs_of_pos]) (by norm_num [abs_of_pos])
      (by norm_num) (by norm_num [roundHalfEven]) (by norm_num) (by norm_num [abs_of_pos])
  have hno : (fin (3602879701896397 / 36028797018963968)).div
      (fin (3602879701896397 / 9007199254740992)) = fin (1 / 4) := by
    simp only [JSNumber.div]
    rw [if_neg (by norm_num)]
    exact ofRat_eval (-2) 4503599627370496 (by norm_num [abs_of_pos]) (by norm_num [abs_of_pos])
      (by norm_num) (by norm_num [roundHalfEven]) (by norm_num) (by norm_num [abs_of_pos])
  have hsum : (fin (6755399441055743 / 9007199254740992)).add (fin (1 / 4))
      = fin (9007199254740991 / 9007199254740992) := by
    simp only [JSNumber.add]
    exact ofRat_eval (-1) 9007199254740991 (by norm_num [abs_of_pos]) (by norm_num [abs_of_pos])
      (by norm_num) (by norm_num [roundHalfEven]) (by norm_num) (by norm_num [abs_of_pos])
  refine ⟨hy, hn, by norm_num, ?_, by norm_num, hsum, ?_⟩
  · simp only [getMarketPrice, getMarketPriceTraced, htot, hyes, hno]
    simp [strictEq]
  · rw [hsum]
    intro h
    injection h with h
    norm_num at h

/-- C3, amended: for all binary64 reserves `y, n ≥ 0` with `y + n > 0` whose Number sum does not
overflow, the two prices returned by `getMarketPrice` are finite and sum to 1 within
floating-point tolerance: both their exact sum and their Number sum `yesPrice + noPrice`
differ from 1 by at most `2^-51`. -/
theorem getMarketPrice_sum_near_one (y n : ℚ) (hy : IsDouble y) (hn : IsDouble n)
    (hy0 : 0 ≤ y) (hn0 : 0 ≤ n) (hpos : 0 < y + n) (hfin : (fin y).add (fin n) ≠ posInf) :
    ∃ p q s : ℚ, getMarketPrice (some (fin y)) (some (fin n)) = ⟨fin p, fin q⟩
      ∧ |p + q - 1| ≤ 1 / 2 ^ 51
      ∧ (fin p).add (fin q) = fin s ∧ |s - 1| ≤ 1 / 2 ^ 51 := by
  have hover : ¬ (2 : ℚ) ^ 1024 ≤ roundQ (y + n) := by
    intro h
    apply hfin
    simp only [JSNumber.add, ofRat]
    rw [if_pos h]
  have herr := abs_roundQ_add_sub_le hy hn
  rw [abs_of_pos hpos] at herr
  have herr2 := abs_le.1 herr
  have hlow : (y + n) * (2 / 3) ≤ roundQ (y + n) := by
    have : (y + n) / 2 ^ 53 ≤ (y + n) * (1 / 3) := by
      rw [div_eq_mul_inv]
      exact mul_le_mul_of_nonneg_left (by norm_num) hpos.le
    linarith [herr2.1]
  have ht : 0 < roundQ (y + n) := by linarith
  obtain ⟨hres, -, ⟨hp0, hp1⟩, ⟨hq0, hq1⟩⟩ :=
    getMarketPrice_of_total hy hn hy0 hn0 ht.ne' (not_le.1 hover)
  set t := roundQ (y + n) with htdef
  set p := roundQ (n / t) with hpdef
  set q := roundQ (y / t) with hqdef
  have ha0 : 0 ≤ n / t := div_nonneg hn0 ht.le
  have hb0 : 0 ≤ y / t := div_nonneg hy0 ht.le
  have hab : n / t + y / t = (y + n) / t := by ring
  have hr : (y + n) / t ≤ 3 / 2 := by
    rw [div_le_iff₀ ht]
    linarith
  have hep := abs_le.1 (abs_roundQ_sub_le_mixed (n / t))
  have heq := abs_le.1 (abs_roundQ_sub_le_mixed (y / t))
  rw [abs_of_nonneg ha0] at hep
  rw [abs_of_nonneg hb0] at heq
  have hrt : |(y + n) / t - 1| ≤ (y + n) / t / 2 ^ 53 := by
    have e : (y + n) / t - 1 = -(t - (y + n)) / t := by
      field_simp
    rw [e, abs_div, abs_neg, abs_of_pos ht, div_div, mul_comm, ← div_div]
    exact div_le_div_of_nonneg_right herr ht.le
  have hrt2 := abs_le.1 hrt
  have hη : (2 : ℚ) ^ (-1075 : ℤ) ≤ 1 / 2 ^ 55 := by norm_num
  have hη0 : (0 : ℚ) ≤ (2 : ℚ) ^ (-1075 : ℤ) := by positivity
  have hdiv : (y + n) / t / 2 ^ 53 ≤ 3 / 2 / 2 ^ 53 := div_le_div_of_nonneg_right hr (by positivity)
  have hsumdiv : n / t / 2 ^ 53 + y / t / 2 ^ 53 = (y + n) / t / 2 ^ 53 := by ring
  have hbound : |p + q - 1| ≤ 1 / 2 ^ 51 := by
    rw [abs_le]
    constructor
    · have : (1 : ℚ) / 2 ^ 51 = 4 * (1 / 2 ^ 53) := by norm_num
      have h3 : (3 : ℚ) / 2 / 2 ^ 53 = 3 / 2 * (1 / 2 ^ 53) := by ring
      have h5 : (1 : ℚ) / 2 ^ 55 = 1 / 4 * (1 / 2 ^ 53) := by norm_num
      have hpos53 : (0 : ℚ) < 1 / 2 ^ 53 := by positivity
      linarith [hep.1, heq.1, hrt2.1]
    · have : (1 : ℚ) / 2 ^ 51 = 4 * (1 / 2 ^ 53) := by norm_num
      have h3 : (3 : ℚ) / 2 / 2 ^ 53 = 3 / 2 * (1 / 2 ^ 53) := by ring
      have h5 : (1 : ℚ) / 2 ^ 55 = 1 / 4 * (1 / 2 ^ 53) := by norm_num
      have hpos53 : (0 : ℚ) < 1 / 2 ^ 53 := by positivity
      linarith [hep.2, heq.2, hrt2.2]
  have hb2 := abs_le.1 hbound
  have hlo : IsDouble (1 - 1 / 2 ^ 51) := by
    have := isDouble_of_mantissa (2 ^ 51 - 1) (-51) (by norm_num) (by norm_num) (by norm_num)
    norm_num at this ⊢
    exact this
  have hhi : IsDouble (1 + 1 / 2 ^ 51) := by
    have := isDouble_of_mantissa (2 ^ 51 + 1) (-51) (by norm_num) (by norm_num) (by norm_num)
    norm_num at this ⊢
    exact this
  have hs1 : 1 - 1 / 2 ^ 51 ≤ roundQ (p + q) := by
    have := roundQ_mono (x := 1 - 1 / 2 ^ 51) (y := p + q) (by norm_num) (by linarith [hb2.1])
    rwa [hlo.roundQ_eq] at this
  have hs2 : roundQ (p + q) ≤ 1 + 1 / 2 ^ 51 := by
    have := roundQ_mono (x := p + q) (y := 1 + 1 / 2 ^ 51) (add_nonneg hp0 hq0) (by linarith [hb2.2])
    rwa [hhi.roundQ_eq] at this
  refine ⟨p, q, roundQ (p + q), hres, hbound, ?_, ?_⟩
  · simp only [JSNumber.add]
    refine ofRat_of_roundQ rfl ?_
    rw [abs_lt]
    constructor
    · have : (-(2 : ℚ) ^ 1024) < 0 := by norm_num
      have h0 : (0 : ℚ) ≤ 1 - 1 / 2 ^ 51 := by norm_num
      linarith
    · have : (1 : ℚ) + 1 / 2 ^ 51 < 2 ^ 1024 := by norm_num
      linarith
  · rw [abs_le]
    constructor <;> linarith

theorem getMarketPrice_sum_near_one_witness :
    (IsDouble 100 ∧ IsDouble 300 ∧ (0 : ℚ) ≤ 100 ∧ (0 : ℚ) ≤ 300 ∧ (0 : ℚ) < 100 + 300
        ∧ (fin 100).add (fin 300) ≠ posInf)
      ∧ ∃ p q s : ℚ, getMarketPrice (some (fin 100)) (some (fin 300)) = ⟨fin p, fin q⟩
        ∧ |p + q - 1| ≤ 1 / 2 ^ 51
        ∧ (fin p).add (fin q) = fin s ∧ |s - 1| ≤ 1 / 2 ^ 51 :=
  have h1 : IsDouble 100 := by simpa using isDouble_intCast 100 (by norm_num)
  have h3 : IsDouble 300 := by simpa using isDouble_intCast 300 (by norm_num)
  have h4 : (fin 100).add (fin 300) ≠ posInf := by
    rw [add_exact (c := 400) (by norm_num) (by simpa using isDouble_intCast 400 (by norm_num))]
    simp
  ⟨⟨h1, h3, by norm_num, by norm_num, by norm_num, h4⟩,
    getMarketPrice_sum_near_one 100 300 h1 h3 (by norm_num) (by norm_num) (by norm_num) h4⟩

/-- C4: whenever the total `yesPool + noPool` is zero, in particular for the reserves (0, 0),
`getMarketPrice` returns exactly the pair (0.5, 0.5), and no division is among the arithmetic
steps it executes. -/
theorem getMarketPrice_zero_total (yes no : JSNumber)
    (h : (yes.add no).strictEq (fin 0) = true) :
    getMarketPrice (some yes) (some no) = ⟨fin (1 / 2), fin (1 / 2)⟩
      ∧ PriceOp.division ∉ (getMarketPriceTraced (some yes) (some no)).2
      ∧ getMarketPrice (some (fin 0)) (some (fin 0)) = ⟨fin (1 / 2), fin (1 / 2)⟩
      ∧ PriceOp.division ∉ (getMarketPriceTraced (some (fin 0)) (some (fin 0))).2 := by
  have h0 : ((fin 0).add (fin 0)).strictEq (fin 0) = true := by
    simp [JSNumber.add, ofRat_zero, strictEq]
  simp [getMarketPrice, getMarketPriceTraced, half, h, h0]

theorem getMarketPrice_zero_total_witness :
    (((fin 5).add (fin (-5))).strictEq (fin 0) = true)
      ∧ (getMarketPrice (some (fin 5)) (some (fin (-5))) = ⟨fin (1 / 2), fin (1 / 2)⟩
        ∧ PriceOp.division ∉ (getMarketPriceTraced (some (fin 5)) (some (fin (-5)))).2
        ∧ getMarketPrice (some (fin 0)) (some (fin 0)) = ⟨fin (1 / 2), fin (1 / 2)⟩
        ∧ PriceOp.division ∉ (getMarketPriceTraced (some (fin 0)) (some (fin 0))).2) :=
  have h : ((fin 5).add (fin (-5))).strictEq (fin 0) = true := by
    simp [JSNumber.add, ofRat_zero, strictEq]
  ⟨h, getMarketPrice_zero_total (fin 5) (fin (-5)) h⟩

/-- C5: for all non-negative binary64 reserves `y` and `n` (including `y = n = 0`, and also
when their sum overflows), both prices returned by `getMarketPrice` are finite Numbers in the
closed interval `[0, 1]`. -/
theorem getMarketPrice_range (y n : ℚ) (hy : IsDouble y) (hn : IsDouble n)
    (hy0 : 0 ≤ y) (hn0 : 0 ≤ n) :
    ∃ p q : ℚ, getMarketPrice (some (fin y)) (some (fin n)) = ⟨fin p, fin q⟩
      ∧ (0 ≤ p ∧ p ≤ 1) ∧ (0 ≤ q ∧ q ≤ 1) := by
  have ht0 : 0 ≤ roundQ (y + n) := roundQ_nonneg (add_nonneg hy0 hn0)
  by_cases hover : (2 : ℚ) ^ 1024 ≤ roundQ (y + n)
  · refine ⟨0, 0, ?_, by norm_num, by norm_num⟩
    have htot : (fin y).add (fin n) = posInf := by
      simp only [JSNumber.add, ofRat]
      rw [if_pos hover]
    simp [getMarketPrice, getMarketPriceTraced, htot, strictEq, JSNumber.div]
  · by_cases hz : roundQ (y + n) = 0
    · refine ⟨1 / 2, 1 / 2, ?_, by norm_num, by norm_num⟩
      have htot : (fin y).add (fin n) = fin 0 := by
        rw [← hz]
        exact ofRat_of_roundQ rfl (by rw [hz]; norm_num)
      simp [getMarketPrice, getMarketPriceTraced, htot, strictEq, half]
    · obtain ⟨hres, -, hp, hq⟩ := getMarketPrice_of_total hy hn hy0 hn0 hz (not_le.1 hover)
      exact ⟨_, _, hres, hp, hq⟩

theorem getMarketPrice_range_witness :
    (IsDouble 100 ∧ IsDouble 300 ∧ (0 : ℚ) ≤ 100 ∧ (0 : ℚ) ≤ 300)
      ∧ ∃ p q : ℚ, getMarketPrice (some (fin 100)) (some (fin 300)) = ⟨fin p, fin q⟩
        ∧ (0 ≤ p ∧ p ≤ 1) ∧ (0 ≤ q ∧ q ≤ 1) :=
  have h1 : IsDouble 100 := by simpa using isDouble_intCast 100 (by norm_num)
  have h3 : IsDouble 300 := by simpa using isDouble_intCast 300 (by norm_num)
  ⟨⟨h1, h3, by norm_num, by norm_num⟩,
    getMarketPrice_range 100 300 h1 h3 (by norm_num) (by norm_num)⟩

/-! ## The quoting engine: degenerate trades -/

/-- C6: `calculateTradeAmount` returns the zero quote, the string 0, whenever `pool <= 0` or
`trade <= 0`; in particular for a zero trade against any pool and for a zero pool with any
trade; and an exception thrown while converting either argument is caught and also yields
the string 0, so the function never raises. -/
theorem calculateTradeAmount_degenerate (numberToString : ℚ → JSString)
    (pool trade : JSNumber) (isYes : Bool)
    (h : pool.le (fin 0) = true ∨ trade.le (fin 0) = true) :
    calculateTradeAmount numberToString (some pool) (some trade) isYes = js "0"
      ∧ (∀ p : ℚ, 0 ≤ p →
          calculateTradeAmount numberToString (some (fin p)) (some (fin 0)) isYes = js "0")
      ∧ (∀ t : ℚ, 0 ≤ t →
          calculateTradeAmount numberToString (some (fin 0)) (some (fin t)) isYes = js "0")
      ∧ (∀ x : Option JSNumber,
          calculateTradeAmount numberToString none x isYes = js "0"
            ∧ calculateTradeAmount numberToString x none isYes = js "0") := by
  refine ⟨?_, ?_, ?_, ?_⟩
  · rcases h with h | h <;> simp [calculateTradeAmount, h]
  · intro p _
    simp [calculateTradeAmount, JSNumber.le]
  · intro t _
    simp [calculateTradeAmount, JSNumber.le]
  · intro x
    cases x <;> simp [calculateTradeAmount]

theorem calculateTradeAmount_degenerate_witness :
    ((fin 100).le (fin 0) = true ∨ (fin (-3)).le (fin 0) = true)
      ∧ (calculateTradeAmount noExponent (some (fin 100)) (some (fin (-3))) true = js "0"
        ∧ (∀ p : ℚ, 0 ≤ p →
            calculateTradeAmount noExponent (some (fin p)) (some (fin 0)) true = js "0")
        ∧ (∀ t : ℚ, 0 ≤ t →
            calculateTradeAmount noExponent (some (fin 0)) (some (fin t)) true = js "0")
        ∧ (∀ x : Option JSNumber,
            calculateTradeAmount noExponent none x true = js "0"
              ∧ calculateTradeAmount noExponent x none true = js "0")) :=
  have h : (fin 100).le (fin 0) = true ∨ (fin (-3)).le (fin 0) = true :=
    Or.inr (by simp [JSNumber.le])
  ⟨h, calculateTradeAmount_degenerate noExponent (fin 100) (fin (-3)) true h⟩

/-! ## The question codec -/

set_option maxRecDepth 100000 in
/-- C7, as stated, fails: the question made of the letter a, a NUL character and the letters
xyz satisfies every condition of the claim (5 bytes, no outer white space, not hexadecimal,
length 5), but the decoder returns the four letters axyz: NUL characters are removed. -/
theorem roundTrip_fails_on_nul :
    (textEncode (js "a\x00xyz")).length ≤ 32
      ∧ isTrimmed (js "a\x00xyz") = true
      ∧ isHexPattern (js "a\x00xyz") = false
      ∧ 3 ≤ (js "a\x00xyz").length
      ∧ questionHash (js "a\x00xyz")
          = some (js "0x610078797a000000000000000000000000000000000000000000000000000000")
      ∧ decodeQuestion (js "0x610078797a000000000000000000000000000000000000000000000000000000")
          (js "0x5FbDB2315678afecb367f032d93F642f64180aa3") = js "axyz"
      ∧ decodeQuestion (js "0x610078797a000000000000000000000000000000000000000000000000000000")
          (js "0x5FbDB2315678afecb367f032d93F642f64180aa3") ≠ js "a\x00xyz" := by
  refine ⟨by decide, by decide, by decide, by decide, by decide, by decide, by decide⟩

/-- C7, amended: for every question `q` without NUL characters, without lone surrogates and
without the character U+FFFD, whose UTF-8 encoding is at most 32 bytes, that neither starts nor
ends with white space, does not match the pure-hexadecimal pattern and has length at least 3,
the encoder returns a value from which the decoder, for any market address, returns exactly
`q`. -/
theorem decodeQuestion_questionHash (q marketAddress : JSString)
    (h32 : (textEncode q).length ≤ 32) (htrim : isTrimmed q = true)
    (hhex : isHexPattern q = false) (hlen : 3 ≤ q.length)
    (hnul : (0 : CodeUnit) ∉ q) (hrep : 0xFFFD ∉ toScalars q) :
    ∃ hash : JSString, questionHash q = some hash ∧ decodeQuestion hash marketAddress = q := by
  refine ⟨_, by rw [questionHash, questionBuffer_short h32]; rfl, ?_⟩
  obtain ⟨hutf16, hnorep⟩ := utf16Encode_toScalars q hrep
  have hnul' : ∀ u ∈ q, u.val ≠ 0 := by
    intro u hu h0
    apply hnul
    have : u = 0 := Fin.ext h0
    rwa [this] at hu
  -- the first byte of the encoding is not zero
  obtain ⟨u, r, hq⟩ : ∃ u r, q = u :: r := by
    cases q with
    | nil => simp at hlen
    | cons u r => exact ⟨u, r, rfl⟩
  have hws : isWhiteSpace u = false := by
    have hl : ∃ l, (u :: r).getLast? = some l :=
      ⟨(u :: r).getLast (by simp), List.getLast?_eq_getLast _ _⟩
    obtain ⟨l, hl⟩ := hl
    rw [hq] at htrim
    unfold isTrimmed at htrim
    rw [hl] at htrim
    simp only [List.head?_cons, Bool.and_eq_true, Bool.not_eq_true'] at htrim
    exact htrim.1
  obtain ⟨c, cs, hc, -⟩ := head_toScalars u r
  have hcs : IsScalar c :=
    isScalar_of_mem_toScalars q c (by rw [hq, hc]; exact List.mem_cons_self _ _)
  have hc0 : c ≠ 0 := by
    intro h0
    apply hnul
    rw [← hutf16, hq, hc, h0, List.flatMap_cons]
    exact List.mem_append_left _ (by decide)
  obtain ⟨b, bs, hb, hb0⟩ := utf8EncodeScalar_head hc0 hcs
  have hB : ∃ rest, textEncode q ++ List.replicate (32 - (textEncode q).length) (0 : Byte)
      = b :: rest := by
    unfold textEncode
    rw [hq, hc, List.flatMap_cons, hb]
    exact ⟨_, rfl⟩
  obtain ⟨rest, hrest⟩ := hB
  have hbytes : hexToBytes (trimHex (toHex (textEncode q
      ++ List.replicate (32 - (textEncode q).length) (0 : Byte))))
      = some (textEncode q ++ List.replicate (32 - (textEncode q).length) (0 : Byte)) := by
    rw [hexToBytes_trimHex_toHex _ (by rw [hrest]; simp), hrest]
    have hd : List.dropWhile (fun b : Byte => decide (b.val = 0)) (b :: rest) = b :: rest := by
      rw [List.dropWhile_cons]
      simp [hb0]
    rw [hd]
    simp
  have hbom : ∀ w, q.head? = some w → w.val ≠ 0xFEFF := by
    intro w hw h
    rw [hq, List.head?_cons] at hw
    injection hw with hw
    rw [← hw] at h
    have : isWhiteSpace u = true := by
      simp [isWhiteSpace, h]
    rw [hws] at this
    exact Bool.false_ne_true this
  have hcontains : q.contains (0xFFFD : CodeUnit) = false := by
    rw [← Bool.not_eq_true, List.contains_iff_exists_mem_beq]
    rintro ⟨w, hw, hbeq⟩
    have : (0xFFFD : CodeUnit) = w := by simpa using hbeq
    exact hnorep w hw (by rw [← this]; rfl)
  unfold decodeQuestion hexToString
  rw [hbytes]
  simp only [Option.map_some']
  rw [textDecode_textEncode q _ hrep hbom, removeNul_append_zeros q _ hnul',
    jsTrim_of_isTrimmed htrim]
  have hempty : q.isEmpty = false := by rw [hq]; rfl
  have hl3 : decide (q.length < 3) = false := decide_eq_false (by omega)
  simp only [hempty, hl3, hcontains, hhex, Bool.or_self, Bool.false_eq_true, if_false]

set_option maxRecDepth 100000 in
theorem decodeQuestion_questionHash_witness :
    ((textEncode (js "Will ETH hit 5k?")).length ≤ 32
        ∧ isTrimmed (js "Will ETH hit 5k?") = true
        ∧ isHexPattern (js "Will ETH hit 5k?") = false
        ∧ 3 ≤ (js "Will ETH hit 5k?").length
        ∧ (0 : CodeUnit) ∉ js "Will ETH hit 5k?"
        ∧ 0xFFFD ∉ toScalars (js "Will ETH hit 5k?"))
      ∧ ∃ hash : JSString, questionHash (js "Will ETH hit 5k?") = some hash
        ∧ decodeQuestion hash (js "0x5FbDB2315678afecb367f032d93F642f64180aa3")
            = js "Will ETH hit 5k?" :=
  ⟨⟨by decide, by decide, by decide, by decide, by decide, by decide⟩,
    decodeQuestion_questionHash (js "Will ETH hit 5k?")
      (js "0x5FbDB2315678afecb367f032d93F642f64180aa3")
      (by decide) (by decide) (by decide) (by decide) (by decide) (by decide)⟩


/-- C8: for every question string, of any length and including the empty string, the encoder
throws no exception and produces a buffer of exactly 32 bytes, passed on as a string of `0x`
followed by 64 hexadecimal digits. -/
theorem questionHash_total (question : JSString) :
    ∃ buffer : List Byte, questionBuffer question = some buffer ∧ buffer.length = 32
      ∧ questionHash question = some (toHex buffer)
      ∧ (toHex buffer).length = 66
      ∧ (toHex buffer).take 2 = js "0x"
      ∧ (∀ u ∈ (toHex buffer).drop 2, isHexChar u = true)
      ∧ questionHash [] = some (toHex (List.replicate 32 0)) := by
  have hempty : questionHash [] = some (toHex (List.replicate 32 0)) := by decide
  rcases Nat.lt_or_ge 32 (textEncode question).length with h | h
  · refine ⟨_, questionBuffer_long h, ?_, ?_, ?_, ?_, hexChars_toHex _, hempty⟩
    · rw [List.length_take]; omega
    · rw [questionHash, questionBuffer_long h]; rfl
    · rw [length_toHex, List.length_take]; omega
    · rw [toHex, js_0x]; rfl
  · refine ⟨_, questionBuffer_short h, ?_, ?_, ?_, ?_, hexChars_toHex _, hempty⟩
    · rw [List.length_append, List.length_replicate]; omega
    · rw [questionHash, questionBuffer_short h]; rfl
    · rw [length_toHex, List.length_append, List.length_replicate]; omega
    · rw [toHex, js_0x]; rfl

/-- C9: for every question whose UTF-8 encoding has length `L ≤ 32`, the first `L` bytes of the
encoded buffer are that UTF-8 encoding and the remaining `32 - L` bytes are all zero. -/
theorem questionBuffer_padding (question : JSString)
    (h : (textEncode question).length ≤ 32) :
    ∃ buffer : List Byte, questionBuffer question = some buffer
      ∧ questionHash question = some (toHex buffer)
      ∧ buffer.length = 32
      ∧ buffer.take (textEncode question).length = textEncode question
      ∧ buffer.drop (textEncode question).length
          = List.replicate (32 - (textEncode question).length) 0
      ∧ (∀ i : ℕ, (textEncode question).length ≤ i → i < 32 → buffer[i]? = some 0) := by
  refine ⟨_, questionBuffer_short h, ?_, ?_, ?_, ?_, ?_⟩
  · rw [questionHash, questionBuffer_short h]; rfl
  · rw [List.length_append, List.length_replicate]; omega
  · rw [List.take_left']
    rfl
  · rw [List.drop_left']
    rfl
  · intro i hi h32
    rw [List.getElem?_append_right hi, List.getElem?_replicate]
    rw [if_pos (by omega)]

set_option maxRecDepth 100000 in
theorem questionBuffer_padding_witness :
    ((textEncode (js "Will ETH hit 5k?")).length ≤ 32)
      ∧ ∃ buffer : List Byte, questionBuffer (js "Will ETH hit 5k?") = some buffer
        ∧ questionHash (js "Will ETH hit 5k?") = some (toHex buffer)
        ∧ buffer.length = 32
        ∧ buffer.take (textEncode (js "Will ETH hit 5k?")).length
            = textEncode (js "Will ETH hit 5k?")
        ∧ buffer.drop (textEncode (js "Will ETH hit 5k?")).length
            = List.replicate (32 - (textEncode (js "Will ETH hit 5k?")).length) 0
        ∧ (∀ i : ℕ, (textEncode (js "Will ETH hit 5k?")).length ≤ i → i < 32 →
            buffer[i]? = some 0) :=
  have h : (textEncode (js "Will ETH hit 5k?")).length ≤ 32 := by decide
  ⟨h, questionBuffer_padding (js "Will ETH hit 5k?") h⟩

/-- C10: for every question whose UTF-8 encoding is longer than 32 bytes, the encoded buffer
is exactly the first 32 bytes of that UTF-8 encoding: it has 32 bytes and none of them is a
padding byte added by the encoder. -/
theorem questionBuffer_truncation (question : JSString)
    (h : 32 < (textEncode question).length) :
    questionBuffer question = some ((textEncode question).take 32)
      ∧ questionHash question = some (toHex ((textEncode question).take 32))
      ∧ ((textEncode question).take 32).length = 32
      ∧ (∀ i : ℕ, i < 32 → ((textEncode question).take 32)[i]? = (textEncode question)[i]?) := by
  refine ⟨questionBuffer_long h, ?_, ?_, ?_⟩
  · rw [questionHash, questionBuffer_long h]; rfl
  · rw [List.length_take]; omega
  · intro i hi
    rw [List.getElem?_take_of_lt hi]

set_option maxRecDepth 100000 in
theorem questionBuffer_truncation_witness :
    (32 < (textEncode (js "Will ETH trade above 5000 USD on Dec 31?")).length)
      ∧ (questionBuffer (js "Will ETH trade above 5000 USD on Dec 31?")
          = some ((textEncode (js "Will ETH trade above 5000 USD on Dec 31?")).take 32)
        ∧ questionHash (js "Will ETH trade above 5000 USD on Dec 31?")
          = some (toHex ((textEncode (js "Will ETH trade above 5000 USD on Dec 31?")).take 32))
        ∧ ((textEncode (js "Will ETH trade above 5000 USD on Dec 31?")).take 32).length = 32
        ∧ (∀ i : ℕ, i < 32 →
            ((textEncode (js "Will ETH trade above 5000 USD on Dec 31?")).take 32)[i]?
              = (textEncode (js "Will ETH trade above 5000 USD on Dec 31?"))[i]?)) :=
  have h : 32 < (textEncode (js "Will ETH trade above 5000 USD on Dec 31?")).length := by decide
  ⟨h, questionBuffer_truncation (js "Will ETH trade above 5000 USD on Dec 31?") h⟩
/-! ## The question codec: decoding arbitrary buffers -/

/-- C11: for every 32-byte buffer whose decoded, NUL-stripped, trimmed text consists only of
hexadecimal digits, the decoder returns the fallback label built from the words Market
Question and the first 8 characters of the market address, and not the decoded text. -/
theorem decodeQuestion_hex_fallback (buffer : List Byte) (marketAddress : JSString)
    (hlen : buffer.length = 32) (hhex : (cleanedText buffer).all isHexChar = true) :
    decodeQuestion (toHex buffer) marketAddress
        = js "Market Question (" ++ marketAddress.take 8 ++ js "...)"
      ∧ decodeQuestion (toHex buffer) marketAddress ≠ cleanedText buffer := by
  have hne : buffer ≠ [] := by
    intro h
    rw [h] at hlen
    simp at hlen
  have hres : decodeQuestion (toHex buffer) marketAddress = fallbackQuestion marketAddress := by
    rw [decodeQuestion_toHex buffer marketAddress hne]
    by_cases he : (cleanedText buffer).isEmpty = true
    · simp [he]
    · have : isHexPattern (cleanedText buffer) = true := by
        unfold isHexPattern
        simp [he, hhex]
      simp [this]
  refine ⟨hres, ?_⟩
  rw [hres]
  intro heq
  obtain ⟨rest, hrest⟩ := fallbackQuestion_head marketAddress
  rw [← heq, hrest, List.all_cons] at hhex
  have : isHexChar (77 : CodeUnit) = false := by decide
  rw [this] at hhex
  simp at hhex

set_option maxRecDepth 100000 in
theorem decodeQuestion_hex_fallback_witness :
    (([0x64, 0x65, 0x61, 0x64, 0x62, 0x65, 0x65, 0x66] ++ List.replicate 24 (0 : Byte)).length = 32
        ∧ (cleanedText ([0x64, 0x65, 0x61, 0x64, 0x62, 0x65, 0x65, 0x66]
            ++ List.replicate 24 (0 : Byte))).all isHexChar = true
        ∧ cleanedText ([0x64, 0x65, 0x61, 0x64, 0x62, 0x65, 0x65, 0x66]
            ++ List.replicate 24 (0 : Byte)) = js "deadbeef")
      ∧ (decodeQuestion (toHex ([0x64, 0x65, 0x61, 0x64, 0x62, 0x65, 0x65, 0x66]
            ++ List.replicate 24 (0 : Byte))) (js "0x5FbDB2315678afecb367f032d93F642f64180aa3")
          = js "Market Question (" ++ (js "0x5FbDB2315678afecb367f032d93F642f64180aa3").take 8
              ++ js "...)"
        ∧ decodeQuestion (toHex ([0x64, 0x65, 0x61, 0x64, 0x62, 0x65, 0x65, 0x66]
            ++ List.replicate 24 (0 : Byte))) (js "0x5FbDB2315678afecb367f032d93F642f64180aa3")
          ≠ cleanedText ([0x64, 0x65, 0x61, 0x64, 0x62, 0x65, 0x65, 0x66]
            ++ List.replicate 24 (0 : Byte))) :=
  ⟨⟨by decide, by decide, by decide⟩,
    decodeQuestion_hex_fallback _ (js "0x5FbDB2315678afecb367f032d93F642f64180aa3")
      (by decide) (by decide)⟩

/-- C12: for every 32-byte buffer whose decoded, NUL-stripped, trimmed text has fewer than 3
characters, the decoder returns the fallback label built from the market address; in
particular for the all-zero buffer, whose cleaned text is empty. -/
theorem decodeQuestion_short_fallback (buffer : List Byte) (marketAddress : JSString)
    (hlen : buffer.length = 32) (hshort : (cleanedText buffer).length < 3) :
    decodeQuestion (toHex buffer) marketAddress
        = js "Market Question (" ++ marketAddress.take 8 ++ js "...)"
      ∧ cleanedText (List.replicate 32 0) = []
      ∧ decodeQuestion (toHex (List.replicate 32 0)) marketAddress
        = js "Market Question (" ++ marketAddress.take 8 ++ js "...)" := by
  have hne : buffer ≠ [] := by
    intro h
    rw [h] at hlen
    simp at hlen
  have hzero : cleanedText (List.replicate 32 0) = [] := by decide
  refine ⟨?_, hzero, ?_⟩
  · rw [decodeQuestion_toHex buffer marketAddress hne]
    simp [hshort]
    rfl
  · rw [decodeQuestion_toHex _ marketAddress (by decide), hzero]
    rfl

set_option maxRecDepth 100000 in
theorem decodeQuestion_short_fallback_witness :
    (([0x6F, 0x6B] ++ List.replicate 30 (0 : Byte)).length = 32
        ∧ (cleanedText ([0x6F, 0x6B] ++ List.replicate 30 (0 : Byte))).length < 3)
      ∧ (decodeQuestion (toHex ([0x6F, 0x6B] ++ List.replicate 30 (0 : Byte)))
            (js "0x5FbDB2315678afecb367f032d93F642f64180aa3")
          = js "Market Question (" ++ (js "0x5FbDB2315678afecb367f032d93F642f64180aa3").take 8
              ++ js "...)"
        ∧ cleanedText (List.replicate 32 0) = []
        ∧ decodeQuestion (toHex (List.replicate 32 0))
            (js "0x5FbDB2315678afecb367f032d93F642f64180aa3")
          = js "Market Question (" ++ (js "0x5FbDB2315678afecb367f032d93F642f64180aa3").take 8
              ++ js "...)") :=
  ⟨⟨by decide, by decide⟩,
    decodeQuestion_short_fallback _ (js "0x5FbDB2315678afecb367f032d93F642f64180aa3")
      (by decide) (by decide)⟩

/-- C13: for every 32-byte buffer whose content is not valid UTF-8, with or without its zero
bytes, and more generally whenever decoding produces a U+FFFD replacement character, the
decoder returns the fallback label built from the first 8 characters of the address. -/
theorem decodeQuestion_malformed_fallback (buffer : List Byte) (marketAddress : JSString)
    (hlen : buffer.length = 32)
    (h : wellFormedUtf8 (buffer.filter (fun b => b.val ≠ 0)) = false
      ∨ wellFormedUtf8 buffer = false ∨ (0xFFFD : CodeUnit) ∈ textDecode buffer) :
    decodeQuestion (toHex buffer) marketAddress
      = js "Market Question (" ++ marketAddress.take 8 ++ js "...)" := by
  have hne : buffer ≠ [] := by
    intro h
    rw [h] at hlen
    simp at hlen
  have hwf : wellFormedUtf8 buffer = false → (0xFFFD : CodeUnit) ∈ textDecode buffer :=
    fun hw => replacement_mem_textDecode _ (replacement_of_not_wellFormed _ hw)
  have hmem : (0xFFFD : CodeUnit) ∈ textDecode buffer := by
    rcases h with h | h | h
    · apply hwf
      by_contra hcon
      rw [Bool.not_eq_false] at hcon
      rw [wellFormedUtf8_filter buffer hcon] at h
      exact absurd h (by simp)
    · exact hwf h
    · exact h
  have hc : (cleanedText buffer).contains (0xFFFD : CodeUnit) = true := by
    rw [List.contains_iff_exists_mem_beq]
    exact ⟨_, replacement_mem_cleanedText buffer hmem, by simp⟩
  rw [decodeQuestion_toHex buffer marketAddress hne, hc]
  simp
  rfl

set_option maxRecDepth 100000 in
theorem decodeQuestion_malformed_fallback_witness :
    (([0x48, 0x69, 0xE2, 0x82, 0x00, 0x21] ++ List.replicate 26 (0 : Byte)).length = 32
        ∧ (wellFormedUtf8 (([0x48, 0x69, 0xE2, 0x82, 0x00, 0x21]
              ++ List.replicate 26 (0 : Byte)).filter (fun b => b.val ≠ 0)) = false
          ∨ wellFormedUtf8 ([0x48, 0x69, 0xE2, 0x82, 0x00, 0x21]
              ++ List.replicate 26 (0 : Byte)) = false
          ∨ (0xFFFD : CodeUnit) ∈ textDecode ([0x48, 0x69, 0xE2, 0x82, 0x00, 0x21]
              ++ List.replicate 26 (0 : Byte))))
      ∧ decodeQuestion (toHex ([0x48, 0x69, 0xE2, 0x82, 0x00, 0x21]
            ++ List.replicate 26 (0 : Byte))) (js "0x5FbDB2315678afecb367f032d93F642f64180aa3")
          = js "Market Question (" ++ (js "0x5FbDB2315678afecb367f032d93F642f64180aa3").take 8
              ++ js "...)" :=
  ⟨⟨by decide, Or.inl (by decide)⟩,
    decodeQuestion_malformed_fallback _ (js "0x5FbDB2315678afecb367f032d93F642f64180aa3")
      (by decide) (Or.inl (by decide))⟩

/-- C14: for every 32-byte buffer whose decoded text, after removing all NUL characters and
trimming surrounding white space, has length at least 3, contains no U+FFFD and is not purely
hexadecimal, the decoder returns exactly that cleaned text, whatever its length. -/
theorem decodeQuestion_text (buffer : List Byte) (marketAddress : JSString)
    (hlen : buffer.length = 32) (h3 : 3 ≤ (cleanedText buffer).length)
    (hrep : (0xFFFD : CodeUnit) ∉ cleanedText buffer)
    (hhex : isHexPattern (cleanedText buffer) = false) :
    decodeQuestion (toHex buffer) marketAddress = cleanedText buffer := by
  have hne : buffer ≠ [] := by
    intro h
    rw [h] at hlen
    simp at hlen
  have hc : (cleanedText buffer).contains (0xFFFD : CodeUnit) = false := by
    rw [← Bool.not_eq_true, List.contains_iff_exists_mem_beq]
    rintro ⟨w, hw, hbeq⟩
    have : (0xFFFD : CodeUnit) = w := by simpa using hbeq
    exact hrep (by rw [this]; exact hw)
  have hempty : (cleanedText buffer).isEmpty = false := by
    cases hq : cleanedText buffer with
    | nil => rw [hq] at h3; simp at h3
    | cons a r => rfl
  have hl3 : decide ((cleanedText buffer).length < 3) = false := decide_eq_false (by omega)
  rw [decodeQuestion_toHex buffer marketAddress hne]
  simp only [hempty, hl3, hc, hhex, Bool.or_self, Bool.false_eq_true, if_false]

set_option maxRecDepth 100000 in
theorem decodeQuestion_text_witness :
    ((textEncode (js "Will it rain in Paris on June 1?")).length = 32
        ∧ 3 ≤ (cleanedText (textEncode (js "Will it rain in Paris on June 1?"))).length
        ∧ (0xFFFD : CodeUnit) ∉ cleanedText (textEncode (js "Will it rain in Paris on June 1?"))
        ∧ isHexPattern (cleanedText (textEncode (js "Will it rain in Paris on June 1?"))) = false)
      ∧ decodeQuestion (toHex (textEncode (js "Will it rain in Paris on June 1?")))
            (js "0x5FbDB2315678afecb367f032d93F642f64180aa3")
          = cleanedText (textEncode (js "Will it rain in Paris on June 1?")) :=
  ⟨⟨by decide, by decide, by decide, by decide⟩,
    decodeQuestion_text _ (js "0x5FbDB2315678afecb367f032d93F642f64180aa3")
      (by decide) (by decide) (by decide) (by decide)⟩

/-- C15: the question-decoding step never raises: for every raw question value and every
market address string it yields the cleaned decoded text or the fallback label, and when
trimming or parsing the raw value throws, it yields the fallback label. -/
theorem decodeQuestion_total (questionHash marketAddress : JSString) :
    ((∃ decoded, hexToString (trimHex questionHash) = some decoded
        ∧ (decodeQuestion questionHash marketAddress = jsTrim (removeNul decoded)
          ∨ decodeQuestion questionHash marketAddress = fallbackQuestion marketAddress))
      ∨ (hexToString (trimHex questionHash) = none
        ∧ decodeQuestion questionHash marketAddress = fallbackQuestion marketAddress))
      ∧ hexToString (trimHex (js "0xzz")) = none
      ∧ decodeQuestion (js "0xzz") marketAddress = fallbackQuestion marketAddress := by
  have hzz : hexToString (trimHex (js "0xzz")) = none := by decide
  refine ⟨?_, hzz, ?_⟩
  · cases h : hexToString (trimHex questionHash) with
    | none =>
      right
      refine ⟨rfl, ?_⟩
      unfold decodeQuestion
      rw [h]
    | some decoded =>
      left
      refine ⟨decoded, rfl, ?_⟩
      unfold decodeQuestion
      rw [h]
      simp only
      split_ifs
      · right; rfl
      · left; rfl
  · unfold decodeQuestion
    rw [hzz]

/-! ## The trade handler: notifications after the receipt -/

/-- C16: in a run of `handleTrade` whose trace reaches the successful wait for the receipt,
whatever the reads of the following data refresh return, no step after that point is a
failure notification; the steps after it contain the notification of the successful trade
and, when the refresh fails, the success notification `Trade completed! (Data refresh
failed)`. -/
theorem handleTrade_refresh_never_fails (sepolia : ℕ) (parseFloat : JSString → JSNumber)
    (parseEther : JSString → Outcome ℤ) (env : TradeEnv) (type : TradeType)
    (pre post : List UiEvent)
    (h : handleTrade sepolia parseFloat parseEther env type
      = pre ++ UiEvent.receiptAwaited :: post) :
    (∀ message, UiEvent.toastError message ∉ post)
      ∧ UiEvent.toastSuccess (type.toUpperCase ++ js " trade successful! Refreshing data...")
          ∈ post
      ∧ (getMarketDetails env.marketAddress env.readsAfter = none →
          UiEvent.toastSuccess (js "Trade completed! (Data refresh failed)") ∈ post) := by
  obtain ⟨amount, he⟩ := handleTrade_of_receipt sepolia parseFloat parseEther env type
    (by rw [h]; simp)
  rw [he] at h
  have hsplit := (List.append_cons_inj_of_not_mem (by simp) (by
    have := receiptAwaited_not_mem_refreshSteps env.marketAddress env.address env.readsAfter
      (js "Trade completed! (Data refresh failed)")
    simpa using this)).1 h
  obtain ⟨-, -, hpost⟩ := hsplit
  subst hpost
  refine ⟨fun message hm => ?_, by simp, fun hfail => ?_⟩
  · have := toastError_not_mem_refreshSteps env.marketAddress env.address env.readsAfter
      (js "Trade completed! (Data refresh failed)") message
    simp only [List.mem_append, List.mem_singleton, List.mem_cons, List.mem_nil_iff,
      or_false] at hm
    rcases hm with (hm | hm) | hm
    · cases hm
    · exact this hm
    · rcases hm with hm | hm <;> cases hm
  · rw [refreshSteps_failed _ hfail]
    simp

set_option maxRecDepth 100000 in
/-- C16 at a trade of 1 token on the sample market whose data refresh fails -/
theorem handleTrade_refresh_never_fails_witness :
    handleTrade 11155111 parseFloat parseEtherOutcome (sampleTrade (js "1") none) .yes
        = [.setTrading (some .yes) true, .writeContract (js "buyYes") 1000000000000000000]
          ++ UiEvent.receiptAwaited
            :: [.toastSuccess (js "YES trade successful! Refreshing data..."),
                .toastSuccess (js "Trade completed! (Data refresh failed)"),
                .setTradeAmount [], .setTrading none false]
      ∧ ((∀ message, UiEvent.toastError message
            ∉ [.toastSuccess (js "YES trade successful! Refreshing data..."),
                .toastSuccess (js "Trade completed! (Data refresh failed)"),
                .setTradeAmount [], .setTrading none false])
        ∧ UiEvent.toastSuccess (TradeType.yes.toUpperCase
              ++ js " trade successful! Refreshing data...")
            ∈ [.toastSuccess (js "YES trade successful! Refreshing data..."),
                .toastSuccess (js "Trade completed! (Data refresh failed)"),
                .setTradeAmount [], .setTrading none false]
        ∧ (getMarketDetails (sampleTrade (js "1") none).marketAddress
              (sampleTrade (js "1") none).readsAfter = none →
            UiEvent.toastSuccess (js "Trade completed! (Data refresh failed)")
              ∈ [.toastSuccess (js "YES trade successful! Refreshing data..."),
                  .toastSuccess (js "Trade completed! (Data refresh failed)"),
                  .setTradeAmount [], .setTrading none false])) :=
  have htrace : handleTrade 11155111 parseFloat parseEtherOutcome
      (sampleTrade (js "1") none) .yes
        = [.setTrading (some .yes) true, .writeContract (js "buyYes") 1000000000000000000]
          ++ UiEvent.receiptAwaited
            :: [.toastSuccess (js "YES trade successful! Refreshing data..."),
                .toastSuccess (js "Trade completed! (Data refresh failed)"),
                .setTradeAmount [], .setTrading none false] := by
    rw [handleTrade_success 11155111 parseFloat parseEtherOutcome (sampleTrade (js "1") none)
      .yes 1000000000000000000 rfl rfl (by decide) (sampleTrade_guards none).1 rfl
      (sampleTrade_guards none).2.1 (sampleTrade_guards none).2.2 rfl rfl]
    decide
  ⟨htrace, handleTrade_refresh_never_fails 11155111 parseFloat parseEtherOutcome
    (sampleTrade (js "1") none) .yes _ _ htrace⟩

/-! ## Refreshing the displayed data -/

set_option maxRecDepth 100000 in
/-- C17, as stated, fails.  When the market-list read fails, `refreshMarkets` replaces a
displayed list of one market by the empty list.  When the position reads and the allowance
read fail while the market reads succeed, `handleRefreshData` replaces the displayed 2 YES
shares and the allowance of 5 by zero shares and a zero allowance. -/
theorem refresh_overwrites_on_failed_read :
    (failingReads.markets = none
      ∧ sampleDisplay.markets = [js "0x5FbDB2315678afecb367f032d93F642f64180aa3"]
      ∧ (sampleDisplay.run (refreshMarkets (some failingReads))).markets = [])
    ∧ (failingReads.positions = none ∧ failingReads.allowance = none
      ∧ sampleDisplay.userShares = ⟨js "2", js "0"⟩ ∧ sampleDisplay.allowance = js "5"
      ∧ (sampleDisplay.run (handleRefreshData (js "0x5FbDB2315678afecb367f032d93F642f64180aa3")
          (some (js "0xf39Fd6e51aad88F6F4ce6aB8827279cffFb92266"))
          (some failingReads))).userShares = ⟨js "0", js "0"⟩
      ∧ (sampleDisplay.run (handleRefreshData (js "0x5FbDB2315678afecb367f032d93F642f64180aa3")
          (some (js "0xf39Fd6e51aad88F6F4ce6aB8827279cffFb92266"))
          (some failingReads))).allowance = js "0") := by
  refine ⟨⟨rfl, rfl, by decide⟩, rfl, rfl, rfl, rfl, by decide, by decide⟩

/-- C17, amended: when the read of the market details fails, `handleRefreshData` and
`handleTrade` (with its refresh after the trade) leave the displayed state as it was.  The
other reads do not fail the refresh: `refreshMarkets` always displays the list returned by
`getAllMarkets`, which is empty when the market-list read fails, and when the market details
are read, `handleRefreshData` displays them together with the shares and the allowance
returned by `getUserMarketShares` and `getUserAllowance`, which are zero when their reads
fail. -/
theorem refresh_frame (s : DisplayState) (marketAddress : JSString) (address : Option JSString)
    (publicClient : Option ChainReads) (sepolia : ℕ) (parseFloat : JSString → JSNumber)
    (parseEther : JSString → Outcome ℤ) (env : TradeEnv) (type : TradeType) :
    (getMarketDetails marketAddress publicClient = none →
        s.run (handleRefreshData marketAddress address publicClient) = s)
      ∧ (getMarketDetails env.marketAddress env.readsAfter = none →
        s.run (handleTrade sepolia parseFloat parseEther env type) = s)
      ∧ s.run (refreshMarkets publicClient) = { s with markets := getAllMarkets publicClient }
      ∧ (∀ client, client.markets = none → getAllMarkets (some client) = [])
      ∧ (∀ client marketData, publicClient = some client → marketAddress ≠ [] →
          truthy address = true →
          getMarketDetails marketAddress publicClient = some marketData →
          s.run (handleRefreshData marketAddress address publicClient)
            = { s with
                market := some marketData
                userShares := getUserMarketShares address (some marketAddress) publicClient
                allowance := getUserAllowance address (some marketAddress) publicClient })
      ∧ (∀ client, client.positions = none →
          getUserMarketShares address (some marketAddress) (some client) = ⟨js "0", js "0"⟩)
      ∧ (∀ client, client.allowance = none →
          getUserAllowance address (some marketAddress) (some client) = js "0") := by
  refine ⟨fun h => ?_, fun h => ?_, rfl, fun client h => ?_, ?_, fun client h => ?_,
    fun client h => ?_⟩
  · unfold handleRefreshData
    split_ifs
    · rfl
    · rw [refreshSteps_failed _ h]
      rfl
  · rcases run_handleTrade s sepolia parseFloat parseEther env type with h1 | h1
    · exact h1
    · rw [h1, refreshSteps_failed _ h]
      rfl
  · simp only [getAllMarkets, h]
  · intro client marketData hc hm ht hd
    have hm' : marketAddress.isEmpty = false := by
      cases hq : marketAddress with
      | nil => exact absurd hq hm
      | cons _ _ => rfl
    unfold handleRefreshData
    rw [refreshSteps_ok _ hd]
    simp only [hm', ht, hc, Option.isNone_some, Bool.not_true, Bool.or_self,
      Bool.false_eq_true, if_false]
    rfl
  · unfold getUserMarketShares
    split_ifs
    · rfl
    · simp only [h]
  · unfold getUserAllowance
    split_ifs
    · rfl
    · simp only [h]

set_option maxRecDepth 100000 in
/-- The amended C17 at the sample display and a client whose every read fails -/
theorem refresh_frame_witness :
    getMarketDetails (js "0x5FbDB2315678afecb367f032d93F642f64180aa3")
        (some ⟨none, none, none, none⟩) = none
      ∧ sampleDisplay.run (handleRefreshData (js "0x5FbDB2315678afecb367f032d93F642f64180aa3")
          (some (js "0xf39Fd6e51aad88F6F4ce6aB8827279cffFb92266"))
          (some ⟨none, none, none, none⟩)) = sampleDisplay
      ∧ sampleDisplay.run (handleTrade 11155111 parseFloat parseEtherOutcome
          (sampleTrade (js "1") (some ⟨none, none, none, none⟩)) .yes) = sampleDisplay :=
  ⟨rfl,
    (refresh_frame sampleDisplay (js "0x5FbDB2315678afecb367f032d93F642f64180aa3")
      (some (js "0xf39Fd6e51aad88F6F4ce6aB8827279cffFb92266")) (some ⟨none, none, none, none⟩)
      11155111 parseFloat parseEtherOutcome
      (sampleTrade (js "1") (some ⟨none, none, none, none⟩)) .yes).1 rfl,
    (refresh_frame sampleDisplay (js "0x5FbDB2315678afecb367f032d93F642f64180aa3")
      (some (js "0xf39Fd6e51aad88F6F4ce6aB8827279cffFb92266")) (some ⟨none, none, none, none⟩)
      11155111 parseFloat parseEtherOutcome
      (sampleTrade (js "1") (some ⟨none, none, none, none⟩)) .yes).2.1 rfl⟩

/-! ## The question codec: the form limit -/

set_option maxRecDepth 100000 in
/-- C18, as stated, fails: the question made of eleven euro signs has 11 characters, within
the limit of 32 that the form enforces, but its UTF-8 encoding has 33 bytes; the buffer
holds the first 32 of them and the last byte 0xAC is dropped. -/
theorem questionBuffer_truncates_short_question :
    (js "€€€€€€€€€€€").length = 11
      ∧ (textEncode (js "€€€€€€€€€€€")).length = 33
      ∧ questionBuffer (js "€€€€€€€€€€€") = some ((textEncode (js "€€€€€€€€€€€")).take 32)
      ∧ ¬ ∃ padding,
          questionBuffer (js "€€€€€€€€€€€") = some (textEncode (js "€€€€€€€€€€€") ++ padding) := by
  refine ⟨by decide, by decide, by decide, ?_⟩
  rw [questionBuffer_whole_iff]
  decide

/-- C18, amended: the question is encoded without truncation (the buffer starts with every
byte of its UTF-8 encoding) exactly when that encoding has at most 32 bytes.  This holds for
every question of at most 32 ASCII characters and for every question of at most 10
characters, and it fails for every question longer than 32 characters. -/
theorem questionBuffer_whole (question : JSString) :
    ((∃ padding, questionBuffer question = some (textEncode question ++ padding))
        ↔ (textEncode question).length ≤ 32)
      ∧ (isAscii question = true → question.length ≤ 32 →
          ∃ padding, questionBuffer question = some (textEncode question ++ padding))
      ∧ (question.length ≤ 10 →
          ∃ padding, questionBuffer question = some (textEncode question ++ padding))
      ∧ (32 < question.length →
          questionBuffer question = some ((textEncode question).take 32)
            ∧ ¬ ∃ padding, questionBuffer question = some (textEncode question ++ padding)) := by
  have hb := textEncode_length_bounds question
  refine ⟨questionBuffer_whole_iff question, fun hascii hlen => ?_, fun hlen => ?_, fun hlen => ?_⟩
  · rw [questionBuffer_whole_iff, textEncode_length_ascii question
      (fun u hu => of_decide_eq_true (List.all_eq_true.1 hascii u hu))]
    exact hlen
  · rw [questionBuffer_whole_iff]
    omega
  · refine ⟨questionBuffer_long (by omega), ?_⟩
    rw [questionBuffer_whole_iff]
    omega

set_option maxRecDepth 100000 in
/-- The amended C18 at the question `Will it rain?` (13 ASCII characters) -/
theorem questionBuffer_whole_witness :
    isAscii (js "Will it rain?") = true ∧ (js "Will it rain?").length ≤ 32
      ∧ ∃ padding, questionBuffer (js "Will it rain?")
          = some (textEncode (js "Will it rain?") ++ padding) :=
  ⟨by decide, by decide,
    (questionBuffer_whole (js "Will it rain?")).2.1 (by decide) (by decide)⟩

/-! ## Contract reads -/

/-- C19: whenever the contract reads succeed, `getMarketDetails` returns a record, and its
field `resolved` is true if and only if the state read from the contract is 2; for the
states 0 and 1 it is false. -/
theorem getMarketDetails_resolved (marketAddress : JSString) (client : ChainReads)
    (reads : MarketReads) (h : client.market = some reads) :
    ∃ marketData, getMarketDetails marketAddress (some client) = some marketData
      ∧ (marketData.resolved = true ↔ reads.state = 2)
      ∧ (reads.state = 0 → marketData.resolved = false)
      ∧ (reads.state = 1 → marketData.resolved = false) := by
  simp only [getMarketDetails, h]
  exact ⟨_, rfl, by simp, fun h0 => by simp [h0], fun h1 => by simp [h1]⟩

/-- C19 at the sample market in state 2 (resolved) -/
theorem getMarketDetails_resolved_witness :
    ({ sampleReads with market := some (sampleMarketReads 2) } : ChainReads).market
        = some (sampleMarketReads 2)
      ∧ ∃ marketData,
        getMarketDetails (js "0x5FbDB2315678afecb367f032d93F642f64180aa3")
            (some { sampleReads with market := some (sampleMarketReads 2) }) = some marketData
          ∧ (marketData.resolved = true ↔ (sampleMarketReads 2).state = 2)
          ∧ ((sampleMarketReads 2).state = 0 → marketData.resolved = false)
          ∧ ((sampleMarketReads 2).state = 1 → marketData.resolved = false) :=
  ⟨rfl, getMarketDetails_resolved (js "0x5FbDB2315678afecb367f032d93F642f64180aa3")
    { sampleReads with market := some (sampleMarketReads 2) } (sampleMarketReads 2) rfl⟩

/-! ## The trade handler: guards of the contract write -/

set_option maxRecDepth 100000 in
/-- C20, as stated, fails, in two ways.  With the amount text made of a single point,
`parseFloat` gives NaN, which is not a value greater than 0, yet both comparisons of
`handleTrade` are false on NaN, `parseEther` reads the text as 0, and the `buyYes` write is
submitted with amount 0.  With an allowance of 5 tokens (5000000000000000000 units) and the
amount text 5.000000000000000001, the amount exceeds the allowance, but both texts parse to
the Number 5, the comparison `5 < 5` is false, and the write is submitted with amount
5000000000000000001. -/
theorem handleTrade_writes_unguarded :
    (parseFloat (js ".") = .nan
      ∧ (JSNumber.fin 0).lt (parseFloat (js ".")) = false
      ∧ UiEvent.writeContract (js "buyYes") 0
          ∈ handleTrade 11155111 parseFloat parseEtherOutcome (sampleTrade (js ".") none) .yes)
    ∧ (sampleReads.allowance = some 5000000000000000000
      ∧ getUserAllowance (sampleTrade (js "5.000000000000000001") none).address
          (some (sampleTrade (js "5.000000000000000001") none).marketAddress)
          (sampleTrade (js "5.000000000000000001") none).readsBefore = js "5"
      ∧ parseFloat (js "5.000000000000000001") = parseFloat (js "5")
      ∧ UiEvent.writeContract (js "buyYes") 5000000000000000001
          ∈ handleTrade 11155111 parseFloat parseEtherOutcome
              (sampleTrade (js "5.000000000000000001") none) .yes) := by
  have hnan : parseFloat (js ".") = .nan := by decide
  have h5 : parseFloat (js "5") = .fin (5 : ℕ) :=
    parseFloat_natCast (by decide) (by norm_num)
  have h5' : parseFloat (js "5") = .fin 5 := by simpa using h5
  have ha : getUserAllowance (some (js "0xf39Fd6e51aad88F6F4ce6aB8827279cffFb92266"))
      (some (js "0x5FbDB2315678afecb367f032d93F642f64180aa3")) (some sampleReads)
        = js "5" := by decide
  refine ⟨⟨hnan, by rw [hnan]; rfl, ?_⟩, rfl, ha, ?_, ?_⟩
  · obtain ⟨rest, he⟩ := handleTrade_write 11155111 parseFloat parseEtherOutcome
      (sampleTrade (js ".") none) .yes 0 rfl rfl (by decide)
      (by show (parseFloat (js ".")).le (.fin 0) = false; rw [hnan]; rfl) rfl
      (by
        show (parseFloat _).lt (parseFloat (js ".")) = false
        rw [hnan]; exact JSNumber.lt_nan _)
      (by decide)
    rw [he]
    exact List.mem_cons_of_mem _ (List.mem_cons_self _ _)
  · rw [parseFloat_five_and_one_wei, h5']
  · obtain ⟨rest, he⟩ := handleTrade_write 11155111 parseFloat parseEtherOutcome
      (sampleTrade (js "5.000000000000000001") none) .yes 5000000000000000001 rfl rfl
      (by decide)
      (by
        show (parseFloat (js "5.000000000000000001")).le (.fin 0) = false
        rw [parseFloat_five_and_one_wei]; simp [JSNumber.le])
      rfl
      (by
        show (parseFloat (getUserAllowance
          (some (js "0xf39Fd6e51aad88F6F4ce6aB8827279cffFb92266"))
          (some (js "0x5FbDB2315678afecb367f032d93F642f64180aa3")) (some sampleReads))).lt
            (parseFloat (js "5.000000000000000001")) = false
        rw [ha, parseFloat_five_and_one_wei, h5']; simp [JSNumber.lt])
      (by decide)
    rw [he]
    exact List.mem_cons_of_mem _ (List.mem_cons_self _ _)

/-- C20, amended: `handleTrade` submits a `buyYes` or `buyNo` write only if the wallet is
connected, the account chain and the wallet chain are both Sepolia, the amount text is not
empty and its `parseFloat` value is not `<= 0`, the freshly fetched allowance is not `<` that
value, and `parseEther` accepts the text; the function written is the one of the trade type
and the amount is the `parseEther` value.  Whenever the amount text parses to a number (not
NaN), the Number value of the amount is greater than 0 and is at most the Number value of
the allowance. -/
theorem handleTrade_write_guarded (sepolia : ℕ) (parseEther : JSString → Outcome ℤ)
    (env : TradeEnv) (type : TradeType) (functionName : JSString) (amount : ℤ)
    (h : UiEvent.writeContract functionName amount
      ∈ handleTrade sepolia parseFloat parseEther env type) :
    env.isConnected = true ∧ env.chainId = some sepolia
      ∧ env.walletChainId = .ok (some sepolia)
      ∧ env.tradeAmount ≠ []
      ∧ (parseFloat env.tradeAmount).le (.fin 0) = false
      ∧ (parseFloat (getUserAllowance env.address (some env.marketAddress)
          env.readsBefore)).lt (parseFloat env.tradeAmount) = false
      ∧ parseEther env.tradeAmount = .ok amount
      ∧ functionName = type.functionName
      ∧ (parseFloat env.tradeAmount ≠ .nan →
          (JSNumber.fin 0).lt (parseFloat env.tradeAmount) = true
            ∧ (parseFloat env.tradeAmount).le (parseFloat (getUserAllowance env.address
                (some env.marketAddress) env.readsBefore)) = true) := by
  obtain ⟨h1, h2, h3, h4, h5, h6, h7, h8⟩ :=
    handleTrade_of_write sepolia parseFloat parseEther env type functionName amount h
  refine ⟨h1, h2, h3, h4, h5, h6, h7, h8, fun hnum => ⟨?_, ?_⟩⟩
  · exact le_zero_false_of_ne_nan hnum h5
  · exact lt_false_of_ne_nan (parseFloat_getUserAllowance _ _ _) hnum h6

set_option maxRecDepth 100000 in
/-- The amended C20 at a trade of 1 token on the sample market, with an allowance of 5 -/
theorem handleTrade_write_guarded_witness :
    UiEvent.writeContract (js "buyYes") 1000000000000000000
        ∈ handleTrade 11155111 parseFloat parseEtherOutcome (sampleTrade (js "1") none) .yes
      ∧ parseFloat (sampleTrade (js "1") none).tradeAmount ≠ .nan
      ∧ (JSNumber.fin 0).lt (parseFloat (sampleTrade (js "1") none).tradeAmount) = true
      ∧ (parseFloat (sampleTrade (js "1") none).tradeAmount).le
          (parseFloat (getUserAllowance (sampleTrade (js "1") none).address
            (some (sampleTrade (js "1") none).marketAddress)
            (sampleTrade (js "1") none).readsBefore)) = true :=
  have hmem : UiEvent.writeContract (js "buyYes") 1000000000000000000
      ∈ handleTrade 11155111 parseFloat parseEtherOutcome (sampleTrade (js "1") none)
          .yes := by
    obtain ⟨rest, he⟩ := handleTrade_write 11155111 parseFloat parseEtherOutcome
      (sampleTrade (js "1") none) .yes 1000000000000000000 rfl rfl (by decide)
      (sampleTrade_guards none).1 rfl (sampleTrade_guards none).2.1 (sampleTrade_guards none).2.2
    rw [he]
    exact List.mem_cons_of_mem _ (List.mem_cons_self _ _)
  have hnum : parseFloat (sampleTrade (js "1") none).tradeAmount ≠ .nan :=
    parseFloat_ne_nan_of_digit 49 [] (by decide)
  ⟨hmem, hnum,
    (handleTrade_write_guarded 11155111 parseEtherOutcome (sampleTrade (js "1") none) .yes
      (js "buyYes") 1000000000000000000 hmem).2.2.2.2.2.2.2.2 hnum⟩

/-! ## The approval handler -/

set_option maxRecDepth 100000 in
theorem maxApproval_value :
    maxApproval.all isDigit = true ∧ digitsValue maxApproval = 2 ^ 256 - 1 := by
  constructor <;> decide

/-- C21: whenever `handleApprove` submits the `approve` write, the spender is the market and
the amount is the literal `maxApproval`, a string of decimal digits whose value is
`2^256 - 1`, the largest value of a uint256. -/
theorem handleApprove_amount (sepolia : ℕ) (env : ApproveEnv) (spender amount : JSString)
    (h : UiEvent.writeApprove spender amount ∈ handleApprove sepolia env) :
    spender = env.marketAddress ∧ amount = maxApproval ∧ amount.all isDigit = true
      ∧ digitsValue amount = 2 ^ 256 - 1 ∧ digitsValue amount + 1 = 2 ^ 256 := by
  have hv := maxApproval_value
  have key : spender = env.marketAddress ∧ amount = maxApproval := by
    unfold handleApprove at h
    split_ifs at h with h1
    · simp at h
    · cases hw : env.walletChainId with
      | failed message => rw [hw] at h; simp [approvalFailed] at h
      | ok walletChainId =>
        rw [hw] at h
        simp only at h
        split_ifs at h with h2
        · simp at h
        · cases hwr : env.write with
          | failed message => rw [hwr] at h; simpa [approvalFailed] using h
          | ok _ =>
            rw [hwr] at h
            cases hr : env.receipt with
            | failed message => rw [hr] at h; simpa [approvalFailed] using h
            | ok _ => rw [hr] at h; simpa using h
  obtain ⟨hs, ha⟩ := key
  rw [ha]
  refine ⟨hs, rfl, hv.1, hv.2, ?_⟩
  rw [hv.2]
  norm_num

set_option maxRecDepth 100000 in
/-- C21 at an approval of the sample market -/
theorem handleApprove_amount_witness :
    UiEvent.writeApprove (js "0x5FbDB2315678afecb367f032d93F642f64180aa3")
        (js "115792089237316195423570985008687907853269984665640564039457584007913129639935")
      ∈ handleApprove 11155111 sampleApprove
    ∧ digitsValue
        (js "115792089237316195423570985008687907853269984665640564039457584007913129639935")
      = 2 ^ 256 - 1 :=
  ⟨by decide,
    (handleApprove_amount 11155111 sampleApprove
      (js "0x5FbDB2315678afecb367f032d93F642f64180aa3")
      (js "115792089237316195423570985008687907853269984665640564039457584007913129639935")
      (by decide)).2.2.2.1⟩

/-! ## The resolution time of the quick-time buttons -/

set_option maxRecDepth 100000 in
/-- C22 fails on the code: at `Date.now() = 1767225645500` (2026-01-01 00:00:45.5 UTC) the
button `1hour` writes the UTC text `2026-01-01T01:00` to the form, `handleCreateMarket`
reads that text as local time, and in a browser one hour ahead of UTC the resolution time
is 1767225600, which is one hour before `now + 3600` truncated to the minute (1767229200)
and even before `now`; five hours behind UTC it is five hours after it.  Only with a zero
offset does the derived value equal the claimed one. -/
theorem setQuickTime_shifted_by_offset :
    setQuickTime (js "1hour") 1767225645500 = js "2026-01-01T01:00"
      ∧ (1767225645500 / 1000 + 3600) / 60 * 60 = 1767229200
      ∧ resolveTimestampOf 60 (setQuickTime (js "1hour") 1767225645500) 1767225645500
          = some 1767225600
      ∧ resolveTimestampOf (-300) (setQuickTime (js "1hour") 1767225645500) 1767225645500
          = some 1767247200
      ∧ resolveTimestampOf 0 (setQuickTime (js "1hour") 1767225645500) 1767225645500
          = some 1767229200 := by
  refine ⟨by decide, by decide, by decide, by decide, by decide⟩

/-! ## The quoting engine: the share quantity -/

/-- C23, as stated, fails: for `pool = 2^53` and `trade = 1` the computed share quantity is
0, not `pool * trade / (pool + trade) = 2^53 / (2^53 + 1)`, and it is not symmetric: with
the operands swapped the computed quantity is `1 - 2^-53`. -/
theorem tradeShares_not_formula :
    IsDouble (2 ^ 53) ∧ IsDouble 1 ∧ (0 : ℚ) < 2 ^ 53 ∧ (0 : ℚ) < 1
      ∧ tradeShares (fin (2 ^ 53)) (fin 1) true = fin 0
      ∧ tradeShares (fin (2 ^ 53)) (fin 1) true ≠ fin (2 ^ 53 * 1 / (2 ^ 53 + 1))
      ∧ tradeShares (fin 1) (fin (2 ^ 53)) true = fin (9007199254740991 / 9007199254740992)
      ∧ tradeShares (fin (2 ^ 53)) (fin 1) true ≠ tradeShares (fin 1) (fin (2 ^ 53)) true := by
  have h1 : IsDouble 1 := by simpa using isDouble_intCast 1 (by norm_num)
  refine ⟨isDouble_two_pow 53 (by norm_num), h1, by norm_num, by norm_num,
    tradeShares_large_pool true, ?_, tradeShares_large_trade true, ?_⟩
  · rw [tradeShares_large_pool]
    intro h
    injection h with h
    norm_num at h
  · rw [tradeShares_large_pool, tradeShares_large_trade]
    intro h
    injection h with h
    norm_num at h

/-- C23, amended: for every `pool > 0` and `trade > 0`, the share quantity
`|pool² / (pool + trade) − pool|` in exact arithmetic equals `pool * trade / (pool + trade)`:
the absolute value is redundant because `pool² / (pool + trade) < pool`, and the quantity is
symmetric under swapping pool and trade.  The quantity that `calculateTradeAmount` computes
in binary64 arithmetic does not depend on `isYes`, and for binary64 operands between `2^-500`
and `2^500` it is finite and differs from the exact quantity by at most `2^-50 * pool`. -/
theorem tradeShares_formula (pool trade : ℚ) (hp : 0 < pool) (ht : 0 < trade) :
    (pool ^ 2 / (pool + trade) < pool
        ∧ sharesFormula pool trade = pool * trade / (pool + trade)
        ∧ sharesFormula pool trade = sharesFormula trade pool)
      ∧ (tradeShares (fin pool) (fin trade) true = tradeShares (fin pool) (fin trade) false
        ∧ ∀ numberToString,
          calculateTradeAmount numberToString (some (fin pool)) (some (fin trade)) true
            = calculateTradeAmount numberToString (some (fin pool)) (some (fin trade)) false)
      ∧ (IsDouble pool → IsDouble trade → 1 / 2 ^ 500 ≤ pool → pool ≤ 2 ^ 500 →
          trade ≤ 2 ^ 500 →
          ∀ isYes, ∃ s, tradeShares (fin pool) (fin trade) isYes = fin s
            ∧ |s - pool * trade / (pool + trade)| ≤ pool / 2 ^ 50) := by
  have hx := sharesFormula_eq hp ht
  have hy := sharesFormula_eq ht hp
  refine ⟨⟨hx.1, hx.2.1, ?_⟩, ⟨rfl, fun _ => rfl⟩, ?_⟩
  · rw [hx.2.1, hy.2.1, mul_comm, add_comm]
  · intro hdp hdt hpl hpu htu isYes
    obtain ⟨s, hs, -, hnear⟩ := tradeShares_near isYes hdp hdt hpl hpu ht htu
    exact ⟨s, hs, hnear⟩

/-- The amended C23 at `pool = 100` and `trade = 10` -/
theorem tradeShares_formula_witness :
    (0 : ℚ) < 100 ∧ (0 : ℚ) < 10
      ∧ sharesFormula 100 10 = 100 * 10 / (100 + 10)
      ∧ ∃ s, tradeShares (fin 100) (fin 10) true = fin s
          ∧ |s - 100 * 10 / (100 + 10)| ≤ 100 / 2 ^ 50 :=
  ⟨by norm_num, by norm_num,
    (tradeShares_formula 100 10 (by norm_num) (by norm_num)).1.2.1,
    (tradeShares_formula 100 10 (by norm_num) (by norm_num)).2.2
      (by simpa using isDouble_intCast 100 (by norm_num))
      (by simpa using isDouble_intCast 10 (by norm_num))
      (by norm_num) (by norm_num) (by norm_num) true⟩

/-- C24, as stated, fails: the computed share quantity is 0, not strictly positive, for
`pool = 2^53` and `trade = 1`; it equals the trade, not less, for `pool = 2^60` and
`trade = 256`; and it equals the pool, not less, for `pool = 1` and `trade = 2^60`. -/
theorem tradeShares_not_strict :
    (IsDouble (2 ^ 53) ∧ IsDouble 1 ∧ IsDouble (2 ^ 60) ∧ IsDouble 256)
      ∧ (tradeShares (fin (2 ^ 53)) (fin 1) true = fin 0
        ∧ (fin 0).lt (tradeShares (fin (2 ^ 53)) (fin 1) true) = false)
      ∧ (tradeShares (fin (2 ^ 60)) (fin 256) true = fin 256
        ∧ (tradeShares (fin (2 ^ 60)) (fin 256) true).lt (fin 256) = false)
      ∧ (tradeShares (fin 1) (fin (2 ^ 60)) true = fin 1
        ∧ (tradeShares (fin 1) (fin (2 ^ 60)) true).lt (fin 1) = false) := by
  have h1 : IsDouble 1 := by simpa using isDouble_intCast 1 (by norm_num)
  have h256 : IsDouble 256 := by simpa using isDouble_intCast 256 (by norm_num)
  refine ⟨⟨isDouble_two_pow 53 (by norm_num), h1, isDouble_two_pow 60 (by norm_num), h256⟩,
    ⟨tradeShares_large_pool true, ?_⟩, ⟨tradeShares_equal_trade true, ?_⟩,
    ⟨tradeShares_equal_pool true, ?_⟩⟩
  · rw [tradeShares_large_pool]; simp [JSNumber.lt]
  · rw [tradeShares_equal_trade]; simp [JSNumber.lt]
  · rw [tradeShares_equal_pool]; simp [JSNumber.lt]

/-- C24, amended: for every `pool > 0` and `trade > 0`, the exact share quantity
`|pool² / (pool + trade) − pool|` is strictly positive, strictly less than the trade amount
and strictly less than the pool reserve.  The quantity that `calculateTradeAmount` computes
in binary64 arithmetic, for binary64 operands between `2^-500` and `2^500`, is finite, not
negative, and within `2^-50 * pool` of the exact quantity, hence below
`trade + 2^-50 * pool` and below `pool + 2^-50 * pool`. -/
theorem tradeShares_bounds (pool trade : ℚ) (hp : 0 < pool) (ht : 0 < trade) :
    (0 < sharesFormula pool trade ∧ sharesFormula pool trade < trade
        ∧ sharesFormula pool trade < pool)
      ∧ (IsDouble pool → IsDouble trade → 1 / 2 ^ 500 ≤ pool → pool ≤ 2 ^ 500 →
          trade ≤ 2 ^ 500 →
          ∀ isYes, ∃ s, tradeShares (fin pool) (fin trade) isYes = fin s
            ∧ 0 ≤ s ∧ |s - sharesFormula pool trade| ≤ pool / 2 ^ 50
            ∧ s < trade + pool / 2 ^ 50 ∧ s < pool + pool / 2 ^ 50) := by
  have hx := sharesFormula_eq hp ht
  have hs : 0 < pool + trade := by linarith
  have hpos : 0 < sharesFormula pool trade := by
    rw [hx.2.1]
    exact div_pos (mul_pos hp ht) hs
  have hlt : sharesFormula pool trade < trade := by
    rw [hx.2.1, div_lt_iff₀ hs]
    nlinarith
  have hlp : sharesFormula pool trade < pool := by
    rw [hx.2.1, div_lt_iff₀ hs]
    nlinarith
  refine ⟨⟨hpos, hlt, hlp⟩, ?_⟩
  intro hdp hdt hpl hpu htu isYes
  obtain ⟨s, hs, hs0, hnear⟩ := tradeShares_near isYes hdp hdt hpl hpu ht htu
  rw [← hx.2.1] at hnear
  have h := abs_le.1 hnear
  exact ⟨s, hs, hs0, hnear, by linarith, by linarith⟩

/-- The amended C24 at `pool = 100` and `trade = 10` -/
theorem tradeShares_bounds_witness :
    (0 : ℚ) < 100 ∧ (0 : ℚ) < 10
      ∧ (0 < sharesFormula 100 10 ∧ sharesFormula 100 10 < 10 ∧ sharesFormula 100 10 < 100)
      ∧ ∃ s, tradeShares (fin 100) (fin 10) true = fin s
          ∧ 0 ≤ s ∧ |s - sharesFormula 100 10| ≤ 100 / 2 ^ 50
          ∧ s < 10 + 100 / 2 ^ 50 ∧ s < 100 + 100 / 2 ^ 50 :=
  ⟨by norm_num, by norm_num,
    (tradeShares_bounds 100 10 (by norm_num) (by norm_num)).1,
    (tradeShares_bounds 100 10 (by norm_num) (by norm_num)).2
      (by simpa using isDouble_intCast 100 (by norm_num))
      (by simpa using isDouble_intCast 10 (by norm_num))
      (by norm_num) (by norm_num) (by norm_num) true⟩

/-! ## The question codec: questions cut inside a code point -/

set_option maxRecDepth 100000 in
/-- C25, as stated, fails in its last part: for the market `0x5FbDB2…` and the question made
of the label `Market Question (0x5FbDB2...)`, the letters ab and a euro sign, the encoding
has 34 bytes, its 32nd byte is the first of the three bytes of the euro sign, and the decoder
returns the fallback label, which is a prefix of that question. -/
theorem decodeQuestion_fallback_may_begin_question :
    toScalars (js "Market Question (0x5FbDB2...)ab€")
        = toScalars (js "Market Question (0x5FbDB2...)ab") ++ [0x20AC]
      ∧ ((toScalars (js "Market Question (0x5FbDB2...)ab")).flatMap utf8EncodeScalar).length = 31
      ∧ (utf8EncodeScalar 0x20AC).length = 3
      ∧ (textEncode (js "Market Question (0x5FbDB2...)ab€")).length = 34
      ∧ questionHash (js "Market Question (0x5FbDB2...)ab€")
          = some (js "0x4d61726b6574205175657374696f6e202830783546624442322e2e2e296162e2")
      ∧ decodeQuestion (js "0x4d61726b6574205175657374696f6e202830783546624442322e2e2e296162e2")
          (js "0x5FbDB2315678afecb367f032d93F642f64180aa3") = js "Market Question (0x5FbDB2...)"
      ∧ (js "Market Question (0x5FbDB2...)").isPrefixOf (js "Market Question (0x5FbDB2...)ab€")
          = true := by
  refine ⟨by decide, by decide, by decide, by decide, by decide, by decide, by decide⟩

/-- C25, amended: for every question whose 32nd encoded byte falls strictly inside the
encoding of a multi-byte code point (so that the encoding is longer than 32 bytes), the
encoder produces a value and decoding it returns the fallback label built from the first 8
characters of the address; the value returned is a prefix of the question only if the
question itself begins with that label. -/
theorem decodeQuestion_split_code_point (question marketAddress : JSString)
    (before after : List ℕ) (c : ℕ)
    (hsplit : toScalars question = before ++ c :: after)
    (hlo : (before.flatMap utf8EncodeScalar).length < 32)
    (hhi : 32 < (before.flatMap utf8EncodeScalar).length + (utf8EncodeScalar c).length) :
    32 < (textEncode question).length
      ∧ ∃ hash, questionHash question = some hash
        ∧ decodeQuestion hash marketAddress
            = js "Market Question (" ++ marketAddress.take 8 ++ js "...)"
        ∧ ((decodeQuestion hash marketAddress).isPrefixOf question = true
            → (js "Market Question (" ++ marketAddress.take 8 ++ js "...)").isPrefixOf question
                = true) := by
  obtain ⟨hlen, hrep⟩ := replacement_of_split question before after c hsplit hlo hhi
  refine ⟨hlen, toHex ((textEncode question).take 32), ?_, ?_⟩
  · unfold questionHash
    rw [questionBuffer_long hlen]
    rfl
  · have hl32 : ((textEncode question).take 32).length = 32 := by
      rw [List.length_take]
      omega
    have hd := decodeQuestion_of_replacement ((textEncode question).take 32)
      marketAddress (by intro h; rw [h] at hl32; simp at hl32) hrep
    exact ⟨hd, fun h => by rw [hd] at h; exact h⟩

set_option maxRecDepth 100000 in
/-- The amended C25 at the question made of eleven euro signs, cut inside the last one -/
theorem decodeQuestion_split_code_point_witness :
    toScalars (js "€€€€€€€€€€€") = List.replicate 10 0x20AC ++ 0x20AC :: []
      ∧ ((List.replicate 10 0x20AC).flatMap utf8EncodeScalar).length < 32
      ∧ 32 < ((List.replicate 10 0x20AC).flatMap utf8EncodeScalar).length
          + (utf8EncodeScalar 0x20AC).length
      ∧ 32 < (textEncode (js "€€€€€€€€€€€")).length
      ∧ ∃ hash, questionHash (js "€€€€€€€€€€€") = some hash
        ∧ decodeQuestion hash (js "0x5FbDB2315678afecb367f032d93F642f64180aa3")
            = js "Market Question (" ++ (js "0x5FbDB2315678afecb367f032d93F642f64180aa3").take 8
                ++ js "...)"
        ∧ ((decodeQuestion hash (js "0x5FbDB2315678afecb367f032d93F642f64180aa3")).isPrefixOf
              (js "€€€€€€€€€€€") = true
            → (js "Market Question ("
                ++ (js "0x5FbDB2315678afecb367f032d93F642f64180aa3").take 8
                ++ js "...)").isPrefixOf (js "€€€€€€€€€€€") = true) :=
  ⟨by decide, by decide, by decide,
    decodeQuestion_split_code_point (js "€€€€€€€€€€€")
      (js "0x5FbDB2315678afecb367f032d93F642f64180aa3") (List.replicate 10 0x20AC) [] 0x20AC
      (by decide) (by decide) (by decide)⟩

/-! ## The question codec: the length of the decoded text -/

/-- C26: for every 32-byte buffer, the decoder reads a text from the trimmed hexadecimal
string, and that text, with NUL characters removed and white space trimmed, has at most 32
UTF-16 code units; its length is therefore never above 50, and the value returned by the
decoder is the fallback label or a text of at most 32 code units. -/
theorem decodeQuestion_text_length (buffer : List Byte) (marketAddress : JSString)
    (hlen : buffer.length = 32) :
    ∃ decoded, hexToString (trimHex (toHex buffer)) = some decoded
      ∧ (jsTrim (removeNul decoded)).length ≤ 32
      ∧ ¬ 50 < (jsTrim (removeNul decoded)).length
      ∧ (decodeQuestion (toHex buffer) marketAddress
            = js "Market Question (" ++ marketAddress.take 8 ++ js "...)"
          ∨ (decodeQuestion (toHex buffer) marketAddress = jsTrim (removeNul decoded)
            ∧ (decodeQuestion (toHex buffer) marketAddress).length ≤ 32)) := by
  have hne : buffer ≠ [] := by
    intro h
    rw [h] at hlen
    simp at hlen
  have hbytes : hexToBytes (trimHex (toHex buffer)) = some (stripLeadingZeros buffer) :=
    hexToBytes_trimHex_toHex buffer hne
  have hstr : hexToString (trimHex (toHex buffer))
      = some (textDecode (stripLeadingZeros buffer)) := by
    unfold hexToString
    rw [hbytes]
    rfl
  have hle : (jsTrim (removeNul (textDecode (stripLeadingZeros buffer)))).length ≤ 32 :=
    calc (jsTrim (removeNul (textDecode (stripLeadingZeros buffer)))).length
        ≤ (removeNul (textDecode (stripLeadingZeros buffer))).length := length_jsTrim_le _
      _ ≤ (textDecode (stripLeadingZeros buffer)).length := length_removeNul_le _
      _ ≤ (stripLeadingZeros buffer).length := length_textDecode_le _
      _ ≤ buffer.length := length_stripLeadingZeros_le buffer hne
      _ = 32 := hlen
  refine ⟨_, hstr, hle, by omega, ?_⟩
  unfold decodeQuestion
  rw [hstr]
  simp only
  split_ifs
  · left; rfl
  · right; exact ⟨rfl, hle⟩

set_option maxRecDepth 100000 in
/-- C26 at the buffer of the question `Will it rain?` -/
theorem decodeQuestion_text_length_witness :
    (textEncode (js "Will it rain?") ++ List.replicate 19 0).length = 32
      ∧ ∃ decoded,
        hexToString (trimHex (toHex (textEncode (js "Will it rain?") ++ List.replicate 19 0)))
            = some decoded
          ∧ (jsTrim (removeNul decoded)).length ≤ 32 :=
  ⟨by decide,
    (decodeQuestion_text_length (textEncode (js "Will it rain?") ++ List.replicate 19 0)
      (js "0x5FbDB2315678afecb367f032d93F642f64180aa3") (by decide)).imp
      fun _ h => ⟨h.1, h.2.1⟩⟩

end LoafMarket
